import Mathlib

/-!
# The batched CUDA context of `batch.go`

A shallow embedding of `BatchedContext` and of the operations defined on it.

* A Go pointer `*fnargs` is an index into `World.heap`, the descriptors allocated so far;
  `fnargs.c()` converts the pointer to an integer, so the reference array `fns` holds the
  same indices.
* The buffered channel `work` is the FIFO list of the calls it holds; its capacity is
  `workBufLen`, fixed where the channel is made.  Execution is sequential: a send
  on a full channel never returns, a receive in a `select` with a `default` takes the
  head of the list when there is one.
* A Go slice is its elements together with its capacity (`queueCap`, `fnsCap`); for
  `ctx.results` it is the whole backing array `resultsBuf` with the length `resultsLen`,
  because `DoWork` reslices it to its capacity.
* The cgo routine `process`, the C allocator and the growth policy of `append` are not
  part of the repository: they are the fields of `Env`.
* `World.trace` records, in order, the calls that leave the Go side (`process`, `malloc`,
  `free`).  It is only written, never read, by the embedded code.
* `none` as a result means that the Go code does not return normally: a send blocks for
  ever, an index or a slice bound is out of range, or a pointer is dereferenced that
  points to no descriptor.
* `logf` and `introspect` only print; they are left out.
-/

namespace Cu

/-- The constant `workBufLen` of `batch.go`. -/
def workBufLen : Nat := 15

/-- The enumeration `C.batchFn`, in the order of `batchFnString`. -/
inductive batchFn where
  | fn_setCurrent
  | fn_mallocD
  | fn_mallocH
  | fn_mallocManaged
  | fn_memfreeD
  | fn_memfreeH
  | fn_memcpy
  | fn_memcpyHtoD
  | fn_memcpyDtoH
  | fn_memcpyDtoD
  | fn_memcpyHtoDAsync
  | fn_memcpyDtoHAsync
  | fn_memcpyDtoDAsync
  | fn_launchKernel
  | fn_sync
  | fn_lauchAndSync
  | fn_allocAndCopy
  deriving DecidableEq, Repr

/-- A native status code `C.CUresult`. -/
abbrev CUresult := Nat

/-- Modelled from the spec: the success code `C.CUDA_SUCCESS` of `cuda.h`, which is not in
the repository; the spec speaks of "the success code", a single value. -/
def CUDA_SUCCESS : CUresult := 0

/-- Modelled from the spec: the Go constant `Success` of type `cuResult`, declared outside
`batch.go`; it is the same success code. -/
def Success : CUresult := CUDA_SUCCESS

/-- The struct `fnargs`: one descriptor.  A composite literal leaves the fields it does
not name at zero. -/
structure fnargs where
  fn : batchFn
  ctx : Nat := 0
  devptr0 : Nat := 0
  devptr1 : Nat := 0
  ptr0 : Nat := 0
  ptr1 : Nat := 0
  f : Nat := 0
  gridDimX : Nat := 0
  gridDimY : Nat := 0
  gridDimZ : Nat := 0
  blockDimX : Nat := 0
  blockDimY : Nat := 0
  blockDimZ : Nat := 0
  sharedMemBytes : Nat := 0
  kernelParams : Nat := 0
  extra : Nat := 0
  size : Nat := 0
  stream : Nat := 0
  deriving DecidableEq, Repr

/-- The struct `call`: a pointer to a descriptor and the blocking flag. -/
structure call where
  fnargs : Nat
  blocking : Bool
  deriving DecidableEq, Repr

/-- The struct `BatchedContext`. -/
structure BatchedContext where
  Context : Nat
  Device : Nat
  workAvailable : Bool
  work : List call
  queue : List call
  queueCap : Nat
  fns : List Nat
  fnsCap : Nat
  resultsBuf : List CUresult
  resultsLen : Nat
  frees : List Nat
  retVal : Option Nat
  deriving DecidableEq, Repr

/-- The slice `ctx.results`: the first `len(ctx.results)` slots of its backing array. -/
def BatchedContext.results (c : BatchedContext) : List CUresult :=
  c.resultsBuf.take c.resultsLen

/-- One invocation of the native routine `process`, as `DoWork` makes it: the context
handle, the reference array and the count passed, together with `ctx.queue` at that
moment and `ctx.results` after the truncation that follows the invocation. -/
structure Submission where
  cctx : Nat
  queue : List call
  fns : List Nat
  count : Int
  results : List CUresult
  deriving DecidableEq, Repr

/-- What leaves the Go side. -/
inductive Event where
  | submit (b : Submission)
  | free (p : Nat)
  | malloc (size : Nat) (p : Nat)
  deriving DecidableEq, Repr

/-- The context together with the memory its pointers refer to. -/
structure World where
  ctx : BatchedContext
  heap : List fnargs
  mem : List (Nat × Nat)
  nalloc : Nat
  trace : List Event
  deriving DecidableEq, Repr

/-- What `batch.go` calls and the repository does not define.
`process cctx heap mem fns count` is the native batch routine: it returns the descriptors
and the C memory as it leaves them and the status codes it writes, from slot 0 on, into
the results array.  `malloc k size` is the pointer returned by the `k`-th call of
`C.malloc`.  `growslice cap` is the capacity `append` gives a slice that was full at
capacity `cap`. -/
structure Env where
  process : Nat → List fnargs → List (Nat × Nat) → List Nat → Int →
    List fnargs × List (Nat × Nat) × List CUresult
  malloc : Nat → Nat → Nat
  growslice : Nat → Nat

/-- The conversion `C.int(n)` of a length: a 32-bit signed integer. -/
def C_int (n : Nat) : Int := Int.bmod n (2 ^ 32)

/-- The conversion `C.size_t(x)` of a Go `int64` or `int`. -/
def C_size_t (x : Int) : Nat := (x % 2 ^ 64).toNat

/-- The conversion `C.uint(x)` of a Go `int`. -/
def C_uint (x : Int) : Nat := (x % 2 ^ 32).toNat

/-- The function `NewBatchedContext`: both channels empty, `queue` and `fns` empty with
capacity `workBufLen`, `results` of length and capacity `workBufLen` filled with zeros,
`frees` and `retVal` nil. -/
def NewBatchedContext (c d : Nat) : BatchedContext :=
  { Context := c
    Device := d
    workAvailable := false
    work := []
    queue := []
    queueCap := workBufLen
    fns := []
    fnsCap := workBufLen
    resultsBuf := List.replicate workBufLen 0
    resultsLen := workBufLen
    frees := []
    retVal := none }

/-- The capacity of a slice of length `len` and capacity `cap` after `append` has added
one element: unchanged while there is room, otherwise what the runtime chooses. -/
def appendCap (E : Env) (cap len : Nat) : Nat :=
  if len < cap then cap else E.growslice cap

/-- The inner loop of `DoWork`, labelled `enqueue`: while the queue is below its capacity
and the last call appended is not blocking, take the next call of the channel if there
is one.  Returns what is left in the channel, the queue and the flag `blocking`. -/
def growLoop (cap : Nat) : List call → List call → Bool → List call × List call × Bool
  | [], queue, blocking => ([], queue, blocking)
  | w :: ws, queue, blocking =>
    if queue.length < cap ∧ blocking = false then
      growLoop cap ws (queue ++ [w]) w.blocking
    else
      (w :: ws, queue, blocking)

/-- The loop `for _, f := range ctx.frees { C.free(f) }`. -/
def freeAll (frees : List Nat) : List Event := frees.map Event.free

/-- The loop `for _, c := range ctx.queue { ctx.fns = append(ctx.fns, c.fnargs.c()) }`
on the reference array and its capacity. -/
def appendFns (E : Env) : List call → List Nat × Nat → List Nat × Nat
  | [], acc => acc
  | c :: cs, acc => appendFns E cs (acc.1 ++ [c.fnargs], appendCap E acc.2 acc.1.length)

/-- The return-value step of `DoWork`: when `blocking`, read the tag of the last queued
descriptor and, for `fn_mallocD` and `fn_allocAndCopy`, the field `devptr0` of the
descriptor the last reference points to. -/
def extractRetVal (heap : List fnargs) (queue : List call) (fns : List Nat) (blocking : Bool)
    (retVal : Option Nat) : Option (Option Nat) :=
  if blocking then
    match queue.getLast? with
    | none => none
    | some b =>
      match heap[b.fnargs]? with
      | none => none
      | some d =>
        match d.fn with
        | .fn_mallocD =>
          match fns.getLast? with
          | none => none
          | some p => heap[p]?.map fun r => some r.devptr0
        | .fn_allocAndCopy =>
          match fns.getLast? with
          | none => none
          | some p => heap[p]?.map fun r => some r.devptr0
        | _ => some retVal
  else
    some retVal

/-- One pass through the body of the outer loop of `DoWork`, once the first `select` has
received `w` and `ws` is what the channel still holds.  It does not return when
`&ctx.results[0]` is taken of an array of capacity 0, when `process` writes more codes
than the results array holds, when `ctx.results[:len(ctx.queue)]` is out of range, or
when the return-value step dereferences a pointer to no descriptor. -/
def cycle (E : Env) (s : World) (w : call) (ws : List call) : Option World :=
  let c := s.ctx
  let queue0 := c.queue ++ [w]
  let cap0 := appendCap E c.queueCap c.queue.length
  let grown := growLoop cap0 ws queue0 w.blocking
  let work1 := grown.1
  let queue := grown.2.1
  let blocking := grown.2.2
  let refs := appendFns E queue (c.fns, c.fnsCap)
  let fns := refs.1
  if c.resultsBuf.length = 0 then none
  else
    let out := E.process c.Context s.heap s.mem fns (C_int queue.length)
    let heap1 := out.1
    let mem1 := out.2.1
    let codes := out.2.2
    if c.resultsBuf.length < codes.length then none
    else if c.resultsBuf.length < queue.length then none
    else
      let buf1 := codes ++ c.resultsBuf.drop codes.length
      match extractRetVal heap1 queue fns blocking c.retVal with
      | none => none
      | some rv =>
        some
          { ctx :=
              { c with
                work := work1
                queue := []
                queueCap := cap0
                fns := []
                fnsCap := refs.2
                resultsBuf := buf1
                resultsLen := queue.length
                frees := []
                retVal := rv }
            heap := heap1
            mem := mem1
            nalloc := s.nalloc
            trace := s.trace ++
              [Event.submit
                { cctx := c.Context
                  queue := queue
                  fns := fns
                  count := C_int queue.length
                  results := buf1.take queue.length }] ++
              freeAll c.frees }

/-- The outer loop of `DoWork`, unrolled at most `fuel` times: return when the channel is
empty, otherwise run one cycle and loop. -/
def DoWorkLoop (E : Env) : Nat → World → Option World
  | 0, _ => none
  | fuel + 1, s =>
    match s.ctx.work with
    | [] => some s
    | w :: ws =>
      match cycle E s w ws with
      | none => none
      | some s1 => DoWorkLoop E fuel s1

/-- The method `DoWork`.  Every cycle takes at least one call out of the channel, so one
round more than the channel holds calls is enough for the loop to reach its `return`. -/
def DoWork (E : Env) (s : World) : Option World :=
  DoWorkLoop E (s.ctx.work.length + 1) s

/-- The method `enqueue`: send on `work` (which blocks when the channel is full), post
the notification if none is pending, and run `DoWork` when the call is blocking. -/
def enqueue (E : Env) (s : World) (c : call) : Option World :=
  if s.ctx.work.length < workBufLen then
    let s1 : World :=
      { s with ctx := { s.ctx with work := s.ctx.work ++ [c], workAvailable := true } }
    if c.blocking then DoWork E s1 else some s1
  else
    none

/-- The method `Retval`: the buffered return value, which is cleared. -/
def Retval (s : World) : World × Option Nat :=
  ({ s with ctx := { s.ctx with retVal := none } }, s.ctx.retVal)

/-- Modelled from the spec: the error value that the translation `result`, defined
outside `batch.go`, gives for a status code that is not the success code ("a descriptive
error"); it is represented by the code it describes. -/
structure cuResult where
  code : CUresult
  deriving DecidableEq, Repr

/-- Modelled from the spec: the result-code-to-error translation `result`, defined outside
`batch.go`: it "consumes a native status code, returns a success sentinel or a
descriptive error". -/
def result (x : CUresult) : Option cuResult :=
  if x = Success then none else some { code := x }

/-- The non-nil values of the Go interface `error` that `batch.go` produces: a translated
status code, an `errorSlice` with one entry (possibly nil) per result slot, and the
message "Expected retVal to be DevicePtr" built by `errors.Errorf`. -/
inductive error where
  | result (e : cuResult)
  | errorSlice (errs : List (Option cuResult))
  | expectedDevicePtr
  deriving DecidableEq, Repr

/-- The loop of `FirstError` over the visible results: at the first slot that is not
`Success` return its translation, leaving that slot and the following ones alone; a
slot passed over is assigned `C.CUDA_SUCCESS`. -/
def firstErrorScan : List CUresult → List CUresult × Option cuResult
  | [] => ([], none)
  | v :: vs =>
    if v ≠ Success then (v :: vs, result v)
    else ((CUDA_SUCCESS :: (firstErrorScan vs).1), (firstErrorScan vs).2)

/-- The method `FirstError`. -/
def FirstError (s : World) : World × Option error :=
  let scan := firstErrorScan s.ctx.results
  ({ s with ctx := { s.ctx with resultsBuf := scan.1 ++ s.ctx.resultsBuf.drop s.ctx.resultsLen } },
    scan.2.map error.result)

/-- The loop of `checkResults`. -/
def checkResultsLoop : List CUresult → Bool
  | [] => false
  | v :: vs => if v ≠ CUDA_SUCCESS then true else checkResultsLoop vs

/-- The method `checkResults`. -/
def checkResults (s : World) : Bool := checkResultsLoop s.ctx.results

/-- The method `errors`. -/
def errors (s : World) : Option error :=
  if checkResults s = false then none
  else some (error.errorSlice (s.ctx.results.map result))

/-- The method `Errors`. -/
def Errors (s : World) : Option error := errors s

/-- The expression `&fnargs{...}`: a new descriptor and the pointer to it. -/
def newFnargs (s : World) (d : fnargs) : World × Nat :=
  ({ s with heap := s.heap ++ [d] }, s.heap.length)

/-- The method `SetCurrent`. -/
def SetCurrent (E : Env) (s : World) : Option World :=
  let a := newFnargs s { fn := .fn_setCurrent, ctx := s.ctx.Context }
  enqueue E a.1 { fnargs := a.2, blocking := false }

/-- The tail shared by `MemAlloc` and `AllocAndCopy` after `enqueue`: return the errors
if there are any, otherwise take the return value and assert it is a `DevicePtr`. -/
def readBack (s : World) : World × Nat × Option error :=
  match errors s with
  | some err => (s, 0, some err)
  | none =>
    match (Retval s).2 with
    | some p => ((Retval s).1, p, none)
    | none => ((Retval s).1, 0, some error.expectedDevicePtr)

/-- The method `MemAlloc`. -/
def MemAlloc (E : Env) (s : World) (bytesize : Int) : Option (World × Nat × Option error) :=
  let a := newFnargs s { fn := .fn_mallocD, size := C_size_t bytesize }
  (enqueue E a.1 { fnargs := a.2, blocking := true }).map readBack

/-- The method `Memcpy`. -/
def Memcpy (E : Env) (s : World) (dst src : Nat) (byteCount : Int) : Option World :=
  let a := newFnargs s
    { fn := .fn_memcpy, devptr0 := dst, devptr1 := src, size := C_size_t byteCount }
  enqueue E a.1 { fnargs := a.2, blocking := false }

/-- The method `MemcpyHtoD`. -/
def MemcpyHtoD (E : Env) (s : World) (dst src : Nat) (byteCount : Int) : Option World :=
  let a := newFnargs s
    { fn := .fn_memcpyHtoD, devptr0 := dst, ptr0 := src, size := C_size_t byteCount }
  enqueue E a.1 { fnargs := a.2, blocking := false }

/-- The method `MemcpyDtoH`. -/
def MemcpyDtoH (E : Env) (s : World) (dst src : Nat) (byteCount : Int) : Option World :=
  let a := newFnargs s
    { fn := .fn_memcpyDtoH, devptr0 := src, ptr0 := dst, size := C_size_t byteCount }
  enqueue E a.1 { fnargs := a.2, blocking := false }

/-- The method `MemFree`; the name of its caller is looked up only to be logged. -/
def MemFree (E : Env) (s : World) (m : Nat) : Option World :=
  let a := newFnargs s { fn := .fn_memfreeD, devptr0 := m }
  enqueue E a.1 { fnargs := a.2, blocking := false }

/-- The method `MemFreeHost`. -/
def MemFreeHost (E : Env) (s : World) (p : Nat) : Option World :=
  let a := newFnargs s { fn := .fn_memfreeH, ptr0 := p }
  enqueue E a.1 { fnargs := a.2, blocking := false }

/-- Modelled from the spec: the constant `pointerSize`, declared outside `batch.go`; the
buffers are "sized parameterCount × pointerWidth" and a slot is 8 bytes. -/
def pointerSize : Nat := 8

/-- Modelled from the spec: the helper `offset`, defined outside `batch.go`: the address
of slot `i` of the buffer at `ptr`, in `uintptr` arithmetic. -/
def offset (ptr i : Nat) : Nat := (ptr + pointerSize * i) % 2 ^ 64

/-- An 8-byte load from C memory; memory is kept as the list of the stores made, the most
recent first, and accesses are assumed not to overlap partially. -/
def load64 (mem : List (Nat × Nat)) (a : Nat) : Nat := (mem.lookup a).getD 0

/-- An 8-byte store to C memory. -/
def store64 (mem : List (Nat × Nat)) (a v : Nat) : List (Nat × Nat) := (a, v) :: mem

/-- The loop of `LaunchKernel` from index `i` on: `argp[i] = &argv[i]`, then
`argv[i] = *kernelParams[i]`. -/
def marshal (argv argp : Nat) : Nat → List Nat → List (Nat × Nat) → List (Nat × Nat)
  | _, [], mem => mem
  | i, p :: ps, mem =>
    let mem1 := store64 mem (offset argp i) (offset argv i)
    let mem2 := store64 mem1 (offset argv i) (load64 mem1 p)
    marshal argv argp (i + 1) ps mem2

/-- The method `LaunchKernel`. -/
def LaunchKernel (E : Env) (s : World) (function : Nat)
    (gridDimX gridDimY gridDimZ blockDimX blockDimY blockDimZ sharedMemBytes : Int)
    (stream : Nat) (kernelParams : List Nat) : Option World :=
  let size := C_size_t (kernelParams.length * pointerSize)
  let argv := E.malloc s.nalloc size
  let argp := E.malloc (s.nalloc + 1) size
  let s1 : World :=
    { s with
      ctx := { s.ctx with frees := s.ctx.frees ++ [argv] ++ [argp] }
      nalloc := s.nalloc + 2
      trace := s.trace ++ [Event.malloc size argv, Event.malloc size argp]
      mem := marshal argv argp 0 kernelParams s.mem }
  let a := newFnargs s1
    { fn := .fn_launchKernel
      f := function
      gridDimX := C_uint gridDimX
      gridDimY := C_uint gridDimY
      gridDimZ := C_uint gridDimZ
      blockDimX := C_uint blockDimX
      blockDimY := C_uint blockDimY
      blockDimZ := C_uint blockDimZ
      sharedMemBytes := C_uint sharedMemBytes
      stream := stream
      kernelParams := argp
      extra := 0 }
  enqueue E a.1 { fnargs := a.2, blocking := false }

/-- The method `Synchronize`. -/
def Synchronize (E : Env) (s : World) : Option World :=
  let a := newFnargs s { fn := .fn_sync }
  enqueue E a.1 { fnargs := a.2, blocking := false }

/-- The method `LaunchAndSync`. -/
def LaunchAndSync (E : Env) (s : World) (function : Nat)
    (gridDimX gridDimY gridDimZ blockDimX blockDimY blockDimZ sharedMemBytes : Int)
    (stream : Nat) (kernelParams : List Nat) : Option World :=
  (LaunchKernel E s function gridDimX gridDimY gridDimZ blockDimX blockDimY blockDimZ
    sharedMemBytes stream kernelParams).bind (Synchronize E)

/-- The method `AllocAndCopy`. -/
def AllocAndCopy (E : Env) (s : World) (p : Nat) (bytesize : Int) :
    Option (World × Nat × Option error) :=
  let a := newFnargs s { fn := .fn_allocAndCopy, size := C_size_t bytesize, ptr0 := p }
  (enqueue E a.1 { fnargs := a.2, blocking := true }).map readBack

/-! ## Vocabulary of the statements -/

/-- The contract of the native routine (spec, section 6): it writes exactly `count`
status codes and leaves every descriptor where it is. -/
def Env.Contract (E : Env) : Prop :=
  ∀ (cctx : Nat) (heap : List fnargs) (mem : List (Nat × Nat)) (fns : List Nat) (n : Nat),
    (E.process cctx heap mem fns (n : Int)).1.length = heap.length ∧
    (E.process cctx heap mem fns (n : Int)).2.2.length = n

/-- The capacities `NewBatchedContext` gives to `queue`, `fns` and `results`; no method
changes them once `queue` and `fns` have been emptied. -/
def BatchedContext.Sized (c : BatchedContext) : Prop :=
  c.queueCap = workBufLen ∧ c.fnsCap = workBufLen ∧ c.resultsBuf.length = workBufLen

/-- Every blocking call waiting in the channel points to a descriptor; these are the
pointers `DoWork` dereferences. -/
def World.Valid (s : World) : Prop :=
  ∀ c ∈ s.ctx.work, c.blocking = true → c.fnargs < s.heap.length

/-- The invocations of `process` recorded in a trace, in order. -/
def submissions : List Event → List Submission
  | [] => []
  | Event.submit b :: es => b :: submissions es
  | _ :: es => submissions es

/-- The pointers passed to `C.free` recorded in a trace, in order. -/
def freed : List Event → List Nat
  | [] => []
  | Event.free p :: es => p :: freed es
  | _ :: es => freed es

/-- A sequence of calls of `enqueue`, one after the other. -/
def enqueueAll (E : Env) : World → List call → Option World
  | s, [] => some s
  | s, c :: cs => (enqueue E s c).bind fun s1 => enqueueAll E s1 cs

/-- A call of one public method of `BatchedContext`, with its arguments. -/
inductive Op where
  | SetCurrent
  | MemAlloc (bytesize : Int)
  | Memcpy (dst src : Nat) (byteCount : Int)
  | MemcpyHtoD (dst src : Nat) (byteCount : Int)
  | MemcpyDtoH (dst src : Nat) (byteCount : Int)
  | MemFree (m : Nat)
  | MemFreeHost (p : Nat)
  | LaunchKernel (function : Nat)
      (gridDimX gridDimY gridDimZ blockDimX blockDimY blockDimZ sharedMemBytes : Int)
      (stream : Nat) (kernelParams : List Nat)
  | Synchronize
  | LaunchAndSync (function : Nat)
      (gridDimX gridDimY gridDimZ blockDimX blockDimY blockDimZ sharedMemBytes : Int)
      (stream : Nat) (kernelParams : List Nat)
  | AllocAndCopy (p : Nat) (bytesize : Int)
  | DoWork
  | Retval
  | Errors
  | FirstError

/-- The world after a call of a public method that returns. -/
def Op.run (E : Env) (s : World) : Op → Option World
  | .SetCurrent => Cu.SetCurrent E s
  | .MemAlloc bytesize => (Cu.MemAlloc E s bytesize).map Prod.fst
  | .Memcpy dst src n => Cu.Memcpy E s dst src n
  | .MemcpyHtoD dst src n => Cu.MemcpyHtoD E s dst src n
  | .MemcpyDtoH dst src n => Cu.MemcpyDtoH E s dst src n
  | .MemFree m => Cu.MemFree E s m
  | .MemFreeHost p => Cu.MemFreeHost E s p
  | .LaunchKernel fn gx gy gz bx b_y bz sh st ps =>
    Cu.LaunchKernel E s fn gx gy gz bx b_y bz sh st ps
  | .Synchronize => Cu.Synchronize E s
  | .LaunchAndSync fn gx gy gz bx b_y bz sh st ps =>
    Cu.LaunchAndSync E s fn gx gy gz bx b_y bz sh st ps
  | .AllocAndCopy p bytesize => (Cu.AllocAndCopy E s p bytesize).map Prod.fst
  | .DoWork => Cu.DoWork E s
  | .Retval => some (Cu.Retval s).1
  | .Errors => some s
  | .FirstError => some (Cu.FirstError s).1

/-- A sequential execution of public methods. -/
def runOps (E : Env) : World → List Op → Option World
  | s, [] => some s
  | s, op :: ops => (op.run E s).bind fun s1 => runOps E s1 ops

/-- The world right after `NewBatchedContext c d`: descriptors and C memory are whatever
the program has, nothing has been passed to the native side yet. -/
def World.new (c d : Nat) (heap : List fnargs) (mem : List (Nat × Nat)) : World :=
  { ctx := NewBatchedContext c d, heap := heap, mem := mem, nalloc := 0, trace := [] }

/-- The worlds a sequential execution of public methods reaches from a context made by
`NewBatchedContext`. -/
def Reachable (E : Env) (s : World) : Prop :=
  ∃ (c d : Nat) (heap : List fnargs) (mem : List (Nat × Nat)) (ops : List Op),
    runOps E (World.new c d heap mem) ops = some s

/-- The events one run of `DoWork` adds: the first cycle frees what is pending, the later
ones find nothing to free. -/
def traceOf (frees : List Nat) : List Submission → List Event
  | [] => []
  | b :: bs => Event.submit b :: (freeAll frees ++ bs.map Event.submit)

/-- The batch a cycle submits, as `cycle` records it in the trace. -/
def batchOf (E : Env) (s : World) (w : call) (ws : List call) : Submission :=
  let g := growLoop (appendCap E s.ctx.queueCap s.ctx.queue.length) ws (s.ctx.queue ++ [w]) w.blocking
  let refs := appendFns E g.2.1 (s.ctx.fns, s.ctx.fnsCap)
  let out := E.process s.ctx.Context s.heap s.mem refs.1 (C_int g.2.1.length)
  { cctx := s.ctx.Context, queue := g.2.1, fns := refs.1, count := C_int g.2.1.length
    results := (out.2.2 ++ s.ctx.resultsBuf.drop out.2.2.length).take g.2.1.length }

/-- What is known of one batch `b` submitted by a run of `DoWork` that started in `s`. -/
def BatchFacts (s : World) (b : Submission) : Prop :=
  b.queue ≠ [] ∧ (∀ c ∈ b.queue.dropLast, c.blocking = false) ∧
  b.cctx = s.ctx.Context ∧ b.count = C_int b.queue.length ∧
  b.results.length = b.queue.length ∧ b.queue.length ≤ s.ctx.resultsBuf.length ∧
  (0 < s.ctx.queueCap → b.queue.length ≤ s.ctx.queueCap) ∧
  (s.ctx.fns = [] → b.fns = b.queue.map call.fnargs)

/-- A native side on which the embedding can be run: every operation succeeds, and an
allocation leaves the device address 4096 in its descriptor. -/
def sampleEnv : Env :=
  { process := fun _ heap mem _ count =>
      (heap.map fun d =>
          if d.fn = .fn_mallocD ∨ d.fn = .fn_allocAndCopy then { d with devptr0 := 4096 } else d,
        mem, List.replicate count.toNat CUDA_SUCCESS)
    malloc := fun k size => 65536 + k * (size + 16)
    growslice := fun cap => 2 * cap + 1 }

/-- A world to run the embedding on: a fresh context, one descriptor that frees the device
address 4096 and one that allocates 1024 bytes. -/
def sampleWorld : World :=
  World.new 7 0 [{ fn := .fn_memfreeD, devptr0 := 4096 }, { fn := .fn_mallocD, size := 1024 }] []

/-- The non-blocking call for the first descriptor of `sampleWorld`. -/
def sampleFree : call := { fnargs := 0, blocking := false }

/-- The blocking call for the second descriptor of `sampleWorld`. -/
def sampleAlloc : call := { fnargs := 1, blocking := true }

/-- The world `sampleWorld` with the two sample calls waiting in the channel, the free
before the allocation. -/
def sampleQueued : World :=
  { sampleWorld with ctx := { sampleWorld.ctx with work := [sampleFree, sampleAlloc] } }

/-- The bounds that make one invocation of `process` safe: queue and reference array
have the same length `n`, `1 ≤ n ≤ workBufLen`, the count passed is `n`, and `results` has
length `n` after the truncation. -/
def Submission.InBounds (b : Submission) : Prop :=
  b.queue.length = b.fns.length ∧ 1 ≤ b.queue.length ∧ b.queue.length ≤ workBufLen ∧
  b.count = (b.queue.length : Int) ∧ b.results.length = b.queue.length

/-- What holds of the context between two statements of a public method: queue and
reference array are empty with the capacities of `NewBatchedContext`, the calls in the
channel point to descriptors, and every invocation of `process` so far was in bounds. -/
def World.Idle (s : World) : Prop :=
  s.ctx.queue = [] ∧ s.ctx.fns = [] ∧ s.ctx.Sized ∧
  (∀ c ∈ s.ctx.work, c.fnargs < s.heap.length) ∧
  ∀ b ∈ submissions s.trace, b.InBounds

/-- What holds of the context between two calls of public methods: it is idle, and
buffers are pending release only while a call waits in the channel. -/
def World.Inv (s : World) : Prop :=
  s.Idle ∧ (s.ctx.work = [] → s.ctx.frees = [])

/-- A sequential execution to run the embedding on: a free, a kernel launch with two
parameters and a blocking allocation. -/
def sampleOps : List Op :=
  [.MemFree 4096, .LaunchKernel 5 1 1 1 32 1 1 0 0 [512, 520], .MemAlloc 1024]

/-- A world whose last batch had three calls, the second and the third of which failed
with the codes 2 and 700. -/
def sampleFailed : World :=
  { sampleWorld with
    ctx := { sampleWorld.ctx with
             resultsBuf := [0, 2, 700] ++ List.replicate 12 0
             resultsLen := 3 } }

/-- What a fire-and-forget method does to the world: one new descriptor with the tag
`tag`, one non-blocking call for it at the end of the channel, no invocation of
`process`, and `queue`, `fns`, `results` and `retVal` as they were. -/
def FireAndForget (s s' : World) (tag : batchFn) : Prop :=
  ∃ d : fnargs, d.fn = tag ∧ s'.heap = s.heap ++ [d] ∧
    s'.ctx.work = s.ctx.work ++ [{ fnargs := s.heap.length, blocking := false }] ∧
    submissions s'.trace = submissions s.trace ∧
    s'.ctx.queue = s.ctx.queue ∧ s'.ctx.fns = s.ctx.fns ∧
    s'.ctx.results = s.ctx.results ∧ s'.ctx.retVal = s.ctx.retVal

/-- The world in which `DoWork` starts when a blocking method has allocated the
descriptor `d` and sent the call for it on the channel. -/
def afterSend (s : World) (d : fnargs) : World :=
  { s with
    heap := s.heap ++ [d]
    ctx := { s.ctx with
             work := s.ctx.work ++ [{ fnargs := s.heap.length, blocking := true }]
             workAvailable := true } }

/-- The contract of `C.malloc` for the two buffers of a launch with `n` parameters: both
blocks lie in the address space, they do not overlap each other, and no parameter
reference of `ps` points into either of them. -/
def FreshBuffers (argv argp n : Nat) (ps : List Nat) : Prop :=
  argv + pointerSize * n ≤ 2 ^ 64 ∧ argp + pointerSize * n ≤ 2 ^ 64 ∧
  (argv + pointerSize * n ≤ argp ∨ argp + pointerSize * n ≤ argv) ∧
  ∀ p ∈ ps, (p + 8 ≤ argv ∨ argv + pointerSize * n ≤ p) ∧
    (p + 8 ≤ argp ∨ argp + pointerSize * n ≤ p)

/-- A C memory that holds the 8-byte values 11 and 22 at the addresses 512 and 520, the
parameter references of the launch in `sampleOps`. -/
def sampleMem : List (Nat × Nat) := [(512, 11), (520, 22)]

/-- What a sequential execution keeps true of the channel between two calls of public
methods: no blocking call is waiting, since a blocking call is flushed by the method that
sends it, and the channel holds at most `workBufLen` calls. -/
def World.Quiet (s : World) : Prop :=
  (∀ c ∈ s.ctx.work, c.blocking = false) ∧ s.ctx.work.length ≤ workBufLen

/-- The native routine leaves the operation tag of every descriptor as it is. -/
def Env.KeepsTags (E : Env) : Prop :=
  ∀ (cctx : Nat) (heap : List fnargs) (mem : List (Nat × Nat)) (fns : List Nat) (count : Int)
    (i : Nat) (d : fnargs), heap[i]? = some d →
    ∃ d', (E.process cctx heap mem fns count).1[i]? = some d' ∧ d'.fn = d.fn

/-- What a blocking method that has allocated the descriptor `d` reads when it returns
`r`: the world `s1` that one cycle of `DoWork`, run on the channel with the method's own
call last, has left.  That cycle made the only invocation of `process` since the method
was called; its batch is what was pending followed by the method's own call, and
`results` holds what that invocation left, which under the contract of the native
routine are exactly the codes it wrote. -/
def OwnCycle (E : Env) (s : World) (d : fnargs) (r : World × Nat × Option error) : Prop :=
  ∃ (s1 : World) (b : Submission) (w : call) (ws : List call),
    (afterSend s d).ctx.work = w :: ws ∧ cycle E (afterSend s d) w ws = some s1 ∧
    r = readBack s1 ∧
    submissions s1.trace = submissions s.trace ++ [b] ∧
    b.queue = s.ctx.work ++ [{ fnargs := s.heap.length, blocking := true }] ∧
    b.queue.getLast? = some { fnargs := s.heap.length, blocking := true } ∧
    s1.ctx.results = b.results ∧ s1.ctx.results.length = b.queue.length ∧
    (E.Contract →
      s1.ctx.results = (E.process s.ctx.Context (s.heap ++ [d]) s.mem b.fns b.count).2.2)

/-- What a blocking allocation returns, in terms of the single batch it has flushed: a
non-nil error exactly when a slot of the results of that batch, the ones of the calls
flushed with it included, is not the success code; never the error of the type
assertion on the return value; and with a nil error, the device address found in the
method's own descriptor. -/
def AllocOutcome (s s' : World) (p : Nat) (err : Option error) : Prop :=
  ∃ b : Submission, submissions s'.trace = submissions s.trace ++ [b] ∧
    b.queue = s.ctx.work ++ [{ fnargs := s.heap.length, blocking := true }] ∧
    s'.ctx.results = b.results ∧
    (err ≠ none ↔ ∃ v ∈ s'.ctx.results, v ≠ CUDA_SUCCESS) ∧
    err ≠ some error.expectedDevicePtr ∧
    (err = none → ∃ d', s'.heap[s.heap.length]? = some d' ∧ p = d'.devptr0)

/-- The pointers returned by `C.malloc` recorded in a trace, in order. -/
def mallocs : List Event → List Nat
  | [] => []
  | Event.malloc _ p :: es => p :: mallocs es
  | _ :: es => mallocs es

/-- One event in the life of the marshaling buffers.  The state is the list of the
buffers allocated and not yet released, and the list of those the cycle in progress
still has to release.  A `malloc` registers its buffer; an invocation of `process` hands
every registered buffer over for release; a `free` must release the next buffer handed
over.  Anything else, a `free` of a buffer that was not handed over or an event that
comes before the release is complete, is refused. -/
def lifeStep : List Nat × List Nat → Event → Option (List Nat × List Nat)
  | (pending, []), Event.malloc _ p => some (pending ++ [p], [])
  | (pending, []), Event.submit _ => some ([], pending)
  | (pending, q :: rest), Event.free p => if p = q then some (pending, rest) else none
  | _, _ => none

/-- The life of the marshaling buffers along a trace. -/
def lifeRun : List Nat × List Nat → List Event → Option (List Nat × List Nat)
  | st, [] => some st
  | st, e :: es => (lifeStep st e).bind fun st1 => lifeRun st1 es

/-- What one public method does to trace, pending-release list and channel in a
sequential execution: either it invokes nothing, registers the buffers it allocates and
keeps the calls that were waiting; or it runs one cycle, which submits a batch with every
call that was waiting and then frees every buffer that was pending, leaving none. -/
def Effect (s s' : World) : Prop :=
  (∃ t, s'.trace = s.trace ++ t ∧ submissions t = [] ∧ freed t = [] ∧
    s'.ctx.frees = s.ctx.frees ++ mallocs t ∧ ∀ c ∈ s.ctx.work, c ∈ s'.ctx.work) ∨
  (∃ b, s'.trace = s.trace ++ [Event.submit b] ++ freeAll s.ctx.frees ∧
    (∀ c ∈ s.ctx.work, c ∈ b.queue) ∧ s'.ctx.frees = [])

/-- Where the launch call `c` and the buffers registered with it stand in the world `s2`,
reached from the world `s1` in which `LaunchKernel` returned.  Either nothing has been
submitted or freed since: the buffers are still registered and `c` is still waiting.  Or
exactly one cycle has submitted a batch that contains `c` and then freed the buffers
pending at that moment, those of `s1` among them; every `free` after that releases a
buffer allocated after that cycle. -/
def LaunchStatus (s1 : World) (c : call) (s2 : World) : Prop :=
  (∃ t more, s2.trace = s1.trace ++ t ∧ submissions t = [] ∧ freed t = [] ∧
    s2.ctx.frees = s1.ctx.frees ++ more ∧ c ∈ s2.ctx.work) ∨
  (∃ t more b t2,
    s2.trace = s1.trace ++ t ++ [Event.submit b] ++ freeAll (s1.ctx.frees ++ more) ++ t2 ∧
    submissions t = [] ∧ freed t = [] ∧ c ∈ b.queue ∧
    lifeRun ([], []) t2 = some (s2.ctx.frees, []))

/-- The public methods whose body neither calls `DoWork` nor enqueues a blocking call:
every method but `DoWork`, `MemAlloc` and `AllocAndCopy`. -/
def Op.defers : Op → Bool
  | .MemAlloc _ => false
  | .AllocAndCopy _ _ => false
  | .DoWork => false
  | _ => true

/-- What methods that neither call `DoWork` nor enqueue a blocking call have done between
the world `s` and the world `p`: the non-blocking calls `sent` are appended to the channel,
nothing has been submitted, queue, queue capacity and the length of the results array are
as they were, and no descriptor has gone. -/
def Deferred (s p : World) (sent : List call) : Prop :=
  p.ctx.work = s.ctx.work ++ sent ∧ (∀ c ∈ sent, c.blocking = false) ∧
  submissions p.trace = submissions s.trace ∧ p.ctx.queue = s.ctx.queue ∧
  p.ctx.queueCap = s.ctx.queueCap ∧ p.ctx.resultsBuf.length = s.ctx.resultsBuf.length ∧
  s.heap.length ≤ p.heap.length

/-! ## The loops of `DoWork` -/

theorem growLoop_append (cap : Nat) (ws q : List call) (b : Bool) :
    (growLoop cap ws q b).2.1 ++ (growLoop cap ws q b).1 = q ++ ws := by
  induction ws generalizing q b with
  | nil => simp [growLoop]
  | cons w ws ih =>
    unfold growLoop
    split
    · rw [ih]; simp
    · rfl

theorem growLoop_exists (cap : Nat) (ws q : List call) (b : Bool) :
    ∃ t, (growLoop cap ws q b).2.1 = q ++ t ∧ ws = t ++ (growLoop cap ws q b).1 ∧
      (∀ c ∈ t.dropLast, c.blocking = false) ∧
      (growLoop cap ws q b).2.2 = (t.getLast?.map call.blocking).getD b ∧
      (b = true → t = []) ∧
      (t ≠ [] → q.length + t.length ≤ cap) := by
  induction ws generalizing q b with
  | nil => exact ⟨[], by simp [growLoop]⟩
  | cons w ws ih =>
    unfold growLoop
    split
    · rename_i h
      obtain ⟨t, h1, h2, h3, h4, h5, h6⟩ := ih (q ++ [w]) w.blocking
      refine ⟨w :: t, ?_, ?_, ?_, ?_, ?_, ?_⟩
      · rw [h1]; simp
      · show w :: ws = w :: (t ++ _)
        rw [← h2]
      · intro c hc
        cases t with
        | nil => simp at hc
        | cons x t =>
          rw [List.dropLast_cons₂] at hc
          rcases List.mem_cons.1 hc with rfl | hc
          · by_contra hb
            have := h5 (by simpa using hb)
            simp at this
          · exact h3 c hc
      · rw [h4]
        cases t with
        | nil => simp
        | cons x t =>
          obtain ⟨y, hy⟩ : ∃ y, (x :: t).getLast? = some y :=
            ⟨_, List.getLast?_eq_getLast _ (by simp)⟩
          simp [List.getLast?_cons_cons, hy]
      · intro hb; simp [hb] at h
      · intro _
        by_cases ht : t = []
        · subst ht; simp; omega
        · have := h6 ht
          simp at this ⊢; omega
    · exact ⟨[], by simp⟩


theorem growLoop_all (cap : Nat) (ws q : List call) (b : Bool)
    (hnb : ∀ c ∈ ws.dropLast, c.blocking = false) (hb : ws = [] ∨ b = false)
    (hlen : q.length + ws.length ≤ cap) :
    growLoop cap ws q b = ([], q ++ ws, (ws.getLast?.map call.blocking).getD b) := by
  induction ws generalizing q b with
  | nil => simp [growLoop]
  | cons w ws ih =>
    have hb0 : b = false := by simpa using hb
    have hlt : q.length < cap := by simp at hlen; omega
    unfold growLoop
    rw [if_pos ⟨hlt, hb0⟩]
    cases ws with
    | nil => simp [growLoop]
    | cons x ws =>
      rw [ih]
      · obtain ⟨y, hy⟩ : ∃ y, (x :: ws).getLast? = some y :=
          ⟨_, List.getLast?_eq_getLast _ (by simp)⟩
        simp [List.getLast?_cons_cons, hy]
      · intro c hc
        exact hnb c (by rw [List.dropLast_cons₂]; exact List.mem_cons_of_mem _ hc)
      · right
        exact hnb w (by rw [List.dropLast_cons₂]; exact List.mem_cons_self _ _)
      · simp at hlen ⊢; omega

theorem appendFns_fst (E : Env) (q : List call) (acc : List Nat × Nat) :
    (appendFns E q acc).1 = acc.1 ++ q.map call.fnargs := by
  induction q generalizing acc with
  | nil => simp [appendFns]
  | cons c cs ih => simp [appendFns, ih]

theorem appendFns_snd (E : Env) (q : List call) (acc : List Nat × Nat)
    (h : acc.1.length + q.length ≤ acc.2) : (appendFns E q acc).2 = acc.2 := by
  induction q generalizing acc with
  | nil => simp [appendFns]
  | cons c cs ih =>
    simp only [appendFns]
    have hlt : acc.1.length < acc.2 := by simp at h; omega
    rw [ih]
    · simp [appendCap, hlt]
    · simp [appendCap, hlt] at h ⊢; omega

/-- Everything one cycle does, read off its result. -/
theorem cycle_eq_some {E : Env} {s s' : World} {w : call} {ws : List call}
    (h : cycle E s w ws = some s') :
    let g := growLoop (appendCap E s.ctx.queueCap s.ctx.queue.length) ws (s.ctx.queue ++ [w]) w.blocking
    let refs := appendFns E g.2.1 (s.ctx.fns, s.ctx.fnsCap)
    let out := E.process s.ctx.Context s.heap s.mem refs.1 (C_int g.2.1.length)
    let buf1 := out.2.2 ++ s.ctx.resultsBuf.drop out.2.2.length
    s.ctx.resultsBuf.length ≠ 0 ∧ out.2.2.length ≤ s.ctx.resultsBuf.length ∧
    g.2.1.length ≤ s.ctx.resultsBuf.length ∧
    ∃ rv, extractRetVal out.1 g.2.1 refs.1 g.2.2 s.ctx.retVal = some rv ∧
    s' = { ctx := { s.ctx with
                    work := g.1, queue := [], queueCap := appendCap E s.ctx.queueCap s.ctx.queue.length
                    fns := [], fnsCap := refs.2, resultsBuf := buf1, resultsLen := g.2.1.length
                    frees := [], retVal := rv }
           heap := out.1, mem := out.2.1, nalloc := s.nalloc
           trace := s.trace ++ [Event.submit { cctx := s.ctx.Context, queue := g.2.1, fns := refs.1
                                               count := C_int g.2.1.length
                                               results := buf1.take g.2.1.length }] ++ freeAll s.ctx.frees } := by
  intro g refs out buf1
  unfold cycle at h
  simp only at h
  split at h
  · exact absurd h (by simp)
  · rename_i h0
    split at h
    · exact absurd h (by simp)
    · rename_i h1
      split at h
      · exact absurd h (by simp)
      · rename_i h2
        split at h
        · exact absurd h (by simp)
        · rename_i rv hrv
          exact ⟨h0, Nat.le_of_not_lt h1, Nat.le_of_not_lt h2, rv, hrv, (Option.some.inj h).symm⟩

/-- A cycle returns as soon as the results array can take the codes and the batch, and
the return-value step finds its descriptors. -/
theorem cycle_of_extract {E : Env} {s : World} {w : call} {ws : List call} {rv : Option Nat}
    (h0 : s.ctx.resultsBuf.length ≠ 0)
    (h1 : (E.process s.ctx.Context s.heap s.mem
      (appendFns E (growLoop (appendCap E s.ctx.queueCap s.ctx.queue.length) ws
        (s.ctx.queue ++ [w]) w.blocking).2.1 (s.ctx.fns, s.ctx.fnsCap)).1
      (C_int (growLoop (appendCap E s.ctx.queueCap s.ctx.queue.length) ws
        (s.ctx.queue ++ [w]) w.blocking).2.1.length)).2.2.length ≤ s.ctx.resultsBuf.length)
    (h2 : (growLoop (appendCap E s.ctx.queueCap s.ctx.queue.length) ws
        (s.ctx.queue ++ [w]) w.blocking).2.1.length ≤ s.ctx.resultsBuf.length)
    (h3 : extractRetVal (E.process s.ctx.Context s.heap s.mem
      (appendFns E (growLoop (appendCap E s.ctx.queueCap s.ctx.queue.length) ws
        (s.ctx.queue ++ [w]) w.blocking).2.1 (s.ctx.fns, s.ctx.fnsCap)).1
      (C_int (growLoop (appendCap E s.ctx.queueCap s.ctx.queue.length) ws
        (s.ctx.queue ++ [w]) w.blocking).2.1.length)).1
      (growLoop (appendCap E s.ctx.queueCap s.ctx.queue.length) ws
        (s.ctx.queue ++ [w]) w.blocking).2.1
      (appendFns E (growLoop (appendCap E s.ctx.queueCap s.ctx.queue.length) ws
        (s.ctx.queue ++ [w]) w.blocking).2.1 (s.ctx.fns, s.ctx.fnsCap)).1
      (growLoop (appendCap E s.ctx.queueCap s.ctx.queue.length) ws
        (s.ctx.queue ++ [w]) w.blocking).2.2 s.ctx.retVal = some rv) :
    (cycle E s w ws).isSome = true := by
  unfold cycle
  simp only
  rw [if_neg h0, if_neg (Nat.not_lt.2 h1), if_neg (Nat.not_lt.2 h2), h3]
  rfl

theorem C_int_of_lt (n : Nat) (h : n < 2 ^ 31) : C_int n = (n : Int) := by
  unfold C_int Int.bmod
  norm_num
  omega

theorem extractRetVal_eq (heap : List fnargs) (queue : List call) (fns : List Nat)
    (blocking : Bool) (rv : Option Nat) (b : call)
    (hq : queue.getLast? = some b) (hf : fns.getLast? = some b.fnargs) :
    extractRetVal heap queue fns blocking rv =
      if blocking then
        heap[b.fnargs]?.map fun d =>
          if d.fn = .fn_mallocD ∨ d.fn = .fn_allocAndCopy then some d.devptr0 else rv
      else some rv := by
  unfold extractRetVal
  rw [hq, hf]
  cases blocking
  · rfl
  · cases hd : heap[b.fnargs]? with
    | none => simp [hd]
    | some d => cases hfn : d.fn <;> simp [hfn, hd]

theorem traceOf_nil (bs : List Submission) : traceOf [] bs = bs.map Event.submit := by
  cases bs <;> simp [traceOf, freeAll]

theorem cycle_fields {E : Env} {s s1 : World} {w : call} {ws : List call}
    (hc : cycle E s w ws = some s1) :
    s1.ctx.queue = [] ∧ s1.ctx.fns = [] ∧ s1.ctx.frees = [] ∧
    s1.ctx.Context = s.ctx.Context ∧
    s1.ctx.resultsBuf.length = s.ctx.resultsBuf.length ∧
    s1.ctx.queueCap = appendCap E s.ctx.queueCap s.ctx.queue.length ∧
    s1.ctx.results = (batchOf E s w ws).results ∧
    s1.trace = s.trace ++ [Event.submit (batchOf E s w ws)] ++ freeAll s.ctx.frees ∧
    (batchOf E s w ws).queue ++ s1.ctx.work = s.ctx.queue ++ w :: ws ∧
    s1.ctx.fnsCap = (appendFns E (batchOf E s w ws).queue (s.ctx.fns, s.ctx.fnsCap)).2 := by
  obtain ⟨_, h1, _, rv, _, hs1⟩ := cycle_eq_some hc
  subst hs1
  refine ⟨rfl, rfl, rfl, rfl, ?_, rfl, ?_, ?_, ?_, rfl⟩
  · simp; omega
  · simp only [batchOf, BatchedContext.results]
  · simp only [batchOf]
  · simp only [batchOf]
    rw [growLoop_append]; simp

theorem batchOf_facts {E : Env} {s s1 : World} {w : call} {ws : List call}
    (hc : cycle E s w ws = some s1) (hq : s.ctx.queue = []) :
    BatchFacts s (batchOf E s w ws) := by
  obtain ⟨_, h1, h2, -⟩ := cycle_eq_some hc
  obtain ⟨t, g1, g2, g3, g4, g5, g6⟩ :=
    growLoop_exists (appendCap E s.ctx.queueCap s.ctx.queue.length) ws (s.ctx.queue ++ [w]) w.blocking
  have hqe : (batchOf E s w ws).queue = w :: t := by
    simp only [batchOf]; rw [g1, hq]; rfl
  unfold BatchFacts
  refine ⟨by rw [hqe]; simp, ?_, by simp only [batchOf], by simp only [batchOf], ?_, h2, ?_, ?_⟩
  · rw [hqe]
    intro c hc
    cases t with
    | nil => simp at hc
    | cons x t =>
      rw [List.dropLast_cons₂] at hc
      rcases List.mem_cons.1 hc with rfl | hc
      · by_contra hb
        have := g5 (by simpa using hb)
        simp at this
      · exact g3 c hc
  · simp only [batchOf, List.length_take, List.length_append, List.length_drop]
    omega
  · intro hpos
    rw [hqe]
    have hcap : appendCap E s.ctx.queueCap s.ctx.queue.length = s.ctx.queueCap := by
      simp [appendCap, hq, hpos]
    rw [hcap, hq] at g6
    by_cases ht : t = []
    · subst ht; simpa using hpos
    · have := g6 ht
      simp at this ⊢; omega
  · intro hf
    simp only [batchOf, appendFns_fst, hf]; rfl

theorem DoWorkLoop_batches (E : Env) : ∀ (fuel : Nat) (s s' : World),
    DoWorkLoop E fuel s = some s' → s.ctx.queue = [] →
    ∃ bs : List Submission,
      s'.ctx.work = [] ∧ s'.ctx.queue = [] ∧
      s'.trace = s.trace ++ traceOf s.ctx.frees bs ∧
      (bs.map Submission.queue).flatten = s.ctx.work ∧
      (bs = [] → s' = s) ∧
      (bs ≠ [] → s'.ctx.fns = [] ∧ s'.ctx.frees = []) ∧
      (∀ b, bs.getLast? = some b → s'.ctx.results = b.results) ∧
      s'.ctx.resultsBuf.length = s.ctx.resultsBuf.length ∧
      (0 < s.ctx.queueCap → s'.ctx.queueCap = s.ctx.queueCap) ∧
      (s.ctx.fns = [] → 0 < s.ctx.queueCap → s.ctx.queueCap ≤ s.ctx.fnsCap →
        s'.ctx.fnsCap = s.ctx.fnsCap) ∧
      ∀ b ∈ bs, BatchFacts s b := by
  intro fuel
  induction fuel with
  | zero => intro s s' h; simp [DoWorkLoop] at h
  | succ fuel ih =>
    intro s s' h hq
    unfold DoWorkLoop at h
    cases hw : s.ctx.work with
    | nil =>
      rw [hw] at h
      have hs : s' = s := (Option.some.inj h).symm
      subst hs
      exact ⟨[], by simp [hw, hq, traceOf]⟩
    | cons w ws =>
      rw [hw] at h
      simp only at h
      cases hc : cycle E s w ws with
      | none => rw [hc] at h; simp at h
      | some s1 =>
        rw [hc] at h
        simp only at h
        obtain ⟨hq1, hfn, hfr, hcx, hbl, hcp, hres, htr, hwk, hfc⟩ := cycle_fields hc
        have hbf := batchOf_facts hc hq
        have hcap : 0 < s.ctx.queueCap → s1.ctx.queueCap = s.ctx.queueCap := by
          intro hpos; rw [hcp]; simp [appendCap, hq, hpos]
        obtain ⟨bs, i1, i2, i3, i4, i5, i6, i7, i8, i9, i11, i10⟩ := ih s1 s' h hq1
        refine ⟨batchOf E s w ws :: bs, i1, i2, ?_, ?_, by simp, fun _ => ⟨?_, ?_⟩, ?_,
          by rw [i8, hbl], ?_, ?_, ?_⟩
        · rw [i3, htr, hfr, traceOf_nil]; simp [traceOf]
        · simp only [List.map_cons, List.flatten_cons]
          rw [i4, hwk, hq]; rfl
        · by_cases hb : bs = []
          · rw [i5 hb, hfn]
          · exact (i6 hb).1
        · by_cases hb : bs = []
          · rw [i5 hb, hfr]
          · exact (i6 hb).2
        · intro b hb
          cases bs with
          | nil =>
            simp at hb
            rw [i5 rfl, hres, ← hb]
          | cons x bs =>
            rw [List.getLast?_cons_cons] at hb
            exact i7 b hb
        · intro hpos
          rw [i9 (by rw [hcap hpos]; exact hpos), hcap hpos]
        · intro hf0 hpos hle
          have h1 : s1.ctx.fnsCap = s.ctx.fnsCap := by
            rw [hfc, appendFns_snd]
            have := hbf.2.2.2.2.2.2.1 hpos
            simp only [hf0, List.length_nil]
            omega
          rw [i11 hfn (by rw [hcap hpos]; exact hpos) (by rw [hcap hpos, h1]; exact hle), h1]
        · intro b hb
          rcases List.mem_cons.1 hb with rfl | hb
          · exact hbf
          · obtain ⟨j1, j2, j3, j4, j5, j6, j7, j8⟩ := i10 b hb
            exact ⟨j1, j2, by rw [j3, hcx], j4, j5, by rw [← hbl]; exact j6,
              fun hpos => by rw [← hcap hpos]; exact j7 (by rw [hcap hpos]; exact hpos),
              fun _ => j8 hfn⟩

/-- The batch a cycle builds on an empty queue: the call received first and a prefix of
what the channel still holds. -/
theorem batch_shape (E : Env) (s : World) (w : call) (ws : List call) (hq : s.ctx.queue = []) :
    ∃ t, (batchOf E s w ws).queue = w :: t ∧
      ws = t ++ (growLoop (appendCap E s.ctx.queueCap s.ctx.queue.length) ws
        (s.ctx.queue ++ [w]) w.blocking).1 ∧
      (growLoop (appendCap E s.ctx.queueCap s.ctx.queue.length) ws
        (s.ctx.queue ++ [w]) w.blocking).2.2 = ((w :: t).getLast (by simp)).blocking ∧
      (0 < s.ctx.queueCap → (w :: t).length ≤ s.ctx.queueCap) := by
  obtain ⟨t, g1, g2, g3, g4, g5, g6⟩ :=
    growLoop_exists (appendCap E s.ctx.queueCap s.ctx.queue.length) ws (s.ctx.queue ++ [w]) w.blocking
  refine ⟨t, ?_, g2, ?_, ?_⟩
  · simp only [batchOf]; rw [g1, hq]; rfl
  · rw [g4]
    cases t with
    | nil => simp
    | cons x t =>
      rw [List.getLast_cons (by simp), List.getLast?_eq_getLast _ (by simp)]
      simp
  · intro hpos
    have hcap : appendCap E s.ctx.queueCap s.ctx.queue.length = s.ctx.queueCap := by
      simp [appendCap, hq, hpos]
    rw [hcap, hq] at g6
    by_cases ht : t = []
    · subst ht; simpa using hpos
    · have := g6 ht
      simp at this ⊢; omega

theorem batchOf_queue_eq (E : Env) (s : World) (w : call) (ws : List call) :
    (batchOf E s w ws).queue = (growLoop (appendCap E s.ctx.queueCap s.ctx.queue.length) ws
        (s.ctx.queue ++ [w]) w.blocking).2.1 := rfl

theorem batchOf_fns_eq (E : Env) (s : World) (w : call) (ws : List call) :
    (batchOf E s w ws).fns = s.ctx.fns ++ (batchOf E s w ws).queue.map call.fnargs := by
  simp only [batchOf, appendFns_fst]

/-- Under the contract of the native routine, on a context with the capacities of
`NewBatchedContext` and an empty queue, a cycle whose calls point to descriptors
returns. -/
theorem cycle_returns {E : Env} (hE : E.Contract) {s : World} {w : call} {ws : List call}
    (hq : s.ctx.queue = []) (hcap : s.ctx.queueCap = workBufLen)
    (hres : s.ctx.resultsBuf.length = workBufLen)
    (hv : ∀ c ∈ w :: ws, c.blocking = true → c.fnargs < s.heap.length) :
    ∃ s1, cycle E s w ws = some s1 ∧ s1.heap.length = s.heap.length := by
  obtain ⟨t, b1, b2, b3, b4⟩ := batch_shape E s w ws hq
  have hlen : (batchOf E s w ws).queue.length ≤ workBufLen := by
    rw [b1, ← hcap]; exact b4 (by rw [hcap]; decide)
  have hci : C_int (batchOf E s w ws).queue.length = ((batchOf E s w ws).queue.length : Int) :=
    C_int_of_lt _ (by unfold workBufLen at hlen; omega)
  rw [batchOf_queue_eq] at hci hlen
  have hlast : (batchOf E s w ws).queue.getLast? = some ((w :: t).getLast (by simp)) := by
    rw [b1, List.getLast?_eq_getLast _ (by simp)]
  have hfl : (batchOf E s w ws).fns.getLast? = some ((w :: t).getLast (by simp)).fnargs := by
    rw [batchOf_fns_eq, List.getLast?_append, List.getLast?_map, hlast]
    rfl
  have hmem : (w :: t).getLast (by simp) ∈ w :: ws := by
    have h1 : (w :: t).getLast (by simp) ∈ w :: t := List.getLast_mem _
    rw [b2]
    rcases List.mem_cons.1 h1 with h | h
    · rw [h]; exact List.mem_cons_self _ _
    · exact List.mem_cons_of_mem _ (List.mem_append_left _ h)
  have hec := extractRetVal_eq
    (E.process s.ctx.Context s.heap s.mem (batchOf E s w ws).fns
      (C_int (batchOf E s w ws).queue.length)).1
    (batchOf E s w ws).queue (batchOf E s w ws).fns
    (growLoop (appendCap E s.ctx.queueCap s.ctx.queue.length) ws
        (s.ctx.queue ++ [w]) w.blocking).2.2 s.ctx.retVal _ hlast hfl
  have hheap := (hE s.ctx.Context s.heap s.mem (batchOf E s w ws).fns
    (batchOf E s w ws).queue.length).1
  have hcodes := (hE s.ctx.Context s.heap s.mem (batchOf E s w ws).fns
    (batchOf E s w ws).queue.length).2
  rw [batchOf_queue_eq] at hheap hcodes
  rw [← hci] at hheap hcodes
  have hsome : ∃ rv, extractRetVal
      (E.process s.ctx.Context s.heap s.mem (batchOf E s w ws).fns
        (C_int (batchOf E s w ws).queue.length)).1
      (batchOf E s w ws).queue (batchOf E s w ws).fns
      (growLoop (appendCap E s.ctx.queueCap s.ctx.queue.length) ws
        (s.ctx.queue ++ [w]) w.blocking).2.2 s.ctx.retVal = some rv := by
    rw [hec]
    split
    · rename_i hbk
      rw [b3] at hbk
      have hlt : ((w :: t).getLast (by simp)).fnargs <
          (E.process s.ctx.Context s.heap s.mem (batchOf E s w ws).fns
            (C_int (batchOf E s w ws).queue.length)).1.length := by
        rw [batchOf_queue_eq, hheap]; exact hv _ hmem hbk
      rw [List.getElem?_eq_getElem hlt]
      exact ⟨_, rfl⟩
    · exact ⟨_, rfl⟩
  obtain ⟨rv, hrv⟩ := hsome
  have hsm : (cycle E s w ws).isSome = true :=
    cycle_of_extract (by rw [hres]; decide) (by
      show (E.process s.ctx.Context s.heap s.mem (batchOf E s w ws).fns _).2.2.length ≤ _
      rw [hcodes, hres]; exact hlen) (by rw [hres]; exact hlen) hrv
  obtain ⟨s1, hs1⟩ := Option.isSome_iff_exists.1 hsm
  refine ⟨s1, hs1, ?_⟩
  obtain ⟨_, _, _, rv1, _, e⟩ := cycle_eq_some hs1
  rw [e]
  exact hheap

theorem cycle_work_lt {E : Env} {s s1 : World} {w : call} {ws : List call}
    (hc : cycle E s w ws = some s1) (hq : s.ctx.queue = []) :
    s1.ctx.work.length ≤ ws.length ∧ ∀ c ∈ s1.ctx.work, c ∈ ws := by
  obtain ⟨t, b1, b2, -⟩ := batch_shape E s w ws hq
  have h := (cycle_fields hc).2.2.2.2.2.2.2.2.1
  rw [b1, hq] at h
  have h' : t ++ s1.ctx.work = ws := by simpa using h
  constructor
  · rw [← h']; simp
  · intro c hc; rw [← h']; exact List.mem_append_right _ hc

/-- With enough fuel the loop of `DoWork` reaches its `return`. -/
theorem DoWorkLoop_returns {E : Env} (hE : E.Contract) : ∀ (fuel : Nat) (s : World),
    s.ctx.queue = [] → s.ctx.queueCap = workBufLen → s.ctx.resultsBuf.length = workBufLen →
    s.Valid → s.ctx.work.length < fuel →
    ∃ s', DoWorkLoop E fuel s = some s' ∧ s'.heap.length = s.heap.length := by
  intro fuel
  induction fuel with
  | zero => intro s _ _ _ _ h; omega
  | succ fuel ih =>
    intro s hq hcap hres hv hlen
    unfold DoWorkLoop
    cases hw : s.ctx.work with
    | nil => exact ⟨s, rfl, rfl⟩
    | cons w ws =>
      simp only
      have hv' : ∀ c ∈ w :: ws, c.blocking = true → c.fnargs < s.heap.length := by
        intro c hc; exact hv c (by rw [hw]; exact hc)
      obtain ⟨s1, hc, hh⟩ := cycle_returns hE hq hcap hres hv'
      rw [hc]
      simp only
      obtain ⟨hq1, -, -, -, hbl, hcp, -⟩ := cycle_fields hc
      obtain ⟨hl, hm⟩ := cycle_work_lt hc hq
      have hcap1 : s1.ctx.queueCap = workBufLen := by
        rw [hcp, hq, hcap]; rfl
      have hv1 : s1.Valid := by
        intro c hc hb
        rw [hh]
        exact hv' c (List.mem_cons_of_mem _ (hm c hc)) hb
      obtain ⟨s', h1, h2⟩ := ih s1 hq1 hcap1 (by rw [hbl, hres]) hv1
        (by rw [hw] at hlen; simp at hlen; omega)
      exact ⟨s', h1, by rw [h2, hh]⟩

theorem DoWork_returns {E : Env} (hE : E.Contract) (s : World)
    (hq : s.ctx.queue = []) (hcap : s.ctx.queueCap = workBufLen)
    (hres : s.ctx.resultsBuf.length = workBufLen) (hv : s.Valid) :
    ∃ s', DoWork E s = some s' ∧ s'.heap.length = s.heap.length :=
  DoWorkLoop_returns hE _ s hq hcap hres hv (Nat.lt_succ_self _)

/-- When nothing before the last call of the channel is blocking and the channel fits the
queue, one cycle takes the whole channel. -/
theorem batch_all (E : Env) (s : World) (w : call) (ws : List call) (hq : s.ctx.queue = [])
    (hnb : ∀ c ∈ (w :: ws).dropLast, c.blocking = false)
    (hlen : (w :: ws).length ≤ s.ctx.queueCap) :
    growLoop (appendCap E s.ctx.queueCap s.ctx.queue.length) ws (s.ctx.queue ++ [w]) w.blocking
      = ([], w :: ws, ((w :: ws).getLast (by simp)).blocking) := by
  have hpos : 0 < s.ctx.queueCap := by simp at hlen; omega
  have hcap : appendCap E s.ctx.queueCap s.ctx.queue.length = s.ctx.queueCap := by
    simp [appendCap, hq, hpos]
  rw [hcap, hq]
  cases ws with
  | nil => simp [growLoop]
  | cons x ws =>
    rw [growLoop_all]
    · rw [List.getLast_cons (by simp), List.getLast?_eq_getLast _ (by simp)]
      simp
    · intro c hc
      exact hnb c (by rw [List.dropLast_cons₂]; exact List.mem_cons_of_mem _ hc)
    · right
      exact hnb w (by rw [List.dropLast_cons₂]; exact List.mem_cons_self _ _)
    · simpa [Nat.add_comm] using hlen

/-- A run of `DoWork` whose first cycle empties the channel is that cycle. -/
theorem DoWork_single {E : Env} {s s1 : World} {w : call} {ws : List call}
    (hw : s.ctx.work = w :: ws) (hc : cycle E s w ws = some s1) (h1 : s1.ctx.work = []) :
    DoWork E s = some s1 := by
  unfold DoWork
  rw [hw]
  simp only [List.length_cons]
  unfold DoWorkLoop
  rw [hw]
  simp only [hc]
  unfold DoWorkLoop
  rw [h1]

theorem submissions_append (l₁ l₂ : List Event) :
    submissions (l₁ ++ l₂) = submissions l₁ ++ submissions l₂ := by
  induction l₁ with
  | nil => rfl
  | cons e l ih => cases e <;> simp [submissions, ih]

theorem submissions_freeAll (l : List Nat) : submissions (freeAll l) = [] := by
  induction l with
  | nil => rfl
  | cons p l ih => simpa [freeAll, submissions] using ih

theorem submissions_map_submit (bs : List Submission) :
    submissions (bs.map Event.submit) = bs := by
  induction bs with
  | nil => rfl
  | cons b bs ih => simp [submissions, ih]

theorem submissions_traceOf (frees : List Nat) (bs : List Submission) :
    submissions (traceOf frees bs) = bs := by
  cases bs with
  | nil => rfl
  | cons b bs =>
    simp [traceOf, submissions, submissions_append, submissions_freeAll, submissions_map_submit]

theorem sampleEnv_contract : sampleEnv.Contract := by
  intro cctx heap mem fns n
  simp [sampleEnv]

theorem enqueue_nonblocking (E : Env) (s : World) (c : call) (hb : c.blocking = false)
    (hl : s.ctx.work.length < workBufLen) :
    enqueue E s c = some
      { s with ctx := { s.ctx with work := s.ctx.work ++ [c], workAvailable := true } } := by
  simp [enqueue, hl, hb]

theorem enqueue_blocking (E : Env) (s : World) (c : call) (hb : c.blocking = true)
    (hl : s.ctx.work.length < workBufLen) :
    enqueue E s c = DoWork E
      { s with ctx := { s.ctx with work := s.ctx.work ++ [c], workAvailable := true } } := by
  simp [enqueue, hl, hb]

theorem enqueueAll_append (E : Env) (s : World) (l₁ l₂ : List call) :
    enqueueAll E s (l₁ ++ l₂) = (enqueueAll E s l₁).bind fun s1 => enqueueAll E s1 l₂ := by
  induction l₁ generalizing s with
  | nil => rfl
  | cons c cs ih =>
    simp only [List.cons_append, enqueueAll]
    cases enqueue E s c with
    | none => rfl
    | some s1 => simp [ih]

theorem enqueueAll_nonblocking (E : Env) (cs : List call) : ∀ (s : World),
    (∀ c ∈ cs, c.blocking = false) → s.ctx.work.length + cs.length ≤ workBufLen →
    enqueueAll E s cs = some
      { s with ctx := { s.ctx with
          work := s.ctx.work ++ cs
          workAvailable := s.ctx.workAvailable || !cs.isEmpty } } := by
  induction cs with
  | nil => intro s _ _; simp [enqueueAll]
  | cons c cs ih =>
    intro s hnb hlen
    simp only [enqueueAll]
    rw [enqueue_nonblocking E s c (hnb c (List.mem_cons_self _ _))
      (by simp at hlen; omega)]
    simp only [Option.some_bind]
    rw [ih _ (fun x hx => hnb x (List.mem_cons_of_mem _ hx)) (by simp at hlen ⊢; omega)]
    simp

/-- One blocking flush: on an empty queue and reference array with the capacities of
`NewBatchedContext`, when the channel holds non-blocking calls followed by one blocking
call, `DoWork` is a single cycle that submits the whole channel. -/
theorem DoWork_flush {E : Env} (hE : E.Contract) (s : World) (l : List call) (hl : l ≠ [])
    (hw : s.ctx.work = l) (hq : s.ctx.queue = []) (hf : s.ctx.fns = [])
    (hsz : s.ctx.Sized) (hlen : l.length ≤ workBufLen)
    (hnb : ∀ c ∈ l.dropLast, c.blocking = false)
    (hv : s.Valid) :
    ∃ s' b0, DoWork E s = some s' ∧
      s'.trace = s.trace ++ [Event.submit b0] ++ freeAll s.ctx.frees ∧
      b0.cctx = s.ctx.Context ∧ b0.queue = l ∧ b0.fns = l.map call.fnargs ∧
      b0.count = (l.length : Int) ∧ b0.results.length = l.length ∧
      s'.ctx.results = b0.results ∧
      s'.ctx.work = [] ∧ s'.ctx.queue = [] ∧ s'.ctx.fns = [] ∧ s'.ctx.frees = [] ∧
      s'.ctx.Sized := by
  obtain ⟨hcap, hfc, hres⟩ := hsz
  cases l with
  | nil => exact absurd rfl hl
  | cons w ws =>
    have hv' : ∀ c ∈ w :: ws, c.blocking = true → c.fnargs < s.heap.length := by
      intro c hc; exact hv c (by rw [hw]; exact hc)
    obtain ⟨s1, hc, -⟩ := cycle_returns hE hq hcap hres hv'
    have hg := batch_all E s w ws hq hnb (by rw [hcap]; exact hlen)
    obtain ⟨hq1, hfn, hfr, hcx, hbl, hcp, hrs, htr, hwk, -⟩ := cycle_fields hc
    have hbq : (batchOf E s w ws).queue = w :: ws := by
      rw [batchOf_queue_eq, hg]
    have hw1 : s1.ctx.work = [] := by
      rw [hbq, hq] at hwk
      simpa using hwk
    obtain ⟨j1, j2, j3, j4, j5, j6, j7, j8⟩ := batchOf_facts hc hq
    refine ⟨s1, batchOf E s w ws, DoWork_single hw hc hw1, htr, j3, hbq, ?_, ?_, ?_, hrs,
      hw1, hq1, hfn, hfr, ?_, ?_, ?_⟩
    · rw [j8 hf, hbq]
    · rw [j4, hbq]
      exact C_int_of_lt _ (by unfold workBufLen at hlen; omega)
    · rw [j5, hbq]
    · rw [hcp, hq, hcap]; rfl
    · obtain ⟨_, _, _, rv, _, e⟩ := cycle_eq_some hc
      rw [e]
      show (appendFns E _ (s.ctx.fns, s.ctx.fnsCap)).2 = workBufLen
      rw [appendFns_snd, hfc]
      show s.ctx.fns.length + (batchOf E s w ws).queue.length ≤ s.ctx.fnsCap
      rw [hf, hbq, hfc]; simpa using hlen
    · rw [hbl, hres]

/-- C1: on a context whose work channel, queue and reference array are empty (with the
capacities `NewBatchedContext` gives), enqueueing `N` non-blocking calls and then one
blocking call, `N + 1 ≤ workBufLen`, returns; `process` has then been invoked exactly
once more, with count `N + 1` and the `N + 1` descriptors in the order of enqueueing, and
`len(results)` is `N + 1`. -/
theorem C1_one_invocation_per_flush (E : Env) (hE : E.Contract) (s : World)
    (cs : List call) (b : call)
    (hN : cs.length + 1 ≤ workBufLen)
    (hcs : ∀ c ∈ cs, c.blocking = false) (hb : b.blocking = true)
    (hptr : b.fnargs < s.heap.length)
    (hwork : s.ctx.work = []) (hqueue : s.ctx.queue = []) (hfns : s.ctx.fns = [])
    (hsized : s.ctx.Sized) :
    ∃ s' b0, enqueueAll E s (cs ++ [b]) = some s' ∧
      submissions s'.trace = submissions s.trace ++ [b0] ∧
      b0.queue = cs ++ [b] ∧
      b0.fns = (cs ++ [b]).map call.fnargs ∧
      b0.count = ((cs.length + 1 : Nat) : Int) ∧
      b0.results.length = cs.length + 1 ∧
      s'.ctx.results = b0.results ∧
      s'.ctx.results.length = cs.length + 1 := by
  have hlen : s.ctx.work.length + cs.length ≤ workBufLen := by rw [hwork]; simp; omega
  rw [enqueueAll_append, enqueueAll_nonblocking E cs s hcs hlen]
  simp only [Option.some_bind, enqueueAll, Option.bind_some]
  rw [enqueue_blocking E _ b hb (by simp [hwork]; omega)]
  obtain ⟨s', b0, h1, h2, h3, h4, h5, h6, h7, h8, -⟩ :=
    DoWork_flush hE
      { s with ctx := { s.ctx with
          work := s.ctx.work ++ cs ++ [b], workAvailable := true } }
      (cs ++ [b]) (by simp) (by simp [hwork]) hqueue hfns hsized (by simpa using hN)
      (by simpa using hcs)
      (by
        intro c hc hcb
        simp [hwork] at hc
        rcases hc with hc | hc
        · have := hcs c hc; simp [this] at hcb
        · rw [hc]; exact hptr)
  refine ⟨s', b0, ?_, ?_, h4, h5, ?_, ?_, h8, ?_⟩
  · simpa using h1
  · rw [h2]; simp [submissions_append, submissions_freeAll, submissions]
  · rw [h6]; simp
  · rw [h7]; simp
  · rw [h8, h7]; simp

theorem C1_one_invocation_per_flush_witness :
    sampleEnv.Contract ∧
    ∃ s' b0, enqueueAll sampleEnv sampleWorld ([sampleFree] ++ [sampleAlloc]) = some s' ∧
      submissions s'.trace = submissions sampleWorld.trace ++ [b0] ∧
      b0.queue = [sampleFree] ++ [sampleAlloc] ∧
      b0.fns = ([sampleFree] ++ [sampleAlloc]).map call.fnargs ∧
      b0.count = (([sampleFree].length + 1 : Nat) : Int) ∧
      b0.results.length = [sampleFree].length + 1 ∧
      s'.ctx.results = b0.results ∧
      s'.ctx.results.length = [sampleFree].length + 1 :=
  ⟨sampleEnv_contract,
    C1_one_invocation_per_flush sampleEnv sampleEnv_contract sampleWorld
      [sampleFree] sampleAlloc
      (by decide) (by decide) rfl (by decide) rfl rfl rfl ⟨rfl, rfl, rfl⟩⟩

/-- C2: on a context with an empty queue, the batches one run of `DoWork` submits are,
put end to end in the order of submission, the content of the work channel in FIFO
order, calls and references alike, and the channel is empty when `DoWork` returns; under
the contract of the native routine, with the capacities of `NewBatchedContext` and
blocking calls that point to descriptors, `DoWork` does return. -/
theorem C2_batches_keep_fifo_order (E : Env) (s : World) (hq : s.ctx.queue = []) :
    (∀ s', DoWork E s = some s' →
      s'.ctx.work = [] ∧
      ∃ bs, submissions s'.trace = submissions s.trace ++ bs ∧
        (bs.map Submission.queue).flatten = s.ctx.work ∧
        (s.ctx.fns = [] → (bs.map Submission.fns).flatten = s.ctx.work.map call.fnargs)) ∧
    (E.Contract → s.ctx.Sized → s.Valid → ∃ s', DoWork E s = some s') := by
  constructor
  · intro s' h
    obtain ⟨bs, i1, -, i3, i4, -, -, -, -, -, -, i10⟩ := DoWorkLoop_batches E _ s s' h hq
    refine ⟨i1, bs, ?_, i4, ?_⟩
    · rw [i3, submissions_append, submissions_traceOf]
    · intro hf
      rw [← i4]
      have : bs.map Submission.fns = bs.map fun b => b.queue.map call.fnargs :=
        List.map_congr_left fun b hb => (i10 b hb).2.2.2.2.2.2.2 hf
      rw [this]
      clear i3 i4 i10 this
      induction bs with
      | nil => rfl
      | cons b bs ih => simp [ih]
  · intro hE hsz hv
    obtain ⟨s', h, -⟩ := DoWork_returns hE s hq hsz.1 hsz.2.2 hv
    exact ⟨s', h⟩

/-- C3: on a context with an empty queue, in every batch a run of `DoWork` submits every
call but the last is non-blocking; under the contract of the native routine, with the
capacities of `NewBatchedContext` and blocking calls that point to descriptors, `DoWork`
does return. -/
theorem C3_blocking_call_is_last (E : Env) (s : World) (hq : s.ctx.queue = []) :
    (∀ s', DoWork E s = some s' →
      ∃ bs, submissions s'.trace = submissions s.trace ++ bs ∧
        ∀ b ∈ bs, ∀ c ∈ b.queue.dropLast, c.blocking = false) ∧
    (E.Contract → s.ctx.Sized → s.Valid → ∃ s', DoWork E s = some s') := by
  constructor
  · intro s' h
    obtain ⟨bs, -, -, i3, -, -, -, -, -, -, -, i10⟩ := DoWorkLoop_batches E _ s s' h hq
    refine ⟨bs, ?_, fun b hb => (i10 b hb).2.1⟩
    rw [i3, submissions_append, submissions_traceOf]
  · intro hE hsz hv
    obtain ⟨s', h, -⟩ := DoWork_returns hE s hq hsz.1 hsz.2.2 hv
    exact ⟨s', h⟩

/-- C4: on a context made by `NewBatchedContext`, enqueueing `workBufLen` non-blocking
calls invokes nothing; the next `DoWork` then invokes `process` exactly once, with all
the calls in order and count `workBufLen`; the reference array and the results array
have length `workBufLen` and keep the capacity `workBufLen`. -/
theorem C4_full_batch_at_capacity (E : Env) (hE : E.Contract) (s : World) (c d : Nat)
    (cs : List call) (hs : s.ctx = NewBatchedContext c d)
    (hlen : cs.length = workBufLen) (hnb : ∀ x ∈ cs, x.blocking = false) :
    ∃ s1 s2 b0, enqueueAll E s cs = some s1 ∧ s1.trace = s.trace ∧
      DoWork E s1 = some s2 ∧
      s2.trace = s.trace ++ [Event.submit b0] ∧
      b0.cctx = c ∧ b0.queue = cs ∧ b0.fns = cs.map call.fnargs ∧
      b0.count = (workBufLen : Int) ∧
      b0.fns.length = workBufLen ∧ b0.results.length = workBufLen ∧
      s2.ctx.results.length = workBufLen ∧
      s2.ctx.fnsCap = workBufLen ∧ s2.ctx.resultsBuf.length = workBufLen ∧
      s2.ctx.queueCap = workBufLen ∧ s2.ctx.work = [] := by
  have hw : s.ctx.work = [] := by rw [hs]; rfl
  have hne : cs ≠ [] := by
    intro h; rw [h] at hlen; exact absurd hlen (by decide)
  rw [enqueueAll_nonblocking E cs s hnb (by rw [hw, hlen]; simp)]
  obtain ⟨s2, b0, h1, h2, h3, h4, h5, h6, h7, h8, h9, -, -, h12, h13⟩ :=
    DoWork_flush hE
      { s with ctx := { s.ctx with
          work := s.ctx.work ++ cs, workAvailable := s.ctx.workAvailable || !cs.isEmpty } }
      cs hne (by simp [hw]) (by simp [hs, NewBatchedContext]) (by simp [hs, NewBatchedContext])
      (by simp [hs, NewBatchedContext, BatchedContext.Sized, workBufLen])
      (by rw [hlen])
      (fun x hx => hnb x (List.mem_of_mem_dropLast hx))
      (by
        intro x hx hxb
        simp [hw] at hx
        have := hnb x hx; simp [this] at hxb)
  refine ⟨_, s2, b0, rfl, rfl, h1, ?_, ?_, h4, h5, ?_, ?_, ?_, ?_, h13.2.1, h13.2.2, h13.1, h9⟩
  · rw [h2]; simp [hs, NewBatchedContext, freeAll]
  · rw [h3]; simp [hs, NewBatchedContext]
  · rw [h6, hlen]
  · rw [h5]; simp [hlen]
  · rw [h7, hlen]
  · rw [h8, h7, hlen]

theorem sampleQueued_valid : sampleQueued.Valid := by
  intro c hc _
  have h : c = sampleFree ∨ c = sampleAlloc := by
    simpa [sampleQueued] using hc
  rcases h with h | h <;> rw [h] <;> decide

theorem C2_batches_keep_fifo_order_witness :
    sampleQueued.ctx.queue = [] ∧
    ∃ s', DoWork sampleEnv sampleQueued = some s' ∧ s'.ctx.work = [] ∧
      ∃ bs, submissions s'.trace = submissions sampleQueued.trace ++ bs ∧
        (bs.map Submission.queue).flatten = [sampleFree, sampleAlloc] ∧
        (bs.map Submission.fns).flatten = [0, 1] := by
  have h := C2_batches_keep_fifo_order sampleEnv sampleQueued rfl
  obtain ⟨s', hs'⟩ := h.2 sampleEnv_contract ⟨rfl, rfl, rfl⟩ sampleQueued_valid
  obtain ⟨h1, bs, h2, h3, h4⟩ := h.1 s' hs'
  exact ⟨rfl, s', hs', h1, bs, h2, h3, h4 rfl⟩

theorem C3_blocking_call_is_last_witness :
    sampleQueued.ctx.queue = [] ∧
    ∃ s', DoWork sampleEnv sampleQueued = some s' ∧
      ∃ bs, submissions s'.trace = submissions sampleQueued.trace ++ bs ∧
        ∀ b ∈ bs, ∀ c ∈ b.queue.dropLast, c.blocking = false := by
  have h := C3_blocking_call_is_last sampleEnv sampleQueued rfl
  obtain ⟨s', hs'⟩ := h.2 sampleEnv_contract ⟨rfl, rfl, rfl⟩ sampleQueued_valid
  exact ⟨rfl, s', hs', h.1 s' hs'⟩

theorem C4_full_batch_at_capacity_witness :
    sampleEnv.Contract ∧ sampleWorld.ctx = NewBatchedContext 7 0 ∧
    (List.replicate workBufLen sampleFree).length = workBufLen ∧
    (∀ x ∈ List.replicate workBufLen sampleFree, x.blocking = false) ∧
    ∃ s1 s2 b0, enqueueAll sampleEnv sampleWorld (List.replicate workBufLen sampleFree) = some s1 ∧
      s1.trace = sampleWorld.trace ∧
      DoWork sampleEnv s1 = some s2 ∧
      s2.trace = sampleWorld.trace ++ [Event.submit b0] ∧
      b0.cctx = 7 ∧ b0.queue = List.replicate workBufLen sampleFree ∧
      b0.fns = (List.replicate workBufLen sampleFree).map call.fnargs ∧
      b0.count = (workBufLen : Int) ∧
      b0.fns.length = workBufLen ∧ b0.results.length = workBufLen ∧
      s2.ctx.results.length = workBufLen ∧
      s2.ctx.fnsCap = workBufLen ∧ s2.ctx.resultsBuf.length = workBufLen ∧
      s2.ctx.queueCap = workBufLen ∧ s2.ctx.work = [] :=
  ⟨sampleEnv_contract, rfl, by decide, by decide,
    C4_full_batch_at_capacity sampleEnv sampleEnv_contract sampleWorld 7 0
      (List.replicate workBufLen sampleFree) rfl (by decide) (by decide)⟩

theorem World.Idle.valid {s : World} (h : s.Idle) : s.Valid :=
  fun c hc _ => h.2.2.2.1 c hc

theorem firstErrorScan_length (l : List CUresult) : (firstErrorScan l).1.length = l.length := by
  induction l with
  | nil => rfl
  | cons v vs ih =>
    unfold firstErrorScan
    split <;> simp [ih]

theorem FirstError_resultsBuf_length (s : World) :
    (FirstError s).1.ctx.resultsBuf.length = s.ctx.resultsBuf.length := by
  simp only [FirstError, BatchedContext.results, List.length_append, firstErrorScan_length,
    List.length_take, List.length_drop]
  omega

/-- A run of `DoWork` from an idle context ends in an idle context with an empty channel;
if there was anything in the channel, nothing is left pending release. -/
theorem DoWork_idle {E : Env} {s s' : World} (hi : s.Idle) (h : DoWork E s = some s') :
    s'.Idle ∧ s'.ctx.work = [] ∧ (s.ctx.work ≠ [] → s'.ctx.frees = []) ∧
    (s.ctx.work = [] → s' = s) := by
  obtain ⟨hq, hf, ⟨hcap, hfc, hres⟩, hv, hsub⟩ := hi
  have hpos : 0 < s.ctx.queueCap := by rw [hcap]; decide
  obtain ⟨bs, i1, i2, i3, i4, i5, i6, i7, i8, i9, i11, i10⟩ := DoWorkLoop_batches E _ s s' h hq
  have hbs : s.ctx.work ≠ [] → bs ≠ [] := by
    intro hw hb; rw [hb] at i4; exact hw i4.symm
  have hbs' : s.ctx.work = [] → bs = [] := by
    intro hw
    cases bs with
    | nil => rfl
    | cons b bs =>
      have := (i10 b (List.mem_cons_self _ _)).1
      rw [hw] at i4
      simp at i4
      exact absurd i4.1 this
  refine ⟨⟨i2, ?_, ⟨?_, ?_, ?_⟩, ?_, ?_⟩, i1, fun hw => (i6 (hbs hw)).2, fun hw => i5 (hbs' hw)⟩
  · by_cases hb : bs = []
    · rw [i5 hb]; exact hf
    · exact (i6 hb).1
  · rw [i9 hpos, hcap]
  · rw [i11 hf hpos (by rw [hcap, hfc]), hfc]
  · rw [i8, hres]
  · rw [i1]; intro c hc; simp at hc
  · intro b hb
    rw [i3, submissions_append, submissions_traceOf] at hb
    rcases List.mem_append.1 hb with hb | hb
    · exact hsub b hb
    · obtain ⟨j1, j2, j3, j4, j5, j6, j7, j8⟩ := i10 b hb
      have hle : b.queue.length ≤ workBufLen := by rw [← hcap]; exact j7 hpos
      refine ⟨?_, ?_, hle, ?_, j5⟩
      · rw [j8 hf]; simp
      · cases hbq : b.queue with
        | nil => exact absurd hbq j1
        | cons x xs => simp
      · rw [j4]; exact C_int_of_lt _ (by unfold workBufLen at hle; omega)

theorem enqueue_inv {E : Env} {s s' : World} {c : call} (hi : s.Idle)
    (hc : c.fnargs < s.heap.length) (h : enqueue E s c = some s') : s'.Inv := by
  unfold enqueue at h
  split at h
  · rename_i hl
    have hi1 : World.Idle
        { s with ctx := { s.ctx with work := s.ctx.work ++ [c], workAvailable := true } } := by
      obtain ⟨hq, hf, hsz, hv, hsub⟩ := hi
      refine ⟨hq, hf, hsz, ?_, hsub⟩
      intro x hx
      rcases List.mem_append.1 hx with hx | hx
      · exact hv x hx
      · simp at hx; rw [hx]; exact hc
    simp only at h
    split at h
    · obtain ⟨k1, k2, k3, -⟩ := DoWork_idle hi1 h
      exact ⟨k1, fun _ => k3 (by simp)⟩
    · have := Option.some.inj h
      subst this
      exact ⟨hi1, fun hw => by simp at hw⟩
  · exact absurd h (by simp)

theorem newFnargs_idle {s : World} (hi : s.Idle) (d : fnargs) :
    (newFnargs s d).1.Idle ∧ (newFnargs s d).2 < (newFnargs s d).1.heap.length := by
  obtain ⟨hq, hf, hsz, hv, hsub⟩ := hi
  refine ⟨⟨hq, hf, hsz, ?_, hsub⟩, by simp [newFnargs]⟩
  intro c hc
  have := hv c hc
  simp only [newFnargs, List.length_append, List.length_singleton]
  exact Nat.lt_succ_of_lt this

theorem newFnargs_enqueue_inv {E : Env} {s s' : World} (hi : s.Idle) (d : fnargs) (b : Bool)
    (h : enqueue E (newFnargs s d).1 { fnargs := (newFnargs s d).2, blocking := b } = some s') :
    s'.Inv :=
  enqueue_inv (newFnargs_idle hi d).1 (newFnargs_idle hi d).2 h

theorem Retval_inv {s : World} (hi : s.Inv) : (Retval s).1.Inv := hi

theorem readBack_inv {s : World} (hi : s.Inv) : (readBack s).1.Inv := by
  unfold readBack
  split
  · exact hi
  · split <;> exact hi

theorem FirstError_inv {s : World} (hi : s.Inv) : (FirstError s).1.Inv := by
  obtain ⟨⟨hq, hf, ⟨hcap, hfc, hres⟩, hv, hsub⟩, hfr⟩ := hi
  exact ⟨⟨hq, hf, ⟨hcap, hfc, by rw [FirstError_resultsBuf_length]; exact hres⟩, hv, hsub⟩, hfr⟩

theorem LaunchKernel_inv {E : Env} {s s' : World} (hi : s.Inv) {function : Nat}
    {gx gy gz bx b_y bz sh : Int} {stream : Nat} {ps : List Nat}
    (h : LaunchKernel E s function gx gy gz bx b_y bz sh stream ps = some s') : s'.Inv := by
  unfold LaunchKernel at h
  refine newFnargs_enqueue_inv ?_ _ _ h
  obtain ⟨⟨hq, hf, hsz, hv, hsub⟩, -⟩ := hi
  refine ⟨hq, hf, hsz, hv, ?_⟩
  intro b hb
  simp only [submissions_append] at hb
  simp [submissions] at hb
  exact hsub b hb

theorem Op_run_inv {E : Env} {s s' : World} (op : Op) (hi : s.Inv) (h : op.run E s = some s') :
    s'.Inv := by
  cases op with
  | SetCurrent => exact newFnargs_enqueue_inv hi.1 _ _ h
  | MemAlloc bytesize =>
    simp only [Op.run, MemAlloc, Option.map_map] at h
    obtain ⟨s1, h1, h2⟩ := Option.map_eq_some'.1 h
    rw [← h2]
    exact readBack_inv (newFnargs_enqueue_inv hi.1 _ _ h1)
  | Memcpy dst src n => exact newFnargs_enqueue_inv hi.1 _ _ h
  | MemcpyHtoD dst src n => exact newFnargs_enqueue_inv hi.1 _ _ h
  | MemcpyDtoH dst src n => exact newFnargs_enqueue_inv hi.1 _ _ h
  | MemFree m => exact newFnargs_enqueue_inv hi.1 _ _ h
  | MemFreeHost p => exact newFnargs_enqueue_inv hi.1 _ _ h
  | LaunchKernel fn gx gy gz bx b_y bz sh st ps => exact LaunchKernel_inv hi h
  | Synchronize => exact newFnargs_enqueue_inv hi.1 _ _ h
  | LaunchAndSync fn gx gy gz bx b_y bz sh st ps =>
    simp only [Op.run, LaunchAndSync] at h
    obtain ⟨s1, h1, h2⟩ := Option.bind_eq_some.1 h
    exact newFnargs_enqueue_inv (LaunchKernel_inv hi h1).1 _ _ h2
  | AllocAndCopy p bytesize =>
    simp only [Op.run, AllocAndCopy, Option.map_map] at h
    obtain ⟨s1, h1, h2⟩ := Option.map_eq_some'.1 h
    rw [← h2]
    exact readBack_inv (newFnargs_enqueue_inv hi.1 _ _ h1)
  | DoWork =>
    obtain ⟨k1, k2, k3, k4⟩ := DoWork_idle hi.1 h
    refine ⟨k1, fun _ => ?_⟩
    by_cases hw : s.ctx.work = []
    · rw [k4 hw]; exact hi.2 hw
    · exact k3 hw
  | Retval =>
    have := Option.some.inj h
    rw [← this]; exact Retval_inv hi
  | Errors =>
    have := Option.some.inj h
    rw [← this]; exact hi
  | FirstError =>
    have := Option.some.inj h
    rw [← this]; exact FirstError_inv hi

theorem new_inv (c d : Nat) (heap : List fnargs) (mem : List (Nat × Nat)) :
    (World.new c d heap mem).Inv := by
  refine ⟨⟨rfl, rfl, ⟨rfl, rfl, by simp [World.new, NewBatchedContext]⟩, ?_, ?_⟩, fun _ => rfl⟩
  · intro c hc; simp [World.new, NewBatchedContext] at hc
  · intro b hb; simp [World.new, submissions] at hb

theorem runOps_inv {E : Env} (ops : List Op) : ∀ {s s' : World}, s.Inv →
    runOps E s ops = some s' → s'.Inv := by
  induction ops with
  | nil => intro s s' hi h; rw [← Option.some.inj h]; exact hi
  | cons op ops ih =>
    intro s s' hi h
    simp only [runOps] at h
    obtain ⟨s1, h1, h2⟩ := Option.bind_eq_some.1 h
    exact ih (Op_run_inv op hi h1) h2

theorem Reachable.inv {E : Env} {s : World} (h : Reachable E s) : s.Inv := by
  obtain ⟨c, d, heap, mem, ops, h⟩ := h
  exact runOps_inv ops (new_inv c d heap mem) h

/-- C5: in every world a sequential execution of public methods reaches from
`NewBatchedContext`, every invocation of `process` made so far had queue and reference
array of the same length `n` with `1 ≤ n ≤ workBufLen`, was passed the count `n` and left
`len(results) = n`; queue and reference array are empty, and so is the pending-release
list once the channel has been drained; when `DoWork` returns, the queue, the reference
array and the pending-release list are empty; and under the contract of the native
routine `DoWork` does return, no index or slice bound being out of range. -/
theorem C5_submission_in_bounds (E : Env) (s : World) (hr : Reachable E s) :
    (∀ b ∈ submissions s.trace,
      b.queue.length = b.fns.length ∧ 1 ≤ b.queue.length ∧ b.queue.length ≤ workBufLen ∧
      b.count = (b.queue.length : Int) ∧ b.results.length = b.queue.length) ∧
    s.ctx.queue = [] ∧ s.ctx.fns = [] ∧ (s.ctx.work = [] → s.ctx.frees = []) ∧
    (∀ s', DoWork E s = some s' →
      s'.ctx.queue = [] ∧ s'.ctx.fns = [] ∧ s'.ctx.frees = [] ∧
      ∀ b ∈ submissions s'.trace,
        b.queue.length = b.fns.length ∧ 1 ≤ b.queue.length ∧ b.queue.length ≤ workBufLen ∧
        b.count = (b.queue.length : Int) ∧ b.results.length = b.queue.length) ∧
    (E.Contract → ∃ s', DoWork E s = some s') := by
  have hi := hr.inv
  refine ⟨hi.1.2.2.2.2, hi.1.1, hi.1.2.1, hi.2, ?_, ?_⟩
  · intro s' h
    obtain ⟨k1, k2, k3, k4⟩ := DoWork_idle hi.1 h
    refine ⟨k1.1, k1.2.1, ?_, k1.2.2.2.2⟩
    by_cases hw : s.ctx.work = []
    · rw [k4 hw]; exact hi.2 hw
    · exact k3 hw
  · intro hE
    obtain ⟨s', h, -⟩ := DoWork_returns hE s hi.1.1 hi.1.2.2.1.1 hi.1.2.2.1.2.2 hi.1.valid
    exact ⟨s', h⟩

theorem C5_submission_in_bounds_witness :
    ∃ s, runOps sampleEnv (World.new 7 0 [] []) sampleOps = some s ∧
      (submissions s.trace).length = 1 ∧
      (∀ b ∈ submissions s.trace,
        b.queue.length = b.fns.length ∧ 1 ≤ b.queue.length ∧ b.queue.length ≤ workBufLen ∧
        b.count = (b.queue.length : Int) ∧ b.results.length = b.queue.length) ∧
      s.ctx.queue = [] ∧ s.ctx.fns = [] ∧
      ∃ s', DoWork sampleEnv s = some s' ∧
        s'.ctx.queue = [] ∧ s'.ctx.fns = [] ∧ s'.ctx.frees = [] := by
  obtain ⟨s, hs, hn⟩ : ∃ s, runOps sampleEnv (World.new 7 0 [] []) sampleOps = some s ∧
      (submissions s.trace).length = 1 := ⟨_, rfl, rfl⟩
  have h := C5_submission_in_bounds sampleEnv s ⟨7, 0, [], [], sampleOps, hs⟩
  obtain ⟨s', hs'⟩ := h.2.2.2.2.2 sampleEnv_contract
  obtain ⟨k1, k2, k3, -⟩ := h.2.2.2.2.1 s' hs'
  exact ⟨s, hs, hn, h.1, h.2.1, h.2.2.1, s', hs', k1, k2, k3⟩

/-- The last call of the batch a cycle builds: the flag `blocking` is its flag, and the
last reference is its pointer. -/
theorem batch_last (E : Env) (s : World) (w : call) (ws : List call) :
    ∃ last, (batchOf E s w ws).queue.getLast? = some last ∧
      (batchOf E s w ws).fns.getLast? = some last.fnargs ∧
      (growLoop (appendCap E s.ctx.queueCap s.ctx.queue.length) ws
        (s.ctx.queue ++ [w]) w.blocking).2.2 = last.blocking := by
  obtain ⟨t, g1, -, -, g4, -, -⟩ :=
    growLoop_exists (appendCap E s.ctx.queueCap s.ctx.queue.length) ws (s.ctx.queue ++ [w]) w.blocking
  have hne : s.ctx.queue ++ [w] ++ t ≠ [] := by simp
  refine ⟨(s.ctx.queue ++ [w] ++ t).getLast hne, ?_, ?_, ?_⟩
  · rw [batchOf_queue_eq, g1, List.getLast?_eq_getLast _ hne]
  · rw [batchOf_fns_eq, List.getLast?_append, List.getLast?_map, batchOf_queue_eq, g1,
      List.getLast?_eq_getLast _ hne]
    rfl
  · rw [g4]
    cases t with
    | nil => simp
    | cons x t =>
      rw [List.getLast?_eq_getLast _ (by simp), List.getLast_append_of_ne_nil (List.cons_ne_nil x t)]
      simp

/-- C6: after a cycle of `DoWork`, when the last call of the batch is blocking its
descriptor is read as `process` left it, and the return-value slot holds the field
`devptr0` of that descriptor if its tag is `fn_mallocD` or `fn_allocAndCopy`; for any
other tag, and when the last call is not blocking, the slot is what it was before the
cycle.  Under the contract of the native routine, on an empty queue with the capacities
of `NewBatchedContext` and blocking calls that point to descriptors, the cycle returns. -/
theorem C6_return_value_of_cycle (E : Env) (s : World) (w : call) (ws : List call) :
    (∀ s', cycle E s w ws = some s' →
      ∃ b0 last, s'.trace = s.trace ++ [Event.submit b0] ++ freeAll s.ctx.frees ∧
        b0.queue.getLast? = some last ∧
        (last.blocking = true →
          ∃ d, s'.heap[last.fnargs]? = some d ∧
            ((d.fn = .fn_mallocD ∨ d.fn = .fn_allocAndCopy) →
              s'.ctx.retVal = some d.devptr0) ∧
            (¬ (d.fn = .fn_mallocD ∨ d.fn = .fn_allocAndCopy) →
              s'.ctx.retVal = s.ctx.retVal)) ∧
        (last.blocking = false → s'.ctx.retVal = s.ctx.retVal)) ∧
    (E.Contract → s.ctx.queue = [] → s.ctx.Sized → (∀ c ∈ w :: ws, c.blocking = true →
      c.fnargs < s.heap.length) → ∃ s', cycle E s w ws = some s') := by
  constructor
  · intro s' h
    obtain ⟨last, l1, l2, l3⟩ := batch_last E s w ws
    obtain ⟨-, -, -, rv, hrv, e⟩ := cycle_eq_some h
    have hrv' : extractRetVal s'.heap (batchOf E s w ws).queue (batchOf E s w ws).fns
        last.blocking s.ctx.retVal = some s'.ctx.retVal := by
      rw [← l3, e]; exact hrv
    rw [extractRetVal_eq _ _ _ _ _ last l1 l2] at hrv'
    refine ⟨batchOf E s w ws, last, (cycle_fields h).2.2.2.2.2.2.2.1, l1, ?_, ?_⟩
    · intro hb
      rw [hb] at hrv'
      simp only [if_true] at hrv'
      cases hd : s'.heap[last.fnargs]? with
      | none => rw [hd] at hrv'; simp at hrv'
      | some d =>
        rw [hd] at hrv'
        simp only [Option.map_some', Option.some.injEq] at hrv'
        refine ⟨d, rfl, fun ht => ?_, fun ht => ?_⟩
        · rw [← hrv', if_pos ht]
        · rw [← hrv', if_neg ht]
    · intro hb
      rw [hb] at hrv'
      simpa using hrv'.symm
  · intro hE hq hsz hv
    obtain ⟨s', h, -⟩ := cycle_returns hE hq hsz.1 hsz.2.2 hv
    exact ⟨s', h⟩

theorem C6_return_value_of_cycle_witness :
    ∃ s', cycle sampleEnv sampleQueued sampleFree [sampleAlloc] = some s' ∧
      s'.ctx.retVal = some 4096 ∧
      ∃ b0 last, s'.trace = sampleQueued.trace ++ [Event.submit b0] ++
          freeAll sampleQueued.ctx.frees ∧
        b0.queue.getLast? = some last ∧
        (last.blocking = true →
          ∃ d, s'.heap[last.fnargs]? = some d ∧
            ((d.fn = .fn_mallocD ∨ d.fn = .fn_allocAndCopy) →
              s'.ctx.retVal = some d.devptr0) ∧
            (¬ (d.fn = .fn_mallocD ∨ d.fn = .fn_allocAndCopy) →
              s'.ctx.retVal = sampleQueued.ctx.retVal)) ∧
        (last.blocking = false → s'.ctx.retVal = sampleQueued.ctx.retVal) := by
  obtain ⟨s', hs', hr⟩ : ∃ s', cycle sampleEnv sampleQueued sampleFree [sampleAlloc] = some s' ∧
      s'.ctx.retVal = some 4096 := ⟨_, rfl, rfl⟩
  exact ⟨s', hs', hr,
    (C6_return_value_of_cycle sampleEnv sampleQueued sampleFree [sampleAlloc]).1 s' hs'⟩

/-- C7: on a context made by `NewBatchedContext` with nothing pending, if `process`,
called on the single new descriptor with count 1, reports success and leaves the device
address `a` in that descriptor, then `MemAlloc bytesize` invokes `process` exactly once,
with a queue of length 1, leaves the single code `CUDA_SUCCESS` in `results`, returns
`(a, nil)` and has emptied the return-value slot, so that `Retval` then returns nil. -/
theorem C7_MemAlloc_alone (E : Env) (s : World) (c d : Nat) (bytesize : Int) (a : Nat)
    (heap1 : List fnargs) (mem1 : List (Nat × Nat)) (d1 : fnargs)
    (hs : s.ctx = NewBatchedContext c d)
    (hp : E.process c (s.heap ++ [{ fn := .fn_mallocD, size := C_size_t bytesize }]) s.mem
      [s.heap.length] 1 = (heap1, mem1, [CUDA_SUCCESS]))
    (hd : heap1[s.heap.length]? = some d1) (hfn : d1.fn = .fn_mallocD) (ha : d1.devptr0 = a) :
    ∃ s', MemAlloc E s bytesize = some (s', a, none) ∧
      submissions s'.trace = submissions s.trace ++
        [{ cctx := c, queue := [{ fnargs := s.heap.length, blocking := true }]
           fns := [s.heap.length], count := 1, results := [CUDA_SUCCESS] }] ∧
      s'.ctx.results = [CUDA_SUCCESS] ∧
      s'.ctx.retVal = none ∧ (Retval s').2 = none := by
  obtain ⟨ctx, heap, mem, nalloc, trace⟩ := s
  simp only at hs hp hd
  subst hs
  have hci : C_int 1 = 1 := by decide
  have hcy : cycle E
      { ctx := { NewBatchedContext c d with
                 work := [{ fnargs := heap.length, blocking := true }], workAvailable := true }
        heap := heap ++ [{ fn := .fn_mallocD, size := C_size_t bytesize }]
        mem := mem, nalloc := nalloc, trace := trace }
      { fnargs := heap.length, blocking := true } [] =
      some
        { ctx := { NewBatchedContext c d with
                   workAvailable := true
                   resultsBuf := List.replicate workBufLen CUDA_SUCCESS
                   resultsLen := 1
                   retVal := some a }
          heap := heap1, mem := mem1, nalloc := nalloc
          trace := trace ++
            [Event.submit { cctx := c, queue := [{ fnargs := heap.length, blocking := true }]
                            fns := [heap.length], count := 1, results := [CUDA_SUCCESS] }] } := by
    simp [cycle, NewBatchedContext, growLoop, appendFns, appendCap, workBufLen, hci, hp,
      extractRetVal, hd, hfn, ha, freeAll, CUDA_SUCCESS, List.replicate]
  refine ⟨{ ctx := { NewBatchedContext c d with
                   workAvailable := true
                   resultsBuf := List.replicate workBufLen CUDA_SUCCESS
                   resultsLen := 1
                   retVal := none }
            heap := heap1, mem := mem1, nalloc := nalloc
            trace := trace ++
              [Event.submit { cctx := c, queue := [{ fnargs := heap.length, blocking := true }]
                              fns := [heap.length], count := 1, results := [CUDA_SUCCESS] }] },
    ?_, ?_, ?_, rfl, rfl⟩
  · simp only [MemAlloc, newFnargs]
    rw [enqueue_blocking _ _ _ rfl (by simp [NewBatchedContext, workBufLen])]
    rw [@DoWork_single E _ _ { fnargs := heap.length, blocking := true } [] (by rfl)
      (by simpa [NewBatchedContext] using hcy) rfl]
    rfl
  · simp [submissions_append, submissions]
  · rfl

theorem C7_MemAlloc_alone_witness :
    sampleWorld.ctx = NewBatchedContext 7 0 ∧
    ∃ s', MemAlloc sampleEnv sampleWorld 1024 = some (s', 4096, none) ∧
      submissions s'.trace = submissions sampleWorld.trace ++
        [{ cctx := 7, queue := [{ fnargs := sampleWorld.heap.length, blocking := true }]
           fns := [sampleWorld.heap.length], count := 1, results := [CUDA_SUCCESS] }] ∧
      s'.ctx.results = [CUDA_SUCCESS] ∧
      s'.ctx.retVal = none ∧ (Retval s').2 = none :=
  ⟨rfl, C7_MemAlloc_alone sampleEnv sampleWorld 7 0 1024 4096 _ _ _ rfl rfl rfl rfl rfl⟩

/-- C8: `Retval` returns the content of the return-value slot and leaves the slot nil,
changing nothing else; called again right away it returns nil. -/
theorem C8_Retval_takes_and_clears (s : World) :
    (Retval s).2 = s.ctx.retVal ∧
    (Retval s).1 = { s with ctx := { s.ctx with retVal := none } } ∧
    (Retval s).1.ctx.retVal = none ∧
    (Retval (Retval s).1).2 = none ∧
    (Retval (Retval s).1).1 = (Retval s).1 :=
  ⟨rfl, rfl, rfl, rfl, rfl⟩

theorem result_eq_none_iff (v : CUresult) : result v = none ↔ v = Success := by
  unfold result
  split <;> simp [*]

theorem firstErrorScan_none_iff (l : List CUresult) :
    (firstErrorScan l).2 = none ↔ ∀ v ∈ l, v = CUDA_SUCCESS := by
  induction l with
  | nil => simp [firstErrorScan]
  | cons v vs ih =>
    unfold firstErrorScan
    by_cases h : v ≠ Success
    · have h' : v ≠ CUDA_SUCCESS := h
      simp [h, h', result, Success]
    · have h' : v = CUDA_SUCCESS := by simpa [Success] using h
      simp [h, h', ih, Success]

theorem firstErrorScan_first (l : List CUresult) (i : Nat) (v : CUresult)
    (hi : l[i]? = some v) (hv : v ≠ CUDA_SUCCESS)
    (hj : ∀ j < i, l[j]? = some CUDA_SUCCESS) : (firstErrorScan l).2 = result v := by
  induction l generalizing i with
  | nil => simp at hi
  | cons x xs ih =>
    unfold firstErrorScan
    cases i with
    | zero =>
      have hx : x = v := by simpa using hi
      subst hx
      have : x ≠ Success := hv
      simp [this]
    | succ i =>
      have h0 : x = CUDA_SUCCESS := by simpa using hj 0 (Nat.succ_pos _)
      have : ¬ x ≠ Success := by simp [h0, Success]
      simp only [this, if_false]
      exact ih i (by simpa using hi) (fun j hjlt => by simpa using hj (j + 1) (Nat.succ_lt_succ hjlt))

/-- C10: `FirstError` returns nil exactly when every slot of `results` holds the success
code; otherwise it returns the translation of the non-success slot with the smallest
index, which is not nil. -/
theorem C10_FirstError_first_failure (s : World) :
    ((FirstError s).2 = none ↔ ∀ v ∈ s.ctx.results, v = CUDA_SUCCESS) ∧
    ∀ (i : Nat) (v : CUresult), s.ctx.results[i]? = some v → v ≠ CUDA_SUCCESS →
      (∀ j < i, s.ctx.results[j]? = some CUDA_SUCCESS) →
      (FirstError s).2 = (result v).map error.result ∧ (FirstError s).2 ≠ none := by
  constructor
  · simp only [FirstError, Option.map_eq_none']
    exact firstErrorScan_none_iff _
  · intro i v hi hv hj
    have h1 : (FirstError s).2 = (result v).map error.result := by
      simp only [FirstError]
      rw [firstErrorScan_first _ i v hi hv hj]
    refine ⟨h1, ?_⟩
    rw [h1]
    have : result v ≠ none := fun h => hv ((result_eq_none_iff v).1 h)
    cases hr : result v with
    | none => exact absurd hr this
    | some e => simp

theorem C10_FirstError_first_failure_witness :
    sampleFailed.ctx.results[1]? = some 2 ∧ (2 : CUresult) ≠ CUDA_SUCCESS ∧
    (∀ j < 1, sampleFailed.ctx.results[j]? = some CUDA_SUCCESS) ∧
    (FirstError sampleFailed).2 = (result 2).map error.result ∧
    (FirstError sampleFailed).2 ≠ none ∧
    ((FirstError sampleWorld).2 = none ↔ ∀ v ∈ sampleWorld.ctx.results, v = CUDA_SUCCESS) :=
  ⟨rfl, by decide, by decide,
    ((C10_FirstError_first_failure sampleFailed).2 1 2 rfl (by decide) (by decide)).1,
    ((C10_FirstError_first_failure sampleFailed).2 1 2 rfl (by decide) (by decide)).2,
    (C10_FirstError_first_failure sampleWorld).1⟩

/-- C9, the code at a results array with a failure: the first call of `FirstError`
returns the first failure and leaves the array as it was, the failing slot included, so
that the second call returns the same failure again instead of nil. -/
theorem C9_FirstError_twice_repeats_failure :
    sampleFailed.ctx.results = [0, 2, 700] ∧
    (FirstError sampleFailed).2 = some (error.result { code := 2 }) ∧
    (FirstError sampleFailed).1.ctx.results = [0, 2, 700] ∧
    (FirstError (FirstError sampleFailed).1).2 = some (error.result { code := 2 }) ∧
    (FirstError (FirstError sampleFailed).1).2 ≠ none := by
  decide

theorem checkResultsLoop_iff (l : List CUresult) :
    checkResultsLoop l = true ↔ ∃ v ∈ l, v ≠ CUDA_SUCCESS := by
  induction l with
  | nil => simp [checkResultsLoop]
  | cons v vs ih =>
    unfold checkResultsLoop
    by_cases h : v ≠ CUDA_SUCCESS
    · simp [h]
    · have h' : v = CUDA_SUCCESS := by simpa using h
      simp [h', ih]

theorem checkResultsLoop_false_iff (l : List CUresult) :
    checkResultsLoop l = false ↔ ∀ v ∈ l, v = CUDA_SUCCESS := by
  rw [← Bool.not_eq_true, checkResultsLoop_iff]
  simp

/-- C11: `errors`, and `Errors` which calls it, returns nil exactly when every slot of
`results` holds the success code; otherwise it returns an `errorSlice` with `len(results)`
entries whose entry `i` is the translation of `results[i]`, the nil of a success slot
included. -/
theorem C11_errors_one_entry_per_slot (s : World) :
    (errors s = none ↔ ∀ v ∈ s.ctx.results, v = CUDA_SUCCESS) ∧
    ((∃ v ∈ s.ctx.results, v ≠ CUDA_SUCCESS) →
      ∃ errs, errors s = some (error.errorSlice errs) ∧
        errs.length = s.ctx.results.length ∧
        (∀ (i : Nat) (v : CUresult), s.ctx.results[i]? = some v → errs[i]? = some (result v)) ∧
        (∀ (i : Nat), s.ctx.results[i]? = some CUDA_SUCCESS → errs[i]? = some none)) ∧
    Errors s = errors s := by
  refine ⟨?_, ?_, rfl⟩
  · unfold errors checkResults
    rw [← checkResultsLoop_false_iff]
    split <;> simp [*]
  · intro h
    have hc : checkResults s = true := (checkResultsLoop_iff _).2 h
    refine ⟨s.ctx.results.map result, ?_, by simp, ?_, ?_⟩
    · simp [errors, hc]
    · intro i v hi
      simp [List.getElem?_map, hi]
    · intro i hi
      simp [List.getElem?_map, hi, result, Success]

theorem C11_errors_one_entry_per_slot_witness :
    (∃ v ∈ sampleFailed.ctx.results, v ≠ CUDA_SUCCESS) ∧
    errors sampleFailed =
      some (error.errorSlice [none, some { code := 2 }, some { code := 700 }]) ∧
    errors sampleWorld = none ∧
    ∃ errs, errors sampleFailed = some (error.errorSlice errs) ∧
      errs.length = sampleFailed.ctx.results.length ∧
      (∀ (i : Nat) (v : CUresult), sampleFailed.ctx.results[i]? = some v →
        errs[i]? = some (result v)) ∧
      (∀ (i : Nat), sampleFailed.ctx.results[i]? = some CUDA_SUCCESS → errs[i]? = some none) :=
  ⟨⟨2, by decide, by decide⟩, by decide, by decide,
    (C11_errors_one_entry_per_slot sampleFailed).2.1 ⟨2, by decide, by decide⟩⟩

/-- C12: `checkResults` returns true exactly when some slot of `results` is not the
success code, hence false on an empty array; it only reads, so that its value is the
same in any two worlds with the same `results`. -/
theorem C12_checkResults_any_failure (s : World) :
    (checkResults s = true ↔ ∃ v ∈ s.ctx.results, v ≠ CUDA_SUCCESS) ∧
    (checkResults s = false ↔ ∀ v ∈ s.ctx.results, v = CUDA_SUCCESS) ∧
    (s.ctx.results = [] → checkResults s = false) ∧
    (∀ s' : World, s'.ctx.results = s.ctx.results → checkResults s' = checkResults s) := by
  refine ⟨checkResultsLoop_iff _, checkResultsLoop_false_iff _, ?_, ?_⟩
  · intro h; simp [checkResults, h, checkResultsLoop]
  · intro s' h; simp [checkResults, h]

theorem C12_checkResults_any_failure_witness :
    checkResults sampleFailed = true ∧ (∃ v ∈ sampleFailed.ctx.results, v ≠ CUDA_SUCCESS) ∧
    checkResults sampleWorld = false ∧
    checkResults { sampleWorld with ctx := { sampleWorld.ctx with resultsLen := 0 } } = false :=
  ⟨by decide, (C12_checkResults_any_failure sampleFailed).1.1 (by decide), by decide,
    (C12_checkResults_any_failure
      { sampleWorld with ctx := { sampleWorld.ctx with resultsLen := 0 } }).2.2.1 rfl⟩

theorem firstErrorScan_fst (l : List CUresult) : (firstErrorScan l).1 = l := by
  induction l with
  | nil => rfl
  | cons v vs ih =>
    unfold firstErrorScan
    by_cases h : v ≠ Success
    · simp [h]
    · have h' : v = CUDA_SUCCESS := by simpa [Success] using h
      simp [ih, h', Success]

theorem FirstError_world (s : World) : (FirstError s).1 = s := by
  simp only [FirstError, firstErrorScan_fst, BatchedContext.results, List.take_append_drop]

/-- C19: `FirstError` leaves `results`, and the whole context, exactly as it found it:
the slots it assigns are those before the first failure, which already hold the success
code, and the failing slot is returned without being reset; so it returns the same value
however many times it is called in a row. -/
theorem C19_FirstError_is_a_pure_query (s : World) :
    (FirstError s).1 = s ∧
    (FirstError s).1.ctx.results = s.ctx.results ∧
    (firstErrorScan s.ctx.results).1 = s.ctx.results ∧
    (∀ (i : Nat) (v : CUresult), s.ctx.results[i]? = some v → v ≠ CUDA_SUCCESS →
      (FirstError s).1.ctx.results[i]? = some v) ∧
    ∀ n : Nat, (FirstError ((fun w : World => (FirstError w).1)^[n] s)).2 = (FirstError s).2 := by
  refine ⟨FirstError_world s, by rw [FirstError_world], firstErrorScan_fst _, ?_, ?_⟩
  · intro i v hi _
    rw [FirstError_world]; exact hi
  · intro n
    have : (fun w : World => (FirstError w).1)^[n] s = s := by
      induction n with
      | zero => rfl
      | succ n ih => rw [Function.iterate_succ_apply', ih, FirstError_world]
    rw [this]

theorem C19_FirstError_is_a_pure_query_witness :
    (FirstError sampleFailed).1 = sampleFailed ∧
    sampleFailed.ctx.results[1]? = some 2 ∧
    (FirstError sampleFailed).1.ctx.results[1]? = some 2 ∧
    (FirstError ((fun w : World => (FirstError w).1)^[3] sampleFailed)).2 =
      some (error.result { code := 2 }) :=
  ⟨(C19_FirstError_is_a_pure_query sampleFailed).1, by decide,
    (C19_FirstError_is_a_pure_query sampleFailed).2.2.2.1 1 2 (by decide) (by decide),
    ((C19_FirstError_is_a_pure_query sampleFailed).2.2.2.2 3).trans (by decide)⟩

/-- Every cycle takes at least the call it received out of the channel. -/
theorem cycle_work_le {E : Env} {s s1 : World} {w : call} {ws : List call}
    (hc : cycle E s w ws = some s1) : s1.ctx.work.length ≤ ws.length := by
  obtain ⟨t, -, g2, -⟩ :=
    growLoop_exists (appendCap E s.ctx.queueCap s.ctx.queue.length) ws (s.ctx.queue ++ [w]) w.blocking
  obtain ⟨-, -, -, rv, -, e⟩ := cycle_eq_some hc
  have : s1.ctx.work = (growLoop (appendCap E s.ctx.queueCap s.ctx.queue.length) ws
      (s.ctx.queue ++ [w]) w.blocking).1 := by rw [e]
  rw [this]
  conv_rhs => rw [g2]
  simp

/-- One round more does not change the result of the loop of `DoWork` once the rounds
outnumber the calls in the channel. -/
theorem DoWorkLoop_succ (E : Env) : ∀ (fuel : Nat) (s : World), s.ctx.work.length < fuel →
    DoWorkLoop E (fuel + 1) s = DoWorkLoop E fuel s := by
  intro fuel
  induction fuel with
  | zero => intro s h; omega
  | succ fuel ih =>
    intro s h
    rw [DoWorkLoop, DoWorkLoop]
    cases hw : s.ctx.work with
    | nil => rfl
    | cons w ws =>
      simp only
      cases hc : cycle E s w ws with
      | none => rfl
      | some s1 =>
        simp only
        exact ih s1 (by
          have := cycle_work_le hc
          rw [hw] at h
          simp at h
          omega)

theorem DoWorkLoop_fuel (E : Env) (s : World) : ∀ (fuel : Nat), s.ctx.work.length < fuel →
    DoWorkLoop E fuel s = DoWork E s := by
  intro fuel
  induction fuel with
  | zero => intro h; omega
  | succ fuel ih =>
    intro h
    by_cases h' : s.ctx.work.length < fuel
    · rw [DoWorkLoop_succ E fuel s h', ih h']
    · have : fuel = s.ctx.work.length := by omega
      rw [this]; rfl

/-- The number of invocations of `process` of one run of the loop of `DoWork`. -/
theorem DoWorkLoop_count (E : Env) : ∀ (fuel : Nat) (s s' : World),
    DoWorkLoop E fuel s = some s' →
    s'.ctx.work = [] ∧
    ∃ bs, submissions s'.trace = submissions s.trace ++ bs ∧
      bs.length ≤ s.ctx.work.length ∧ (s.ctx.work ≠ [] → 1 ≤ bs.length) := by
  intro fuel
  induction fuel with
  | zero => intro s s' h; simp [DoWorkLoop] at h
  | succ fuel ih =>
    intro s s' h
    unfold DoWorkLoop at h
    cases hw : s.ctx.work with
    | nil =>
      rw [hw] at h
      have hs : s' = s := (Option.some.inj h).symm
      subst hs
      exact ⟨hw, [], by simp⟩
    | cons w ws =>
      rw [hw] at h
      simp only at h
      cases hc : cycle E s w ws with
      | none => rw [hc] at h; simp at h
      | some s1 =>
        rw [hc] at h
        simp only at h
        obtain ⟨i1, bs, i2, i3, -⟩ := ih s1 s' h
        have htr := (cycle_fields hc).2.2.2.2.2.2.2.1
        have hle := cycle_work_le hc
        refine ⟨i1, batchOf E s w ws :: bs, ?_, ?_, ?_⟩
        · rw [i2, htr]
          simp [submissions_append, submissions_freeAll, submissions]
        · simp; omega
        · intro _; simp

theorem DoWork_empty (E : Env) (s : World) (h : s.ctx.work = []) : DoWork E s = some s := by
  unfold DoWork DoWorkLoop
  simp [h]

/-- C20: the loop of `DoWork` needs no more rounds than the channel holds calls, plus the
one that finds it empty: its result is the same for any larger number of rounds.  Every
cycle takes at least one call out of the channel.  On an empty channel `DoWork` returns
at once and changes nothing, invoking nothing; on a non-empty channel a run that returns
has invoked `process` at least once and at most once per pending call, and leaves the
channel empty.  Under the contract of the native routine, on an empty queue with the
capacities of `NewBatchedContext` and blocking calls that point to descriptors, it does
return. -/
theorem C20_DoWork_terminates (E : Env) (s : World) :
    (∀ fuel, s.ctx.work.length < fuel → DoWorkLoop E fuel s = DoWork E s) ∧
    (∀ w ws s1, s.ctx.work = w :: ws → cycle E s w ws = some s1 →
      s1.ctx.work.length < s.ctx.work.length) ∧
    (s.ctx.work = [] → DoWork E s = some s) ∧
    (∀ s', DoWork E s = some s' →
      s'.ctx.work = [] ∧
      ∃ bs, submissions s'.trace = submissions s.trace ++ bs ∧
        bs.length ≤ s.ctx.work.length ∧ (s.ctx.work ≠ [] → 1 ≤ bs.length)) ∧
    (E.Contract → s.ctx.queue = [] → s.ctx.Sized → s.Valid → ∃ s', DoWork E s = some s') := by
  refine ⟨DoWorkLoop_fuel E s, ?_, DoWork_empty E s, fun s' h => DoWorkLoop_count E _ s s' h, ?_⟩
  · intro w ws s1 hw hc
    have := cycle_work_le hc
    rw [hw]; simp; omega
  · intro hE hq hsz hv
    obtain ⟨s', h, -⟩ := DoWork_returns hE s hq hsz.1 hsz.2.2 hv
    exact ⟨s', h⟩

theorem C20_DoWork_terminates_witness :
    DoWork sampleEnv sampleWorld = some sampleWorld ∧
    DoWorkLoop sampleEnv 10 sampleQueued = DoWork sampleEnv sampleQueued ∧
    ∃ s', DoWork sampleEnv sampleQueued = some s' ∧ s'.ctx.work = [] ∧
      ∃ bs, submissions s'.trace = submissions sampleQueued.trace ++ bs ∧
        bs.length ≤ sampleQueued.ctx.work.length ∧ 1 ≤ bs.length := by
  have h := C20_DoWork_terminates sampleEnv sampleQueued
  obtain ⟨s', hs'⟩ := h.2.2.2.2 sampleEnv_contract rfl ⟨rfl, rfl, rfl⟩ sampleQueued_valid
  obtain ⟨h1, bs, h2, h3, h4⟩ := h.2.2.2.1 s' hs'
  exact ⟨(C20_DoWork_terminates sampleEnv sampleWorld).2.2.1 rfl, h.1 10 (by decide),
    s', hs', h1, bs, h2, h3, h4 (by decide)⟩

theorem enqueue_new_nonblocking (E : Env) (s : World) (d : fnargs)
    (hl : s.ctx.work.length < workBufLen) :
    enqueue E (newFnargs s d).1 { fnargs := (newFnargs s d).2, blocking := false } = some
      { s with
        heap := s.heap ++ [d]
        ctx := { s.ctx with
                 work := s.ctx.work ++ [{ fnargs := s.heap.length, blocking := false }]
                 workAvailable := true } } := by
  rw [enqueue_nonblocking _ _ _ rfl (by simpa [newFnargs] using hl)]
  rfl

theorem enqueue_new_blocking (E : Env) (s : World) (d : fnargs)
    (hl : s.ctx.work.length < workBufLen) :
    enqueue E (newFnargs s d).1 { fnargs := (newFnargs s d).2, blocking := true } =
      DoWork E (afterSend s d) := by
  rw [enqueue_blocking _ _ _ rfl (by simpa [newFnargs] using hl)]
  rfl

theorem fireAndForget_new (s : World) (d : fnargs) :
    FireAndForget s
      { s with
        heap := s.heap ++ [d]
        ctx := { s.ctx with
                 work := s.ctx.work ++ [{ fnargs := s.heap.length, blocking := false }]
                 workAvailable := true } } d.fn :=
  ⟨d, rfl, rfl, rfl, rfl, rfl, rfl, rfl, rfl⟩

theorem LaunchKernel_eq (E : Env) (s : World) (function : Nat)
    (gx gy gz bx b_y bz sh : Int) (stream : Nat) (ps : List Nat)
    (hl : s.ctx.work.length < workBufLen) :
    ∃ d : fnargs, d.fn = .fn_launchKernel ∧
      d.kernelParams = E.malloc (s.nalloc + 1) (C_size_t (ps.length * pointerSize)) ∧
      LaunchKernel E s function gx gy gz bx b_y bz sh stream ps = some
        { ctx := { s.ctx with
                   work := s.ctx.work ++ [{ fnargs := s.heap.length, blocking := false }]
                   workAvailable := true
                   frees := s.ctx.frees ++
                     [E.malloc s.nalloc (C_size_t (ps.length * pointerSize))] ++
                     [E.malloc (s.nalloc + 1) (C_size_t (ps.length * pointerSize))] }
          heap := s.heap ++ [d]
          mem := marshal (E.malloc s.nalloc (C_size_t (ps.length * pointerSize)))
            (E.malloc (s.nalloc + 1) (C_size_t (ps.length * pointerSize))) 0 ps s.mem
          nalloc := s.nalloc + 2
          trace := s.trace ++
            [Event.malloc (C_size_t (ps.length * pointerSize))
               (E.malloc s.nalloc (C_size_t (ps.length * pointerSize))),
             Event.malloc (C_size_t (ps.length * pointerSize))
               (E.malloc (s.nalloc + 1) (C_size_t (ps.length * pointerSize)))] } := by
  refine ⟨{ fn := .fn_launchKernel
            f := function
            gridDimX := C_uint gx
            gridDimY := C_uint gy
            gridDimZ := C_uint gz
            blockDimX := C_uint bx
            blockDimY := C_uint b_y
            blockDimZ := C_uint bz
            sharedMemBytes := C_uint sh
            stream := stream
            kernelParams := E.malloc (s.nalloc + 1) (C_size_t (ps.length * pointerSize))
            extra := 0 }, rfl, rfl, ?_⟩
  unfold LaunchKernel
  simp only
  rw [enqueue_new_nonblocking _ _ _ (by simpa using hl)]

/-- C14: with fewer than `workBufLen` calls pending, each of `MemFree`, `MemFreeHost`,
`Memcpy`, `MemcpyHtoD`, `MemcpyDtoH` and `LaunchKernel` returns having appended one
non-blocking call with its own tag to the end of the channel, without invoking `process`
and without touching `queue`, `fns`, `results` or `retVal`; `MemAlloc` and `AllocAndCopy`
send a blocking call, so that they run `DoWork` with that call last in the channel. -/
theorem C14_fire_and_forget (E : Env) (s : World) (hl : s.ctx.work.length < workBufLen) :
    (∀ m, ∃ s', MemFree E s m = some s' ∧ FireAndForget s s' .fn_memfreeD) ∧
    (∀ p, ∃ s', MemFreeHost E s p = some s' ∧ FireAndForget s s' .fn_memfreeH) ∧
    (∀ dst src n, ∃ s', Memcpy E s dst src n = some s' ∧ FireAndForget s s' .fn_memcpy) ∧
    (∀ dst src n, ∃ s', MemcpyHtoD E s dst src n = some s' ∧
      FireAndForget s s' .fn_memcpyHtoD) ∧
    (∀ dst src n, ∃ s', MemcpyDtoH E s dst src n = some s' ∧
      FireAndForget s s' .fn_memcpyDtoH) ∧
    (∀ function gx gy gz bx b_y bz sh stream ps,
      ∃ s', LaunchKernel E s function gx gy gz bx b_y bz sh stream ps = some s' ∧
        FireAndForget s s' .fn_launchKernel) ∧
    (∀ bytesize, MemAlloc E s bytesize =
      (DoWork E (afterSend s { fn := .fn_mallocD, size := C_size_t bytesize })).map readBack) ∧
    (∀ p bytesize, AllocAndCopy E s p bytesize =
      (DoWork E (afterSend s
        { fn := .fn_allocAndCopy, size := C_size_t bytesize, ptr0 := p })).map readBack) := by
  refine ⟨?_, ?_, ?_, ?_, ?_, ?_, ?_, ?_⟩
  · intro m
    exact ⟨_, enqueue_new_nonblocking E s _ hl, fireAndForget_new s _⟩
  · intro p
    exact ⟨_, enqueue_new_nonblocking E s _ hl, fireAndForget_new s _⟩
  · intro dst src n
    exact ⟨_, enqueue_new_nonblocking E s _ hl, fireAndForget_new s _⟩
  · intro dst src n
    exact ⟨_, enqueue_new_nonblocking E s _ hl, fireAndForget_new s _⟩
  · intro dst src n
    exact ⟨_, enqueue_new_nonblocking E s _ hl, fireAndForget_new s _⟩
  · intro function gx gy gz bx b_y bz sh stream ps
    obtain ⟨d, hd, -, h⟩ := LaunchKernel_eq E s function gx gy gz bx b_y bz sh stream ps hl
    refine ⟨_, h, d, hd, rfl, rfl, ?_, rfl, rfl, rfl, rfl⟩
    simp [submissions_append, submissions]
  · intro bytesize
    simp only [MemAlloc]
    rw [enqueue_new_blocking E s _ hl]
  · intro p bytesize
    simp only [AllocAndCopy]
    rw [enqueue_new_blocking E s _ hl]

theorem C14_fire_and_forget_witness :
    sampleWorld.ctx.work.length < workBufLen ∧
    (∃ s', MemFree sampleEnv sampleWorld 4096 = some s' ∧
      FireAndForget sampleWorld s' .fn_memfreeD) ∧
    (∃ s', LaunchKernel sampleEnv sampleWorld 5 1 1 1 32 1 1 0 0 [512, 520] = some s' ∧
      FireAndForget sampleWorld s' .fn_launchKernel) ∧
    MemAlloc sampleEnv sampleWorld 1024 =
      (DoWork sampleEnv (afterSend sampleWorld
        { fn := .fn_mallocD, size := C_size_t 1024 })).map readBack :=
  ⟨by decide,
    (C14_fire_and_forget sampleEnv sampleWorld (by decide)).1 4096,
    (C14_fire_and_forget sampleEnv sampleWorld (by decide)).2.2.2.2.2.1 5 1 1 1 32 1 1 0 0
      [512, 520],
    (C14_fire_and_forget sampleEnv sampleWorld (by decide)).2.2.2.2.2.2.1 1024⟩

theorem LaunchKernel_fields (E : Env) (s : World) (function : Nat)
    (gx gy gz bx b_y bz sh : Int) (stream : Nat) (ps : List Nat)
    (hl : s.ctx.work.length < workBufLen) :
    ∃ (s1 : World) (d : fnargs),
      LaunchKernel E s function gx gy gz bx b_y bz sh stream ps = some s1 ∧
      d.fn = .fn_launchKernel ∧
      d.kernelParams = E.malloc (s.nalloc + 1) (C_size_t (ps.length * pointerSize)) ∧
      s1.heap = s.heap ++ [d] ∧
      s1.ctx.work = s.ctx.work ++ [{ fnargs := s.heap.length, blocking := false }] ∧
      s1.ctx.frees = s.ctx.frees ++
        [E.malloc s.nalloc (C_size_t (ps.length * pointerSize)),
         E.malloc (s.nalloc + 1) (C_size_t (ps.length * pointerSize))] ∧
      s1.trace = s.trace ++
        [Event.malloc (C_size_t (ps.length * pointerSize))
           (E.malloc s.nalloc (C_size_t (ps.length * pointerSize))),
         Event.malloc (C_size_t (ps.length * pointerSize))
           (E.malloc (s.nalloc + 1) (C_size_t (ps.length * pointerSize)))] ∧
      s1.mem = marshal (E.malloc s.nalloc (C_size_t (ps.length * pointerSize)))
        (E.malloc (s.nalloc + 1) (C_size_t (ps.length * pointerSize))) 0 ps s.mem ∧
      s1.nalloc = s.nalloc + 2 ∧
      s1.ctx.queue = s.ctx.queue ∧ s1.ctx.fns = s.ctx.fns ∧
      s1.ctx.results = s.ctx.results ∧ s1.ctx.retVal = s.ctx.retVal := by
  obtain ⟨d, hd, hk, h⟩ := LaunchKernel_eq E s function gx gy gz bx b_y bz sh stream ps hl
  exact ⟨_, d, h, hd, hk, rfl, rfl, by simp, rfl, rfl, rfl, rfl, rfl, rfl, rfl⟩

theorem Synchronize_eq (E : Env) (s : World) (hl : s.ctx.work.length < workBufLen) :
    Synchronize E s = some
      { s with
        heap := s.heap ++ [{ fn := .fn_sync }]
        ctx := { s.ctx with
                 work := s.ctx.work ++ [{ fnargs := s.heap.length, blocking := false }]
                 workAvailable := true } } :=
  enqueue_new_nonblocking E s _ hl

/-- C13, the claim refuted on a fresh context: `LaunchAndSync` returns with the launch and
the synchronize call still waiting in the channel, and `process` has not been invoked. -/
theorem C13_LaunchAndSync_does_not_flush :
    sampleWorld.ctx.work.length < 14 ∧
    ∃ s', LaunchAndSync sampleEnv sampleWorld 5 1 1 1 32 1 1 0 0 [512, 520] = some s' ∧
      s'.ctx.work = [{ fnargs := 2, blocking := false }, { fnargs := 3, blocking := false }] ∧
      s'.ctx.work ≠ [] ∧ submissions s'.trace = [] :=
  ⟨by decide, _, rfl, rfl, by decide, rfl⟩

theorem load64_store64 (mem : List (Nat × Nat)) (a v b : Nat) :
    load64 (store64 mem a v) b = if b = a then v else load64 mem b := by
  unfold load64 store64
  by_cases h : b = a
  · subst h; simp [List.lookup]
  · have : (b == a) = false := by simpa using h
    simp [List.lookup, this, h]

theorem offset_eq (x n i : Nat) (hx : x + pointerSize * n ≤ 2 ^ 64) (hi : i < n) :
    offset x i = x + 8 * i := by
  unfold offset pointerSize at *
  rw [Nat.mod_eq_of_lt]
  omega

/-- A load outside the slots written by the loop of `LaunchKernel` sees the memory as it
was. -/
theorem marshal_other (argv argp a : Nat) : ∀ (ps : List Nat) (i : Nat) (mem : List (Nat × Nat)),
    (∀ k, k < ps.length → a ≠ offset argp (i + k) ∧ a ≠ offset argv (i + k)) →
    load64 (marshal argv argp i ps mem) a = load64 mem a := by
  intro ps
  induction ps with
  | nil => intro i mem _; rfl
  | cons p ps ih =>
    intro i mem h
    simp only [marshal]
    rw [ih]
    · have h0 := h 0 (by simp)
      simp only [Nat.add_zero] at h0
      rw [load64_store64, if_neg h0.2, load64_store64, if_neg h0.1]
    · intro k hk
      have := h (k + 1) (by simpa using hk)
      rw [Nat.add_assoc, Nat.add_comm 1 k]
      exact this

/-- The slots the loop of `LaunchKernel` writes, when they are pairwise distinct and no
parameter reference points to one of them. -/
theorem marshal_slots (argv argp n : Nat)
    (hpa : ∀ i j, i < n → j < n → offset argp i ≠ offset argv j)
    (hpp : ∀ i j, i < n → j < n → i ≠ j → offset argp i ≠ offset argp j)
    (haa : ∀ i j, i < n → j < n → i ≠ j → offset argv i ≠ offset argv j) :
    ∀ (ps : List Nat) (i : Nat) (mem : List (Nat × Nat)), i + ps.length ≤ n →
    (∀ p ∈ ps, ∀ j, j < n → p ≠ offset argp j ∧ p ≠ offset argv j) →
    ∀ k (hk : k < ps.length),
      load64 (marshal argv argp i ps mem) (offset argp (i + k)) = offset argv (i + k) ∧
      load64 (marshal argv argp i ps mem) (offset argv (i + k)) = load64 mem ps[k] := by
  intro ps
  induction ps with
  | nil => intro i mem _ _ k hk; simp at hk
  | cons p ps ih =>
    intro i mem hn hps k hk
    simp only [List.length_cons] at hn hk
    simp only [marshal]
    have hp := hps p (List.mem_cons_self _ _) i (by omega)
    cases k with
    | zero =>
      simp only [Nat.add_zero, List.getElem_cons_zero]
      constructor
      · rw [marshal_other]
        · rw [load64_store64, if_neg (hpa i i (by omega) (by omega)), load64_store64, if_pos rfl]
        · intro k hk'
          exact ⟨hpp i (i + 1 + k) (by omega) (by omega) (by omega),
            hpa i (i + 1 + k) (by omega) (by omega)⟩
      · rw [marshal_other]
        · rw [load64_store64, if_pos rfl, load64_store64, if_neg hp.1]
        · intro k hk'
          exact ⟨fun h => hpa (i + 1 + k) i (by omega) (by omega) h.symm,
            haa i (i + 1 + k) (by omega) (by omega) (by omega)⟩
    | succ k =>
      have hk' : k < ps.length := by omega
      have := ih (i + 1) (store64 (store64 mem (offset argp i) (offset argv i)) (offset argv i)
        (load64 (store64 mem (offset argp i) (offset argv i)) p)) (by omega)
        (fun q hq => hps q (List.mem_cons_of_mem _ hq)) k hk'
      have e : i + (k + 1) = i + 1 + k := by omega
      rw [e]
      refine ⟨this.1, ?_⟩
      rw [this.2]
      have hq := hps ps[k] (List.mem_cons_of_mem _ (List.getElem_mem _)) i (by omega)
      simp only [List.getElem_cons_succ]
      rw [load64_store64, if_neg hq.2, load64_store64, if_neg hq.1]

theorem FreshBuffers.slots {argv argp n : Nat} {ps : List Nat} (h : FreshBuffers argv argp n ps) :
    (∀ i j, i < n → j < n → offset argp i ≠ offset argv j) ∧
    (∀ i j, i < n → j < n → i ≠ j → offset argp i ≠ offset argp j) ∧
    (∀ i j, i < n → j < n → i ≠ j → offset argv i ≠ offset argv j) ∧
    (∀ p ∈ ps, ∀ j, j < n → p ≠ offset argp j ∧ p ≠ offset argv j) := by
  obtain ⟨hv, hp, hd, hps⟩ := h
  refine ⟨?_, ?_, ?_, ?_⟩
  · intro i j hi hj
    rw [offset_eq argp n i hp hi, offset_eq argv n j hv hj]
    unfold pointerSize at *
    omega
  · intro i j hi hj hij
    rw [offset_eq argp n i hp hi, offset_eq argp n j hp hj]
    omega
  · intro i j hi hj hij
    rw [offset_eq argv n i hv hi, offset_eq argv n j hv hj]
    omega
  · intro p hp' j hj
    have := hps p hp'
    rw [offset_eq argp n j hp hj, offset_eq argv n j hv hj]
    unfold pointerSize at *
    omega

/-- C15: when the two buffers `C.malloc` returns are fresh (in the address space, not
overlapping each other or the values the parameters refer to), `LaunchKernel` with
fewer than `workBufLen` calls pending returns, and then, for every `i < n`, slot `i` of
the argument-pointer buffer holds the address of slot `i` of the argument-value buffer,
which holds the value `kernelParams[i]` referred to; the field `kernelParams` of the
descriptor is the argument-pointer buffer, and dereferencing it twice yields the `n`
values unchanged and in order. -/
theorem C15_marshal_round_trip (E : Env) (s : World) (function : Nat)
    (gx gy gz bx b_y bz sh : Int) (stream : Nat) (ps : List Nat)
    (hl : s.ctx.work.length < workBufLen)
    (hfresh : FreshBuffers (E.malloc s.nalloc (C_size_t (ps.length * pointerSize)))
      (E.malloc (s.nalloc + 1) (C_size_t (ps.length * pointerSize))) ps.length ps) :
    ∃ s' d, LaunchKernel E s function gx gy gz bx b_y bz sh stream ps = some s' ∧
      s'.heap[s.heap.length]? = some d ∧ d.fn = .fn_launchKernel ∧
      d.kernelParams = E.malloc (s.nalloc + 1) (C_size_t (ps.length * pointerSize)) ∧
      (∀ i (hi : i < ps.length),
        load64 s'.mem (offset (E.malloc (s.nalloc + 1) (C_size_t (ps.length * pointerSize))) i) =
          offset (E.malloc s.nalloc (C_size_t (ps.length * pointerSize))) i ∧
        load64 s'.mem (offset (E.malloc s.nalloc (C_size_t (ps.length * pointerSize))) i) =
          load64 s.mem ps[i]) ∧
      (List.range ps.length).map
        (fun i => load64 s'.mem (load64 s'.mem (offset d.kernelParams i))) =
        ps.map (load64 s.mem) := by
  obtain ⟨s1, d, h, hd, hk, k1, -, -, -, km, -⟩ :=
    LaunchKernel_fields E s function gx gy gz bx b_y bz sh stream ps hl
  obtain ⟨f1, f2, f3, f4⟩ := hfresh.slots
  have hslots : ∀ i (hi : i < ps.length),
      load64 s1.mem (offset (E.malloc (s.nalloc + 1) (C_size_t (ps.length * pointerSize))) i) =
        offset (E.malloc s.nalloc (C_size_t (ps.length * pointerSize))) i ∧
      load64 s1.mem (offset (E.malloc s.nalloc (C_size_t (ps.length * pointerSize))) i) =
        load64 s.mem ps[i] := by
    intro i hi
    have := marshal_slots _ _ ps.length f1 f2 f3 ps 0 s.mem (by simp) f4 i hi
    rw [km]
    simpa using this
  refine ⟨s1, d, h, ?_, hd, hk, hslots, ?_⟩
  · rw [k1]; simp
  · apply List.ext_getElem
    · simp
    · intro i h1 h2
      have hi : i < ps.length := by simpa using h1
      simp only [List.getElem_map, List.getElem_range]
      rw [hk, (hslots i hi).1, (hslots i hi).2]

theorem C15_marshal_round_trip_witness :
    (World.new 7 0 [] sampleMem).ctx.work.length < workBufLen ∧
    FreshBuffers (sampleEnv.malloc 0 (C_size_t (([512, 520] : List Nat).length * pointerSize)))
      (sampleEnv.malloc (0 + 1) (C_size_t (([512, 520] : List Nat).length * pointerSize)))
      ([512, 520] : List Nat).length [512, 520] ∧
    ∃ (s' : World) (d : fnargs),
      LaunchKernel sampleEnv (World.new 7 0 [] sampleMem) 5 1 1 1 32 1 1 0 0 [512, 520] =
        some s' ∧
      d.kernelParams = 65568 ∧
      (List.range 2).map (fun i => load64 s'.mem (load64 s'.mem (offset d.kernelParams i))) =
        [11, 22] := by
  have hf : FreshBuffers (sampleEnv.malloc 0 (C_size_t (([512, 520] : List Nat).length * pointerSize)))
      (sampleEnv.malloc (0 + 1) (C_size_t (([512, 520] : List Nat).length * pointerSize)))
      ([512, 520] : List Nat).length [512, 520] := by
    refine ⟨by decide, by decide, by decide, ?_⟩
    intro p hp
    have : p = 512 ∨ p = 520 := by simpa using hp
    rcases this with h | h <;> subst h <;> decide
  obtain ⟨s', d, h1, -, -, h4, -, h6⟩ :=
    C15_marshal_round_trip sampleEnv (World.new 7 0 [] sampleMem) 5 1 1 1 32 1 1 0 0 [512, 520]
      (by decide) hf
  exact ⟨by decide, hf, s', d, h1, h4.trans (by decide), h6.trans (by decide)⟩

/-- In a sequential execution a run of `DoWork` on a non-empty channel is one cycle that
takes the whole channel. -/
theorem DoWork_one_cycle {E : Env} {s s' : World} {w : call} {ws : List call}
    (hq : s.ctx.queue = []) (hcap : s.ctx.queueCap = workBufLen)
    (hw : s.ctx.work = w :: ws)
    (hnb : ∀ c ∈ (w :: ws).dropLast, c.blocking = false)
    (hlen : (w :: ws).length ≤ workBufLen)
    (h : DoWork E s = some s') :
    cycle E s w ws = some s' ∧ (batchOf E s w ws).queue = w :: ws ∧ s'.ctx.work = [] := by
  have hg := batch_all E s w ws hq hnb (by rw [hcap]; exact hlen)
  have hbq : (batchOf E s w ws).queue = w :: ws := by rw [batchOf_queue_eq, hg]
  unfold DoWork DoWorkLoop at h
  rw [hw] at h
  simp only at h
  cases hc : cycle E s w ws with
  | none => rw [hc] at h; simp at h
  | some s1 =>
    rw [hc] at h
    simp only at h
    have hwk := (cycle_fields hc).2.2.2.2.2.2.2.2.1
    have hw1 : s1.ctx.work = [] := by
      rw [hbq, hq] at hwk
      simpa using hwk
    have hs : s' = s1 := by
      simp only [List.length_cons] at h
      unfold DoWorkLoop at h
      rw [hw1] at h
      exact (Option.some.inj h).symm
    rw [hs]
    exact ⟨rfl, hbq, hw1⟩

theorem enqueue_quiet {E : Env} {s s' : World} {c : call}
    (h : enqueue E s c = some s') (hs : s.Quiet) : s'.Quiet := by
  unfold enqueue at h
  split at h
  · rename_i hl
    simp only at h
    split at h
    · have := (DoWorkLoop_count E _ _ s' h).1
      exact ⟨by rw [this]; intro c hc; simp at hc, by rw [this]; simp⟩
    · rename_i hb
      have := Option.some.inj h
      subst this
      refine ⟨?_, ?_⟩
      · intro x hx
        rcases List.mem_append.1 hx with hx | hx
        · exact hs.1 x hx
        · simp at hx; rw [hx]; simpa using hb
      · simp; exact hl
  · exact absurd h (by simp)

theorem readBack_ctx_work (s : World) : (readBack s).1.ctx.work = s.ctx.work := by
  unfold readBack
  split
  · rfl
  · split <;> rfl

theorem LaunchKernel_quiet {E : Env} {s s' : World} (hs : s.Quiet) {function : Nat}
    {gx gy gz bx b_y bz sh : Int} {stream : Nat} {ps : List Nat}
    (h : LaunchKernel E s function gx gy gz bx b_y bz sh stream ps = some s') : s'.Quiet := by
  unfold LaunchKernel at h
  exact enqueue_quiet h hs

theorem Op_run_quiet {E : Env} {s s' : World} (op : Op) (hs : s.Quiet)
    (h : op.run E s = some s') : s'.Quiet := by
  cases op with
  | SetCurrent => exact enqueue_quiet h hs
  | MemAlloc bytesize =>
    simp only [Op.run, MemAlloc, Option.map_map] at h
    obtain ⟨s1, h1, h2⟩ := Option.map_eq_some'.1 h
    have := enqueue_quiet h1 hs
    rw [← h2]
    exact ⟨by simp only [Function.comp, readBack_ctx_work]; exact this.1,
      by simp only [Function.comp, readBack_ctx_work]; exact this.2⟩
  | Memcpy dst src n => exact enqueue_quiet h hs
  | MemcpyHtoD dst src n => exact enqueue_quiet h hs
  | MemcpyDtoH dst src n => exact enqueue_quiet h hs
  | MemFree m => exact enqueue_quiet h hs
  | MemFreeHost p => exact enqueue_quiet h hs
  | LaunchKernel fn gx gy gz bx b_y bz sh st ps => exact LaunchKernel_quiet hs h
  | Synchronize => exact enqueue_quiet h hs
  | LaunchAndSync fn gx gy gz bx b_y bz sh st ps =>
    simp only [Op.run, LaunchAndSync] at h
    obtain ⟨s1, h1, h2⟩ := Option.bind_eq_some.1 h
    have hq1 : s1.Quiet := LaunchKernel_quiet hs h1
    exact enqueue_quiet h2 hq1
  | AllocAndCopy p bytesize =>
    simp only [Op.run, AllocAndCopy, Option.map_map] at h
    obtain ⟨s1, h1, h2⟩ := Option.map_eq_some'.1 h
    have := enqueue_quiet h1 hs
    rw [← h2]
    exact ⟨by simp only [Function.comp, readBack_ctx_work]; exact this.1,
      by simp only [Function.comp, readBack_ctx_work]; exact this.2⟩
  | DoWork =>
    have := (DoWorkLoop_count E _ _ s' h).1
    exact ⟨by rw [this]; intro c hc; simp at hc, by rw [this]; simp⟩
  | Retval =>
    have := Option.some.inj h
    rw [← this]; exact hs
  | Errors =>
    have := Option.some.inj h
    rw [← this]; exact hs
  | FirstError =>
    have := Option.some.inj h
    rw [← this]; exact hs

theorem runOps_quiet {E : Env} (ops : List Op) : ∀ {s s' : World}, s.Quiet →
    runOps E s ops = some s' → s'.Quiet := by
  induction ops with
  | nil => intro s s' hi h; rw [← Option.some.inj h]; exact hi
  | cons op ops ih =>
    intro s s' hi h
    simp only [runOps] at h
    obtain ⟨s1, h1, h2⟩ := Option.bind_eq_some.1 h
    exact ih (Op_run_quiet op hi h1) h2

theorem Reachable.quiet {E : Env} {s : World} (h : Reachable E s) : s.Quiet := by
  obtain ⟨c, d, heap, mem, ops, h⟩ := h
  refine runOps_quiet ops ?_ h
  exact ⟨by intro c hc; simp [World.new, NewBatchedContext] at hc,
    by simp [World.new, NewBatchedContext]⟩

/-- The flush a blocking method triggers in a sequential execution. -/
theorem blocking_flush {E : Env} {s s1 : World} (d : fnargs) (hi : s.Idle) (hq : s.Quiet)
    (hl : s.ctx.work.length < workBufLen) (h : DoWork E (afterSend s d) = some s1) :
    ∃ (b : Submission) (w : call) (ws : List call) (d' : fnargs),
      (afterSend s d).ctx.work = w :: ws ∧ cycle E (afterSend s d) w ws = some s1 ∧
      b = batchOf E (afterSend s d) w ws ∧
      s1.trace = s.trace ++ [Event.submit b] ++ freeAll s.ctx.frees ∧
      b.queue = s.ctx.work ++ [{ fnargs := s.heap.length, blocking := true }] ∧
      b.fns = b.queue.map call.fnargs ∧ b.cctx = s.ctx.Context ∧
      b.count = (b.queue.length : Int) ∧
      s1.ctx.results = b.results ∧ b.results.length = b.queue.length ∧
      s1.ctx.work = [] ∧ s1.ctx.frees = [] ∧
      s1.heap = (E.process s.ctx.Context (s.heap ++ [d]) s.mem b.fns b.count).1 ∧
      s1.heap[s.heap.length]? = some d' ∧
      s1.ctx.retVal =
        (if d'.fn = .fn_mallocD ∨ d'.fn = .fn_allocAndCopy then some d'.devptr0
         else s.ctx.retVal) ∧
      (E.Contract →
        s1.ctx.results = (E.process s.ctx.Context (s.heap ++ [d]) s.mem b.fns b.count).2.2) := by
  obtain ⟨hq0, hf0, ⟨hcap, hfc, hres⟩, hv, hsub⟩ := hi
  have hne : s.ctx.work ++ [({ fnargs := s.heap.length, blocking := true } : call)] ≠ [] := by
    simp
  obtain ⟨w, ws, hww⟩ := List.exists_cons_of_ne_nil hne
  have hw : (afterSend s d).ctx.work = w :: ws := hww
  have hnb : ∀ c ∈ (w :: ws).dropLast, c.blocking = false := by
    rw [← hww, List.dropLast_concat]; exact hq.1
  have hlen : (w :: ws).length ≤ workBufLen := by
    rw [← hww]; simp; omega
  obtain ⟨hc, hbq, hw1⟩ := DoWork_one_cycle (s := afterSend s d) hq0 hcap hw hnb hlen h
  obtain ⟨-, hfn, hfr, hcx, hbl, hcp, hrs, htr, hwk, -⟩ := cycle_fields hc
  obtain ⟨j1, j2, j3, j4, j5, j6, j7, j8⟩ := batchOf_facts hc hq0
  obtain ⟨-, -, -, rv, hrv, e⟩ := cycle_eq_some hc
  have hbq' : (batchOf E (afterSend s d) w ws).queue =
      s.ctx.work ++ [{ fnargs := s.heap.length, blocking := true }] := by rw [hbq, hww]
  have hcount : (batchOf E (afterSend s d) w ws).count =
      ((batchOf E (afterSend s d) w ws).queue.length : Int) := by
    rw [j4]
    exact C_int_of_lt _ (by rw [hbq]; unfold workBufLen at hlen; omega)
  have hheap : s1.heap = (E.process s.ctx.Context (s.heap ++ [d]) s.mem
      (batchOf E (afterSend s d) w ws).fns (batchOf E (afterSend s d) w ws).count).1 := by
    rw [e]; simp only [batchOf, afterSend]
  obtain ⟨last, l1, l2, l3⟩ := batch_last E (afterSend s d) w ws
  have hlast : last = { fnargs := s.heap.length, blocking := true } := by
    rw [hbq', List.getLast?_concat] at l1
    exact (Option.some.inj l1).symm
  have hrv' : extractRetVal s1.heap (batchOf E (afterSend s d) w ws).queue
      (batchOf E (afterSend s d) w ws).fns last.blocking s.ctx.retVal = some s1.ctx.retVal := by
    rw [← l3, e]; exact hrv
  rw [extractRetVal_eq _ _ _ _ _ last l1 l2, hlast] at hrv'
  simp only [if_true] at hrv'
  cases hd : s1.heap[s.heap.length]? with
  | none => rw [hd] at hrv'; simp at hrv'
  | some d' =>
    rw [hd] at hrv'
    simp only [Option.map_some', Option.some.injEq] at hrv'
    refine ⟨_, w, ws, d', hw, hc, rfl, htr, hbq', j8 hf0, j3, hcount, hrs, j5, hw1, hfr,
      hheap, rfl, hrv'.symm, ?_⟩
    intro hE
    rw [hrs]
    have hcl := (hE s.ctx.Context (s.heap ++ [d]) s.mem (batchOf E (afterSend s d) w ws).fns
      (batchOf E (afterSend s d) w ws).queue.length).2
    rw [← hcount] at hcl
    have hres' : (batchOf E (afterSend s d) w ws).results =
        ((E.process s.ctx.Context (s.heap ++ [d]) s.mem (batchOf E (afterSend s d) w ws).fns
          (batchOf E (afterSend s d) w ws).count).2.2 ++
          s.ctx.resultsBuf.drop (E.process s.ctx.Context (s.heap ++ [d]) s.mem
            (batchOf E (afterSend s d) w ws).fns
            (batchOf E (afterSend s d) w ws).count).2.2.length).take
          (batchOf E (afterSend s d) w ws).queue.length := by
      simp only [batchOf, afterSend]
    rw [hres', List.take_append_of_le_length (by rw [hcl]), List.take_of_length_le (by rw [hcl])]

theorem blockingOp_some {E : Env} {s : World} {d : fnargs} {r : World × Nat × Option error}
    (h : (enqueue E (newFnargs s d).1
      { fnargs := (newFnargs s d).2, blocking := true }).map readBack = some r) :
    s.ctx.work.length < workBufLen ∧
    ∃ s1, DoWork E (afterSend s d) = some s1 ∧ r = readBack s1 := by
  obtain ⟨s1, h1, h2⟩ := Option.map_eq_some'.1 h
  have hl : s.ctx.work.length < workBufLen := by
    by_contra hn
    have : enqueue E (newFnargs s d).1 { fnargs := (newFnargs s d).2, blocking := true } = none := by
      unfold enqueue
      rw [if_neg (by simpa [newFnargs] using hn)]
    rw [this] at h1
    simp at h1
  rw [enqueue_new_blocking E s d hl] at h1
  exact ⟨hl, s1, h1, h2.symm⟩

theorem afterSend_returns {E : Env} (hE : E.Contract) {s : World} (d : fnargs) (hi : s.Idle) :
    ∃ s1, DoWork E (afterSend s d) = some s1 := by
  obtain ⟨hq0, hf0, ⟨hcap, hfc, hres⟩, hv, hsub⟩ := hi
  have hv' : (afterSend s d).Valid := by
    intro c hc _
    have hc' : c ∈ s.ctx.work ++ [({ fnargs := s.heap.length, blocking := true } : call)] := hc
    show c.fnargs < (s.heap ++ [d]).length
    rw [List.length_append, List.length_singleton]
    rcases List.mem_append.1 hc' with h | h
    · exact Nat.lt_succ_of_lt (hv c h)
    · simp at h; rw [h]; exact Nat.lt_succ_self _
  obtain ⟨s1, h, -⟩ := DoWork_returns hE (afterSend s d) hq0 hcap hres hv'
  exact ⟨s1, h⟩

theorem ownCycle_of_flush {E : Env} {s s1 : World} (d : fnargs) (hi : s.Idle) (hq : s.Quiet)
    (hl : s.ctx.work.length < workBufLen) (h : DoWork E (afterSend s d) = some s1) :
    OwnCycle E s d (readBack s1) := by
  obtain ⟨b, w, ws, d', k1, k2, k3, k4, k5, k6, k7, k8, k9, k10, k11, k12, k13, k14, k15, k16⟩ :=
    blocking_flush d hi hq hl h
  refine ⟨s1, b, w, ws, k1, k2, rfl, ?_, k5, ?_, k9, ?_, k16⟩
  · rw [k4]; simp [submissions_append, submissions_freeAll, submissions]
  · rw [k5, List.getLast?_concat]
  · rw [k9, k10]

/-- C17: in a sequential execution, when `MemAlloc` or `AllocAndCopy` returns, what it has
read after `enqueue` is the world its own flush left: `DoWork` was one cycle, the only
invocation of `process` since the method was called; the batch is what was pending
followed by the method's own call; and `results` is what that invocation left, under the
contract of the native routine exactly the codes it wrote.  Under that contract, with
fewer than `workBufLen` calls pending, both methods return. -/
theorem C17_blocking_op_reads_own_cycle (E : Env) (s : World) (hr : Reachable E s) :
    (∀ bytesize r, MemAlloc E s bytesize = some r →
      OwnCycle E s { fn := .fn_mallocD, size := C_size_t bytesize } r) ∧
    (∀ p bytesize r, AllocAndCopy E s p bytesize = some r →
      OwnCycle E s { fn := .fn_allocAndCopy, size := C_size_t bytesize, ptr0 := p } r) ∧
    (E.Contract → s.ctx.work.length < workBufLen →
      (∀ bytesize, ∃ r, MemAlloc E s bytesize = some r) ∧
      (∀ p bytesize, ∃ r, AllocAndCopy E s p bytesize = some r)) := by
  have hi := hr.inv.1
  have hq := hr.quiet
  refine ⟨?_, ?_, ?_⟩
  · intro bytesize r h
    obtain ⟨hl, s1, h1, h2⟩ := blockingOp_some h
    rw [h2]
    exact ownCycle_of_flush _ hi hq hl h1
  · intro p bytesize r h
    obtain ⟨hl, s1, h1, h2⟩ := blockingOp_some h
    rw [h2]
    exact ownCycle_of_flush _ hi hq hl h1
  · intro hE hl
    constructor
    · intro bytesize
      obtain ⟨s1, h1⟩ := afterSend_returns hE { fn := .fn_mallocD, size := C_size_t bytesize } hi
      exact ⟨readBack s1, by simp only [MemAlloc]; rw [enqueue_new_blocking E s _ hl, h1]; rfl⟩
    · intro p bytesize
      obtain ⟨s1, h1⟩ := afterSend_returns hE
        { fn := .fn_allocAndCopy, size := C_size_t bytesize, ptr0 := p } hi
      exact ⟨readBack s1, by simp only [AllocAndCopy]; rw [enqueue_new_blocking E s _ hl, h1]; rfl⟩

theorem C17_blocking_op_reads_own_cycle_witness :
    ∃ s, runOps sampleEnv (World.new 7 0 [] sampleMem)
        [.MemFree 4096, .LaunchKernel 5 1 1 1 32 1 1 0 0 [512, 520], .MemAlloc 1024,
         .Memcpy 4096 8192 64] = some s ∧
      ∃ r, AllocAndCopy sampleEnv s 512 16 = some r ∧
        OwnCycle sampleEnv s { fn := .fn_allocAndCopy, size := C_size_t 16, ptr0 := 512 } r := by
  obtain ⟨s, hs, hl⟩ : ∃ s, runOps sampleEnv (World.new 7 0 [] sampleMem)
        [.MemFree 4096, .LaunchKernel 5 1 1 1 32 1 1 0 0 [512, 520], .MemAlloc 1024,
         .Memcpy 4096 8192 64] = some s ∧ s.ctx.work.length < workBufLen :=
    ⟨_, rfl, by decide⟩
  have h := C17_blocking_op_reads_own_cycle sampleEnv s ⟨7, 0, [], sampleMem, _, hs⟩
  obtain ⟨r, hr⟩ := (h.2.2 sampleEnv_contract hl).2 512 16
  exact ⟨s, hs, r, hr, h.2.1 512 16 r hr⟩

theorem sampleEnv_keepsTags : sampleEnv.KeepsTags := by
  intro cctx heap mem fns count i d h
  simp only [sampleEnv, List.getElem?_map, h, Option.map_some']
  refine ⟨_, rfl, ?_⟩
  split <;> rfl

theorem allocOutcome_of_flush {E : Env} (hT : E.KeepsTags) {s s1 : World} (d : fnargs)
    (hd : d.fn = .fn_mallocD ∨ d.fn = .fn_allocAndCopy)
    (hi : s.Idle) (hq : s.Quiet)
    (hl : s.ctx.work.length < workBufLen) (h : DoWork E (afterSend s d) = some s1) :
    AllocOutcome s (readBack s1).1 (readBack s1).2.1 (readBack s1).2.2 := by
  obtain ⟨b, w, ws, d', k1, k2, k3, k4, k5, k6, k7, k8, k9, k10, k11, k12, k13, k14, k15, k16⟩ :=
    blocking_flush d hi hq hl h
  have htag : d'.fn = d.fn := by
    obtain ⟨d'', h1, h2⟩ := hT s.ctx.Context (s.heap ++ [d]) s.mem b.fns b.count s.heap.length d
      (by simp)
    rw [← k13, k14] at h1
    rw [Option.some.inj h1]; exact h2
  have hrv : s1.ctx.retVal = some d'.devptr0 := by
    rw [k15, if_pos (by rw [htag]; exact hd)]
  have hsub : submissions s1.trace = submissions s.trace ++ [b] := by
    rw [k4]; simp [submissions_append, submissions_freeAll, submissions]
  unfold readBack
  cases he : errors s1 with
  | some e =>
    simp only
    refine ⟨b, hsub, k5, k9, ?_, ?_, ?_⟩
    · constructor
      · intro _
        by_contra hn
        have : checkResults s1 = false :=
          (checkResultsLoop_false_iff _).2 (by
            intro v hv
            by_contra hv'
            exact hn ⟨v, hv, hv'⟩)
        simp [errors, this] at he
      · intro _; simp
    · intro hx
      have hx' : e = error.expectedDevicePtr := Option.some.inj hx
      unfold errors at he
      split at he
      · simp at he
      · rw [hx'] at he; simp at he
    · intro hx; simp at hx
  | none =>
    simp only [Retval, hrv]
    refine ⟨b, hsub, k5, k9, ?_, by simp, ?_⟩
    · constructor
      · intro hx; exact absurd rfl hx
      · intro hx
        have : checkResults s1 = true := (checkResultsLoop_iff _).2 hx
        simp [errors, this] at he
    · intro _
      exact ⟨d', k14, rfl⟩

/-- C18: in a sequential execution from `NewBatchedContext`, with a native routine that
leaves the operation tags alone, `MemAlloc` and `AllocAndCopy` return a non-nil error
exactly when the results of their batch hold a code that is not the success code, the
codes of the non-blocking calls flushed with them included; the error "Expected retVal to
be DevicePtr" is never returned; and with a nil error they return the device address read
back from their own descriptor.  Under the contract of the native routine, with fewer
than `workBufLen` calls pending, both methods return. -/
theorem C18_type_check_is_defensive (E : Env) (hT : E.KeepsTags) (s : World)
    (hr : Reachable E s) :
    (∀ bytesize s' p err, MemAlloc E s bytesize = some (s', p, err) →
      AllocOutcome s s' p err) ∧
    (∀ q bytesize s' p err, AllocAndCopy E s q bytesize = some (s', p, err) →
      AllocOutcome s s' p err) ∧
    (E.Contract → s.ctx.work.length < workBufLen →
      (∀ bytesize, ∃ r, MemAlloc E s bytesize = some r) ∧
      (∀ q bytesize, ∃ r, AllocAndCopy E s q bytesize = some r)) := by
  have hi := hr.inv.1
  have hq := hr.quiet
  refine ⟨?_, ?_, ?_⟩
  · intro bytesize s' p err h
    obtain ⟨hl, s1, h1, h2⟩ := blockingOp_some h
    have := allocOutcome_of_flush hT _ (Or.inl rfl) hi hq hl h1
    rw [← h2] at this
    exact this
  · intro q bytesize s' p err h
    obtain ⟨hl, s1, h1, h2⟩ := blockingOp_some h
    have := allocOutcome_of_flush hT _ (Or.inr rfl) hi hq hl h1
    rw [← h2] at this
    exact this
  · intro hE hl
    constructor
    · intro bytesize
      obtain ⟨s1, h1⟩ := afterSend_returns hE { fn := .fn_mallocD, size := C_size_t bytesize } hi
      exact ⟨readBack s1, by simp only [MemAlloc]; rw [enqueue_new_blocking E s _ hl, h1]; rfl⟩
    · intro q bytesize
      obtain ⟨s1, h1⟩ := afterSend_returns hE
        { fn := .fn_allocAndCopy, size := C_size_t bytesize, ptr0 := q } hi
      exact ⟨readBack s1, by simp only [AllocAndCopy]; rw [enqueue_new_blocking E s _ hl, h1]; rfl⟩

theorem C18_type_check_is_defensive_witness :
    sampleEnv.KeepsTags ∧
    ∃ s, runOps sampleEnv (World.new 7 0 [] sampleMem)
        [.MemFree 4096, .LaunchKernel 5 1 1 1 32 1 1 0 0 [512, 520]] = some s ∧
      ∃ s', MemAlloc sampleEnv s 1024 = some (s', 4096, none) ∧
        AllocOutcome s s' 4096 none := by
  obtain ⟨s, hs, s', hm⟩ : ∃ s, runOps sampleEnv (World.new 7 0 [] sampleMem)
        [.MemFree 4096, .LaunchKernel 5 1 1 1 32 1 1 0 0 [512, 520]] = some s ∧
      ∃ s', MemAlloc sampleEnv s 1024 = some (s', 4096, none) :=
    ⟨_, rfl, _, rfl⟩
  exact ⟨sampleEnv_keepsTags, s, hs, s', hm,
    (C18_type_check_is_defensive sampleEnv sampleEnv_keepsTags s
      ⟨7, 0, [], sampleMem, _, hs⟩).1 1024 s' 4096 none hm⟩

theorem lifeRun_append (t u : List Event) : ∀ st : List Nat × List Nat,
    lifeRun st (t ++ u) = (lifeRun st t).bind fun st1 => lifeRun st1 u := by
  induction t with
  | nil => intro st; rfl
  | cons e t ih =>
    intro st
    simp only [List.cons_append, lifeRun]
    cases lifeStep st e with
    | none => rfl
    | some st1 => simp [ih]

theorem lifeRun_mallocs (t : List Event) : ∀ p : List Nat,
    submissions t = [] → freed t = [] →
    lifeRun (p, []) t = some (p ++ mallocs t, []) := by
  induction t with
  | nil => intro p _ _; simp [lifeRun, mallocs]
  | cons e t ih =>
    intro p hs hf
    cases e with
    | submit b => simp [submissions] at hs
    | free q => simp [freed] at hf
    | malloc n q =>
      simp only [lifeRun, lifeStep, Option.some_bind, mallocs]
      rw [ih _ (by simpa [submissions] using hs) (by simpa [freed] using hf)]
      simp

theorem lifeRun_freeAll (p : List Nat) : ∀ q : List Nat,
    lifeRun (q, p) (freeAll p) = some (q, []) := by
  induction p with
  | nil => intro q; rfl
  | cons x p ih =>
    intro q
    simp only [freeAll, List.map_cons, lifeRun, lifeStep, if_true, Option.some_bind]
    exact ih q

theorem lifeRun_cycle (p : List Nat) (b : Submission) :
    lifeRun (p, []) ([Event.submit b] ++ freeAll p) = some ([], []) := by
  simp only [List.singleton_append, lifeRun, lifeStep, Option.some_bind]
  exact lifeRun_freeAll p []

theorem lifeRun_effect {s s' : World} {st : List Nat × List Nat} {t : List Event}
    (h : lifeRun st t = some (s.ctx.frees, [])) (he : Effect s s') :
    ∃ u, s'.trace = s.trace ++ u ∧ lifeRun st (t ++ u) = some (s'.ctx.frees, []) := by
  rcases he with ⟨u, h1, h2, h3, h4, -⟩ | ⟨b, h1, -, h3⟩
  · refine ⟨u, h1, ?_⟩
    rw [lifeRun_append, h, Option.some_bind, lifeRun_mallocs u _ h2 h3, h4]
  · refine ⟨[Event.submit b] ++ freeAll s.ctx.frees, by rw [h1, List.append_assoc], ?_⟩
    rw [lifeRun_append, h, Option.some_bind, lifeRun_cycle, h3]

theorem launchStatus_step {s1 s' s'' : World} {c : call} (h : LaunchStatus s1 c s')
    (he : Effect s' s'') : LaunchStatus s1 c s'' := by
  rcases h with ⟨t, more, h1, h2, h3, h4, h5⟩ | ⟨t, more, b, t2, h1, h2, h3, h4, h5⟩
  · rcases he with ⟨u, e1, e2, e3, e4, e5⟩ | ⟨b, e1, e2, e3⟩
    · left
      refine ⟨t ++ u, more ++ mallocs u, ?_, ?_, ?_, ?_, e5 c h5⟩
      · rw [e1, h1, List.append_assoc]
      · rw [submissions_append, h2, e2]; rfl
      · have : ∀ l₁ l₂ : List Event, freed (l₁ ++ l₂) = freed l₁ ++ freed l₂ := by
          intro l₁ l₂
          induction l₁ with
          | nil => rfl
          | cons e l ih => cases e <;> simp [freed, ih]
        rw [this, h3, e3]; rfl
      · rw [e4, h4, List.append_assoc]
    · right
      refine ⟨t, more, b, [], ?_, h2, h3, e2 c h5, ?_⟩
      · rw [e1, h1, h4]; simp
      · rw [e3]; rfl
  · right
    obtain ⟨u, u1, u2⟩ := lifeRun_effect h5 he
    exact ⟨t, more, b, t2 ++ u, by rw [u1, h1]; simp, h2, h3, h4, u2⟩

theorem effect_of_same {s s' : World} (h1 : s'.trace = s.trace)
    (h2 : s'.ctx.frees = s.ctx.frees) (h3 : ∀ c ∈ s.ctx.work, c ∈ s'.ctx.work) :
    Effect s s' :=
  Or.inl ⟨[], by simp [h1], rfl, rfl, by simp [h2, mallocs], h3⟩

theorem effect_of_left {s p s' : World} (h1 : p.trace = s.trace)
    (h2 : p.ctx.frees = s.ctx.frees) (h3 : ∀ c ∈ s.ctx.work, c ∈ p.ctx.work)
    (h : Effect p s') : Effect s s' := by
  rcases h with ⟨t, e1, e2, e3, e4, e5⟩ | ⟨b, e1, e2, e3⟩
  · exact Or.inl ⟨t, by rw [e1, h1], e2, e3, by rw [e4, h2], fun c hc => e5 c (h3 c hc)⟩
  · exact Or.inr ⟨b, by rw [e1, h1, h2], fun c hc => e2 c (h3 c hc), e3⟩

theorem effect_of_right {s s1 s' : World} (h1 : s'.trace = s1.trace)
    (h2 : s'.ctx.frees = s1.ctx.frees) (h3 : s'.ctx.work = s1.ctx.work)
    (h : Effect s s1) : Effect s s' := by
  rcases h with ⟨t, e1, e2, e3, e4, e5⟩ | ⟨b, e1, e2, e3⟩
  · exact Or.inl ⟨t, by rw [h1, e1], e2, e3, by rw [h2, e4], fun c hc => by rw [h3]; exact e5 c hc⟩
  · exact Or.inr ⟨b, by rw [h1, e1], e2, by rw [h2, e3]⟩

theorem DoWork_effect {E : Env} {s s' : World} (hq : s.ctx.queue = [])
    (hcap : s.ctx.queueCap = workBufLen)
    (hnb : ∀ c ∈ s.ctx.work.dropLast, c.blocking = false)
    (hlen : s.ctx.work.length ≤ workBufLen) (h : DoWork E s = some s') : Effect s s' := by
  cases hw : s.ctx.work with
  | nil =>
    rw [DoWork_empty E s hw] at h
    rw [← Option.some.inj h]
    exact effect_of_same rfl rfl (fun c hc => hc)
  | cons w ws =>
    rw [hw] at hnb hlen
    obtain ⟨hc, hbq, -⟩ := DoWork_one_cycle hq hcap hw hnb hlen h
    obtain ⟨-, -, hfr, -, -, -, -, htr, -⟩ := cycle_fields hc
    exact Or.inr ⟨batchOf E s w ws, htr, fun c hc' => by rw [hbq, ← hw]; exact hc', hfr⟩

theorem enqueue_effect {E : Env} {s s' : World} {c : call}
    (h : enqueue E s c = some s') (hq : s.ctx.queue = [])
    (hcap : s.ctx.queueCap = workBufLen) (hs : s.Quiet) : Effect s s' := by
  unfold enqueue at h
  split at h
  · rename_i hl
    simp only at h
    split at h
    · refine effect_of_left (p := { s with ctx := { s.ctx with
          work := s.ctx.work ++ [c], workAvailable := true } }) rfl rfl
        (fun x hx => List.mem_append_left _ hx) (DoWork_effect hq hcap ?_ ?_ h)
      · show ∀ x ∈ (s.ctx.work ++ [c]).dropLast, x.blocking = false
        rw [List.dropLast_concat]; exact hs.1
      · show (s.ctx.work ++ [c]).length ≤ workBufLen
        simp; omega
    · rw [← Option.some.inj h]
      exact effect_of_same rfl rfl (fun x hx => List.mem_append_left _ hx)
  · exact absurd h (by simp)

theorem readBack_fields (s : World) :
    (readBack s).1.trace = s.trace ∧ (readBack s).1.ctx.frees = s.ctx.frees ∧
    (readBack s).1.ctx.work = s.ctx.work := by
  unfold readBack
  split
  · exact ⟨rfl, rfl, rfl⟩
  · split <;> exact ⟨rfl, rfl, rfl⟩

theorem LaunchKernel_some {E : Env} {s s' : World} {function : Nat}
    {gx gy gz bx b_y bz sh : Int} {stream : Nat} {ps : List Nat}
    (h : LaunchKernel E s function gx gy gz bx b_y bz sh stream ps = some s') :
    s.ctx.work.length < workBufLen := by
  by_contra hn
  unfold LaunchKernel at h
  simp only at h
  unfold enqueue at h
  rw [if_neg (by simpa [newFnargs] using hn)] at h
  simp at h

theorem LaunchKernel_effect {E : Env} {s s' : World} {function : Nat}
    {gx gy gz bx b_y bz sh : Int} {stream : Nat} {ps : List Nat}
    (h : LaunchKernel E s function gx gy gz bx b_y bz sh stream ps = some s') :
    Effect s s' := by
  obtain ⟨s1, d, h1, -, -, -, k2, k3, k4, -⟩ :=
    LaunchKernel_fields E s function gx gy gz bx b_y bz sh stream ps (LaunchKernel_some h)
  rw [h] at h1
  rw [Option.some.inj h1]
  exact Or.inl ⟨_, k4, rfl, rfl, by rw [k3]; rfl, fun c hc => by rw [k2]; exact List.mem_append_left _ hc⟩

theorem Op_run_effect {E : Env} {s s' : World} (op : Op) (hi : s.Idle) (hs : s.Quiet)
    (h : op.run E s = some s') : Effect s s' := by
  have hq := hi.1
  have hcap := hi.2.2.1.1
  cases op with
  | SetCurrent =>
    have e := enqueue_effect h hq hcap hs
    exact e
  | MemAlloc bytesize =>
    simp only [Op.run, MemAlloc, Option.map_map] at h
    obtain ⟨s1, h1, h2⟩ := Option.map_eq_some'.1 h
    rw [← h2]
    obtain ⟨r1, r2, r3⟩ := readBack_fields s1
    have e := enqueue_effect h1 hq hcap hs
    exact effect_of_right r1 r2 r3 e
  | Memcpy dst src n =>
    have e := enqueue_effect h hq hcap hs
    exact e
  | MemcpyHtoD dst src n =>
    have e := enqueue_effect h hq hcap hs
    exact e
  | MemcpyDtoH dst src n =>
    have e := enqueue_effect h hq hcap hs
    exact e
  | MemFree m =>
    have e := enqueue_effect h hq hcap hs
    exact e
  | MemFreeHost p =>
    have e := enqueue_effect h hq hcap hs
    exact e
  | LaunchKernel fn gx gy gz bx b_y bz sh st ps => exact LaunchKernel_effect h
  | Synchronize =>
    have e := enqueue_effect h hq hcap hs
    exact e
  | LaunchAndSync fn gx gy gz bx b_y bz sh st ps =>
    simp only [Op.run, LaunchAndSync] at h
    obtain ⟨s1, h1, h2⟩ := Option.bind_eq_some.1 h
    have e1 : Effect s s1 := LaunchKernel_effect h1
    have hl : s1.ctx.work.length < workBufLen := by
      by_contra hn
      unfold Synchronize enqueue at h2
      rw [if_neg (by simpa [newFnargs] using hn)] at h2
      simp at h2
    rw [Synchronize_eq E s1 hl] at h2
    rw [← Option.some.inj h2]
    rcases e1 with ⟨t, e1, e2, e3, e4, e5⟩ | ⟨b, e1, e2, e3⟩
    · exact Or.inl ⟨t, e1, e2, e3, e4, fun c hc => List.mem_append_left _ (e5 c hc)⟩
    · exact Or.inr ⟨b, e1, e2, e3⟩
  | AllocAndCopy p bytesize =>
    simp only [Op.run, AllocAndCopy, Option.map_map] at h
    obtain ⟨s1, h1, h2⟩ := Option.map_eq_some'.1 h
    rw [← h2]
    obtain ⟨r1, r2, r3⟩ := readBack_fields s1
    have e := enqueue_effect h1 hq hcap hs
    exact effect_of_right r1 r2 r3 e
  | DoWork =>
    exact DoWork_effect hq hcap (fun c hc => hs.1 c (List.mem_of_mem_dropLast hc)) hs.2 h
  | Retval =>
    rw [← Option.some.inj h]
    exact effect_of_same rfl rfl (fun c hc => hc)
  | Errors =>
    rw [← Option.some.inj h]
    exact effect_of_same rfl rfl (fun c hc => hc)
  | FirstError =>
    rw [← Option.some.inj h]
    exact effect_of_same rfl rfl (fun c hc => hc)

theorem runOps_life {E : Env} (ops : List Op) : ∀ {s s' : World} {t : List Event},
    s.Inv → s.Quiet → lifeRun ([], []) t = some (s.ctx.frees, []) →
    runOps E s ops = some s' →
    ∃ u, s'.trace = s.trace ++ u ∧ lifeRun ([], []) (t ++ u) = some (s'.ctx.frees, []) := by
  induction ops with
  | nil =>
    intro s s' t _ _ hl h
    rw [← Option.some.inj h]
    exact ⟨[], by simp, by simpa using hl⟩
  | cons op ops ih =>
    intro s s' t hi hs hl h
    simp only [runOps] at h
    obtain ⟨s1, h1, h2⟩ := Option.bind_eq_some.1 h
    obtain ⟨u, u1, u2⟩ := lifeRun_effect hl (Op_run_effect op hi.1 hs h1)
    obtain ⟨v, v1, v2⟩ := ih (Op_run_inv op hi h1) (Op_run_quiet op hs h1) u2 h2
    exact ⟨u ++ v, by rw [v1, u1, List.append_assoc], by rw [← List.append_assoc]; exact v2⟩

theorem Reachable.life {E : Env} {s : World} (h : Reachable E s) :
    lifeRun ([], []) s.trace = some (s.ctx.frees, []) := by
  obtain ⟨c, d, heap, mem, ops, h⟩ := h
  obtain ⟨u, u1, u2⟩ := runOps_life (t := []) ops (new_inv c d heap mem)
    ⟨by intro c hc; simp [World.new, NewBatchedContext] at hc,
      by simp [World.new, NewBatchedContext]⟩ rfl h
  rw [u1]
  exact u2

theorem runOps_launchStatus {E : Env} (s1 : World) (c : call) (ops : List Op) :
    ∀ {s s' : World}, s.Inv → s.Quiet → LaunchStatus s1 c s →
    runOps E s ops = some s' → LaunchStatus s1 c s' := by
  induction ops with
  | nil =>
    intro s s' _ _ hl h
    rw [← Option.some.inj h]; exact hl
  | cons op ops ih =>
    intro s s' hi hs hl h
    simp only [runOps] at h
    obtain ⟨s2, h1, h2⟩ := Option.bind_eq_some.1 h
    exact ih (Op_run_inv op hi h1) (Op_run_quiet op hs h1)
      (launchStatus_step hl (Op_run_effect op hi.1 hs h1)) h2

/-- C16: in a sequential execution, `LaunchKernel` registers its two buffers at the end of
the pending-release list, right after allocating them, and sends its call.  Whatever
public methods are called next, either nothing has been submitted or freed since and the
buffers are still registered with the launch still waiting in the channel, or exactly one
cycle has submitted a batch containing the launch and, after `process` returned, freed
the buffers pending at that moment, these two among them, and every later `free`
releases a buffer allocated after that cycle.  Along the whole trace every `free` follows
an invocation of `process` and releases a buffer registered before it, each once, and the
pending-release list is the list of the buffers allocated and not yet freed. -/
theorem C16_buffers_freed_once_after_submission (E : Env) (s : World) (hr : Reachable E s)
    (function : Nat) (gx gy gz bx b_y bz sh : Int) (stream : Nat) (ps : List Nat)
    (s1 : World) (h1 : LaunchKernel E s function gx gy gz bx b_y bz sh stream ps = some s1)
    (ops : List Op) (s2 : World) (h2 : runOps E s1 ops = some s2) :
    s1.ctx.frees = s.ctx.frees ++
      [E.malloc s.nalloc (C_size_t (ps.length * pointerSize)),
       E.malloc (s.nalloc + 1) (C_size_t (ps.length * pointerSize))] ∧
    s1.trace = s.trace ++
      [Event.malloc (C_size_t (ps.length * pointerSize))
         (E.malloc s.nalloc (C_size_t (ps.length * pointerSize))),
       Event.malloc (C_size_t (ps.length * pointerSize))
         (E.malloc (s.nalloc + 1) (C_size_t (ps.length * pointerSize)))] ∧
    s1.ctx.work = s.ctx.work ++ [{ fnargs := s.heap.length, blocking := false }] ∧
    LaunchStatus s1 { fnargs := s.heap.length, blocking := false } s2 ∧
    lifeRun ([], []) s2.trace = some (s2.ctx.frees, []) := by
  obtain ⟨s1', d, k0, -, -, -, k2, k3, k4, -⟩ :=
    LaunchKernel_fields E s function gx gy gz bx b_y bz sh stream ps (LaunchKernel_some h1)
  rw [h1] at k0
  have hs1 : s1' = s1 := (Option.some.inj k0).symm
  subst hs1
  have hi1 : s1'.Inv := LaunchKernel_inv hr.inv h1
  have hq1 : s1'.Quiet := LaunchKernel_quiet hr.quiet h1
  have hl1 : lifeRun ([], []) s1'.trace = some (s1'.ctx.frees, []) := by
    obtain ⟨u, u1, u2⟩ := lifeRun_effect hr.life (LaunchKernel_effect h1)
    rw [u1]; exact u2
  refine ⟨k3, k4, k2, ?_, ?_⟩
  · refine runOps_launchStatus s1' _ ops hi1 hq1 (Or.inl ⟨[], [], by simp, rfl, rfl, by simp, ?_⟩) h2
    rw [k2]; simp
  · obtain ⟨u, u1, u2⟩ := runOps_life ops hi1 hq1 hl1 h2
    rw [u1]; exact u2

theorem C16_buffers_freed_once_after_submission_witness :
    ∃ s1 s2, LaunchKernel sampleEnv (World.new 7 0 [] sampleMem) 5 1 1 1 32 1 1 0 0 [512, 520] =
        some s1 ∧
      runOps sampleEnv s1 [.MemFree 4096, .MemAlloc 1024, .Memcpy 4096 8192 64] = some s2 ∧
      s1.ctx.frees = [65536, 65568] ∧
      freed s2.trace = [65536, 65568] ∧ s2.ctx.frees = [] ∧
      LaunchStatus s1 { fnargs := 0, blocking := false } s2 ∧
      lifeRun ([], []) s2.trace = some (s2.ctx.frees, []) := by
  obtain ⟨s1, s2, h1, h2, h3, h4, h5⟩ : ∃ s1 s2,
      LaunchKernel sampleEnv (World.new 7 0 [] sampleMem) 5 1 1 1 32 1 1 0 0 [512, 520] =
        some s1 ∧
      runOps sampleEnv s1 [.MemFree 4096, .MemAlloc 1024, .Memcpy 4096 8192 64] = some s2 ∧
      s1.ctx.frees = [65536, 65568] ∧
      freed s2.trace = [65536, 65568] ∧ s2.ctx.frees = [] :=
    ⟨_, _, rfl, rfl, by decide, by decide, by decide⟩
  have h := C16_buffers_freed_once_after_submission sampleEnv (World.new 7 0 [] sampleMem)
    ⟨7, 0, [], sampleMem, [], rfl⟩ 5 1 1 1 32 1 1 0 0 [512, 520] s1 h1 _ s2 h2
  exact ⟨s1, s2, h1, h2, h3, h4, h5, h.2.2.2.1, h.2.2.2.2⟩

theorem LaunchAndSync_fields (E : Env) (s : World) (function : Nat)
    (gx gy gz bx b_y bz sh : Int) (stream : Nat) (ps : List Nat)
    (hl : s.ctx.work.length < 14) :
    ∃ (s' : World) (dl : fnargs),
      LaunchAndSync E s function gx gy gz bx b_y bz sh stream ps = some s' ∧
      dl.fn = .fn_launchKernel ∧
      s'.heap = s.heap ++ [dl, { fn := .fn_sync }] ∧
      s'.ctx.work = s.ctx.work ++
        [{ fnargs := s.heap.length, blocking := false },
         { fnargs := s.heap.length + 1, blocking := false }] ∧
      submissions s'.trace = submissions s.trace ∧
      s'.ctx.queue = s.ctx.queue ∧ s'.ctx.queueCap = s.ctx.queueCap ∧
      s'.ctx.resultsBuf = s.ctx.resultsBuf := by
  have hl15 : s.ctx.work.length < workBufLen := by unfold workBufLen; omega
  obtain ⟨s1, dl, h, hdl, k1, k2, k4, k7, k8, k9⟩ : ∃ (s1 : World) (dl : fnargs),
      LaunchKernel E s function gx gy gz bx b_y bz sh stream ps = some s1 ∧
      dl.fn = .fn_launchKernel ∧ s1.heap = s.heap ++ [dl] ∧
      s1.ctx.work = s.ctx.work ++ [{ fnargs := s.heap.length, blocking := false }] ∧
      submissions s1.trace = submissions s.trace ∧
      s1.ctx.queue = s.ctx.queue ∧ s1.ctx.queueCap = s.ctx.queueCap ∧
      s1.ctx.resultsBuf = s.ctx.resultsBuf := by
    obtain ⟨d, hd, -, h⟩ := LaunchKernel_eq E s function gx gy gz bx b_y bz sh stream ps hl15
    exact ⟨_, d, h, hd, rfl, rfl, by simp [submissions_append, submissions], rfl, rfl, rfl⟩
  obtain ⟨s2, h2, m1, m2, m3, m4, m5, m6⟩ : ∃ s2, Synchronize E s1 = some s2 ∧
      s2.heap = s1.heap ++ [{ fn := .fn_sync }] ∧
      s2.ctx.work = s1.ctx.work ++ [{ fnargs := s1.heap.length, blocking := false }] ∧
      s2.trace = s1.trace ∧ s2.ctx.queue = s1.ctx.queue ∧
      s2.ctx.queueCap = s1.ctx.queueCap ∧ s2.ctx.resultsBuf = s1.ctx.resultsBuf :=
    ⟨_, Synchronize_eq E s1 (by rw [k2]; simp [workBufLen]; omega), rfl, rfl, rfl, rfl, rfl, rfl⟩
  refine ⟨s2, dl, ?_, hdl, ?_, ?_, ?_, by rw [m4, k7], by rw [m5, k8], by rw [m6, k9]⟩
  · unfold LaunchAndSync
    rw [h, Option.some_bind, h2]
  · simp [m1, k1]
  · simp [m2, k1, k2]
  · rw [m3, k4]

theorem enqueue_new_nonblocking_some {E : Env} {s s' : World} {d : fnargs}
    (h : enqueue E (newFnargs s d).1 { fnargs := (newFnargs s d).2, blocking := false } =
      some s') :
    Deferred s s' [{ fnargs := s.heap.length, blocking := false }] := by
  by_cases hl : s.ctx.work.length < workBufLen
  · rw [enqueue_new_nonblocking E s d hl] at h
    rw [← Option.some.inj h]
    exact ⟨rfl, by simp, rfl, rfl, rfl, rfl, by simp⟩
  · unfold enqueue at h
    rw [if_neg (by simpa [newFnargs] using hl)] at h
    simp at h

theorem Deferred.refl (s : World) : Deferred s s [] :=
  ⟨by simp, by simp, rfl, rfl, rfl, rfl, Nat.le_refl _⟩

theorem Deferred.trans {s p q : World} {l₁ l₂ : List call} (h₁ : Deferred s p l₁)
    (h₂ : Deferred p q l₂) : Deferred s q (l₁ ++ l₂) := by
  obtain ⟨a1, a2, a3, a4, a5, a6, a7⟩ := h₁
  obtain ⟨b1, b2, b3, b4, b5, b6, b7⟩ := h₂
  refine ⟨by rw [b1, a1, List.append_assoc], ?_, b3.trans a3, b4.trans a4, b5.trans a5,
    b6.trans a6, Nat.le_trans a7 b7⟩
  intro c hc
  rcases List.mem_append.1 hc with hc | hc
  · exact a2 c hc
  · exact b2 c hc

theorem LaunchKernel_deferred {E : Env} {s s' : World} {function : Nat}
    {gx gy gz bx b_y bz sh : Int} {stream : Nat} {ps : List Nat}
    (h : LaunchKernel E s function gx gy gz bx b_y bz sh stream ps = some s') :
    Deferred s s' [{ fnargs := s.heap.length, blocking := false }] := by
  obtain ⟨d, -, -, h1⟩ :=
    LaunchKernel_eq E s function gx gy gz bx b_y bz sh stream ps (LaunchKernel_some h)
  rw [h] at h1
  rw [Option.some.inj h1]
  exact ⟨rfl, by simp, by simp [submissions_append, submissions], rfl, rfl, rfl, by simp⟩

theorem Op_run_deferred {E : Env} {s s' : World} (op : Op) (hd : op.defers = true)
    (h : op.run E s = some s') : ∃ sent, Deferred s s' sent := by
  cases op with
  | SetCurrent => exact ⟨_, enqueue_new_nonblocking_some h⟩
  | MemAlloc bytesize => simp [Op.defers] at hd
  | Memcpy dst src n => exact ⟨_, enqueue_new_nonblocking_some h⟩
  | MemcpyHtoD dst src n => exact ⟨_, enqueue_new_nonblocking_some h⟩
  | MemcpyDtoH dst src n => exact ⟨_, enqueue_new_nonblocking_some h⟩
  | MemFree m => exact ⟨_, enqueue_new_nonblocking_some h⟩
  | MemFreeHost p => exact ⟨_, enqueue_new_nonblocking_some h⟩
  | LaunchKernel fn gx gy gz bx b_y bz sh st ps => exact ⟨_, LaunchKernel_deferred h⟩
  | Synchronize => exact ⟨_, enqueue_new_nonblocking_some h⟩
  | LaunchAndSync fn gx gy gz bx b_y bz sh st ps =>
    simp only [Op.run, LaunchAndSync] at h
    obtain ⟨s1, h1, h2⟩ := Option.bind_eq_some.1 h
    exact ⟨_, (LaunchKernel_deferred h1).trans (enqueue_new_nonblocking_some h2)⟩
  | AllocAndCopy p bytesize => simp [Op.defers] at hd
  | DoWork => simp [Op.defers] at hd
  | Retval =>
    simp only [Op.run] at h
    rw [← Option.some.inj h]
    exact ⟨[], by simp [Retval], by simp, rfl, rfl, rfl, rfl, Nat.le_refl _⟩
  | Errors =>
    simp only [Op.run] at h
    rw [← Option.some.inj h]
    exact ⟨[], Deferred.refl s⟩
  | FirstError =>
    simp only [Op.run] at h
    rw [← Option.some.inj h]
    exact ⟨[], by simp [FirstError], by simp, rfl, rfl, rfl, FirstError_resultsBuf_length s,
      Nat.le_refl _⟩

theorem runOps_deferred {E : Env} (ops : List Op) : ∀ {s s' : World},
    (∀ op ∈ ops, op.defers = true) → runOps E s ops = some s' → ∃ sent, Deferred s s' sent := by
  induction ops with
  | nil => intro s s' _ h; rw [← Option.some.inj h]; exact ⟨[], Deferred.refl s⟩
  | cons op ops ih =>
    intro s s' hd h
    simp only [runOps] at h
    obtain ⟨s1, h1, h2⟩ := Option.bind_eq_some.1 h
    obtain ⟨l₁, d1⟩ := Op_run_deferred op (hd op (List.mem_cons_self _ _)) h1
    obtain ⟨l₂, d2⟩ := ih (fun o ho => hd o (List.mem_cons_of_mem _ ho)) h2
    exact ⟨_, d1.trans d2⟩

/-- On an empty queue, a run of `DoWork` that returns leaves the channel empty, and the
batches it has submitted are, put end to end, the calls that were in the channel. -/
theorem DoWork_pending {E : Env} {p p' : World} (hq : p.ctx.queue = [])
    (h : DoWork E p = some p') :
    p'.ctx.work = [] ∧
    ∃ bs, submissions p'.trace = submissions p.trace ++ bs ∧
      (bs.map Submission.queue).flatten = p.ctx.work := by
  obtain ⟨bs, i1, -, i3, i4, -⟩ := DoWorkLoop_batches E _ _ p' h hq
  exact ⟨i1, bs, by rw [i3, submissions_append, submissions_traceOf], i4⟩

/-- On an empty queue, a blocking method that returns leaves the channel empty, and the
batches submitted meanwhile are, put end to end, the calls that were in the channel
followed by the method's own call. -/
theorem blockingOp_pending {E : Env} {p : World} {d : fnargs}
    {r : World × Nat × Option error} (hq : p.ctx.queue = [])
    (h : (enqueue E (newFnargs p d).1
      { fnargs := (newFnargs p d).2, blocking := true }).map readBack = some r) :
    r.1.ctx.work = [] ∧
    ∃ bs, submissions r.1.trace = submissions p.trace ++ bs ∧
      (bs.map Submission.queue).flatten =
        p.ctx.work ++ [{ fnargs := p.heap.length, blocking := true }] := by
  obtain ⟨-, s1, h1, h2⟩ := blockingOp_some h
  obtain ⟨f1, bs, f2, f3⟩ := DoWork_pending (p := afterSend p d) hq h1
  obtain ⟨r1, -, r3⟩ := readBack_fields s1
  rw [h2]
  exact ⟨by rw [r3]; exact f1, bs, by rw [r1]; exact f2, f3⟩

/-- Under the contract of the native routine, a blocking method returns when the queue
is empty with the capacities of `NewBatchedContext`, the blocking calls in the channel
point to descriptors and the channel has room for one more call. -/
theorem blockingOp_returns {E : Env} (hE : E.Contract) {p : World} (d : fnargs)
    (hq : p.ctx.queue = []) (hcap : p.ctx.queueCap = workBufLen)
    (hres : p.ctx.resultsBuf.length = workBufLen) (hv : p.Valid)
    (hl : p.ctx.work.length < workBufLen) :
    ∃ r, (enqueue E (newFnargs p d).1
      { fnargs := (newFnargs p d).2, blocking := true }).map readBack = some r := by
  have hv' : (afterSend p d).Valid := by
    intro c hc hb
    have hc' : c ∈ p.ctx.work ++ [({ fnargs := p.heap.length, blocking := true } : call)] := hc
    show c.fnargs < (p.heap ++ [d]).length
    rw [List.length_append, List.length_singleton]
    rcases List.mem_append.1 hc' with h | h
    · exact Nat.lt_succ_of_lt (hv c h hb)
    · simp at h; rw [h]; exact Nat.lt_succ_self _
  obtain ⟨s1, h1, -⟩ := DoWork_returns hE (afterSend p d) hq hcap hres hv'
  exact ⟨readBack s1, by rw [enqueue_new_blocking E p d hl, h1]; rfl⟩

/-- C13 as amended: the call `Synchronize` enqueues is non-blocking, so it neither blocks
nor flushes.  With fewer than 14 calls pending, `LaunchAndSync` returns with the launch
call and the synchronize call appended to the channel in this order, without any
invocation of `process`.  On an empty queue they are submitted, in this order and after
the calls that were pending, by the `DoWork` that runs next, which leaves the channel
empty: a `DoWork` called next, the one that `MemAlloc` or `AllocAndCopy`, called next,
triggers with its own blocking call last, or any of these three called after further
methods that only enqueue non-blocking calls or read the context, whose calls then
follow in between.  Under the contract of the native routine, with the capacities of
`NewBatchedContext` and blocking calls that point to descriptors, that `DoWork` returns,
and so do `MemAlloc` and `AllocAndCopy` when the channel has room for their own call. -/
theorem C13_LaunchAndSync_only_enqueues (E : Env) (s : World) (function : Nat)
    (gx gy gz bx b_y bz sh : Int) (stream : Nat) (ps : List Nat)
    (hl : s.ctx.work.length < 14) :
    (∃ s1, Synchronize E s = some s1 ∧ FireAndForget s s1 .fn_sync) ∧
    ∃ s' dl, LaunchAndSync E s function gx gy gz bx b_y bz sh stream ps = some s' ∧
      dl.fn = .fn_launchKernel ∧
      s'.heap = s.heap ++ [dl, { fn := .fn_sync }] ∧
      s'.ctx.work = s.ctx.work ++
        [{ fnargs := s.heap.length, blocking := false },
         { fnargs := s.heap.length + 1, blocking := false }] ∧
      submissions s'.trace = submissions s.trace ∧
      (s.ctx.queue = [] → ∀ s'', DoWork E s' = some s'' →
        s''.ctx.work = [] ∧
        ∃ bs, submissions s''.trace = submissions s.trace ++ bs ∧
          (bs.map Submission.queue).flatten = s.ctx.work ++
            [{ fnargs := s.heap.length, blocking := false },
             { fnargs := s.heap.length + 1, blocking := false }]) ∧
      (E.Contract → s.ctx.queue = [] → s.ctx.Sized → s.Valid →
        ∃ s'', DoWork E s' = some s'') ∧
      (s.ctx.queue = [] → ∀ bytesize r, MemAlloc E s' bytesize = some r →
        r.1.ctx.work = [] ∧
        ∃ bs, submissions r.1.trace = submissions s.trace ++ bs ∧
          (bs.map Submission.queue).flatten = s.ctx.work ++
            [{ fnargs := s.heap.length, blocking := false },
             { fnargs := s.heap.length + 1, blocking := false },
             { fnargs := s.heap.length + 2, blocking := true }]) ∧
      (s.ctx.queue = [] → ∀ q bytesize r, AllocAndCopy E s' q bytesize = some r →
        r.1.ctx.work = [] ∧
        ∃ bs, submissions r.1.trace = submissions s.trace ++ bs ∧
          (bs.map Submission.queue).flatten = s.ctx.work ++
            [{ fnargs := s.heap.length, blocking := false },
             { fnargs := s.heap.length + 1, blocking := false },
             { fnargs := s.heap.length + 2, blocking := true }]) ∧
      (E.Contract → s.ctx.queue = [] → s.ctx.Sized → s.Valid → s.ctx.work.length < 13 →
        (∀ bytesize, ∃ r, MemAlloc E s' bytesize = some r) ∧
        (∀ q bytesize, ∃ r, AllocAndCopy E s' q bytesize = some r)) ∧
      (s.ctx.queue = [] → ∀ ops p, (∀ op ∈ ops, op.defers = true) →
        runOps E s' ops = some p →
        ∃ sent, (∀ c ∈ sent, c.blocking = false) ∧
          p.ctx.work = s.ctx.work ++
            [{ fnargs := s.heap.length, blocking := false },
             { fnargs := s.heap.length + 1, blocking := false }] ++ sent ∧
          submissions p.trace = submissions s.trace ∧
          (∀ p', DoWork E p = some p' →
            p'.ctx.work = [] ∧
            ∃ bs, submissions p'.trace = submissions s.trace ++ bs ∧
              (bs.map Submission.queue).flatten = s.ctx.work ++
                [{ fnargs := s.heap.length, blocking := false },
                 { fnargs := s.heap.length + 1, blocking := false }] ++ sent) ∧
          (∀ bytesize r, MemAlloc E p bytesize = some r →
            r.1.ctx.work = [] ∧
            ∃ bs, submissions r.1.trace = submissions s.trace ++ bs ∧
              (bs.map Submission.queue).flatten = s.ctx.work ++
                [{ fnargs := s.heap.length, blocking := false },
                 { fnargs := s.heap.length + 1, blocking := false }] ++ sent ++
                [{ fnargs := p.heap.length, blocking := true }]) ∧
          (∀ q bytesize r, AllocAndCopy E p q bytesize = some r →
            r.1.ctx.work = [] ∧
            ∃ bs, submissions r.1.trace = submissions s.trace ++ bs ∧
              (bs.map Submission.queue).flatten = s.ctx.work ++
                [{ fnargs := s.heap.length, blocking := false },
                 { fnargs := s.heap.length + 1, blocking := false }] ++ sent ++
                [{ fnargs := p.heap.length, blocking := true }]) ∧
          (E.Contract → s.ctx.Sized → s.Valid →
            (∃ p', DoWork E p = some p') ∧
            (p.ctx.work.length < workBufLen →
              (∀ bytesize, ∃ r, MemAlloc E p bytesize = some r) ∧
              (∀ q bytesize, ∃ r, AllocAndCopy E p q bytesize = some r)))) := by
  have hl15 : s.ctx.work.length < workBufLen := by unfold workBufLen; omega
  refine ⟨⟨_, Synchronize_eq E s hl15, fireAndForget_new s _⟩, ?_⟩
  obtain ⟨s', dl, h, hdl, k1, k2, k3, k4, k5, k6⟩ :=
    LaunchAndSync_fields E s function gx gy gz bx b_y bz sh stream ps hl
  have hheap : s'.heap.length = s.heap.length + 2 := by rw [k1]; simp
  have key : ∀ (p : World) (sent : List call), Deferred s' p sent → s.ctx.queue = [] →
      p.ctx.work = s.ctx.work ++
        [{ fnargs := s.heap.length, blocking := false },
         { fnargs := s.heap.length + 1, blocking := false }] ++ sent ∧
      submissions p.trace = submissions s.trace ∧
      (∀ p', DoWork E p = some p' →
        p'.ctx.work = [] ∧
        ∃ bs, submissions p'.trace = submissions s.trace ++ bs ∧
          (bs.map Submission.queue).flatten = s.ctx.work ++
            [{ fnargs := s.heap.length, blocking := false },
             { fnargs := s.heap.length + 1, blocking := false }] ++ sent) ∧
      (∀ (d : fnargs) (r : World × Nat × Option error),
        (enqueue E (newFnargs p d).1
          { fnargs := (newFnargs p d).2, blocking := true }).map readBack = some r →
        r.1.ctx.work = [] ∧
        ∃ bs, submissions r.1.trace = submissions s.trace ++ bs ∧
          (bs.map Submission.queue).flatten = s.ctx.work ++
            [{ fnargs := s.heap.length, blocking := false },
             { fnargs := s.heap.length + 1, blocking := false }] ++ sent ++
            [{ fnargs := p.heap.length, blocking := true }]) ∧
      (E.Contract → s.ctx.Sized → s.Valid →
        (∃ p', DoWork E p = some p') ∧
        (p.ctx.work.length < workBufLen → ∀ d : fnargs,
          ∃ r, (enqueue E (newFnargs p d).1
            { fnargs := (newFnargs p d).2, blocking := true }).map readBack = some r)) := by
    intro p sent ⟨d1, d2, d3, d4, d5, d6, d7⟩ hq
    have hw : p.ctx.work = s.ctx.work ++
        [{ fnargs := s.heap.length, blocking := false },
         { fnargs := s.heap.length + 1, blocking := false }] ++ sent := by rw [d1, k2]
    have ht : submissions p.trace = submissions s.trace := d3.trans k3
    have hpq : p.ctx.queue = [] := by rw [d4, k4]; exact hq
    refine ⟨hw, ht, ?_, ?_, ?_⟩
    · intro p' hd
      obtain ⟨f1, bs, f2, f3⟩ := DoWork_pending hpq hd
      exact ⟨f1, bs, by rw [f2, ht], by rw [f3, hw]⟩
    · intro d r hr
      obtain ⟨f1, bs, f2, f3⟩ := blockingOp_pending hpq hr
      exact ⟨f1, bs, by rw [f2, ht], by rw [f3, hw]⟩
    · intro hE hsz hv
      have hcap : p.ctx.queueCap = workBufLen := by rw [d5, k5]; exact hsz.1
      have hres : p.ctx.resultsBuf.length = workBufLen := by rw [d6, k6]; exact hsz.2.2
      have hpv : p.Valid := by
        intro c hc hb
        rw [hw] at hc
        rcases List.mem_append.1 hc with hc | hc
        · rcases List.mem_append.1 hc with hc | hc
          · have := hv c hc hb; omega
          · simp at hc
            rcases hc with hc | hc
            · rw [hc] at hb; simp at hb
            · rw [hc] at hb; simp at hb
        · rw [d2 c hc] at hb; simp at hb
      refine ⟨?_, fun hroom d => blockingOp_returns hE d hpq hcap hres hpv hroom⟩
      obtain ⟨p', h1, -⟩ := DoWork_returns hE p hpq hcap hres hpv
      exact ⟨p', h1⟩
  have next := key s' [] (Deferred.refl s')
  have hroom : s.ctx.work.length < 13 → s'.ctx.work.length < workBufLen := by
    intro h13; rw [k2]; simp [workBufLen]; omega
  refine ⟨s', dl, h, hdl, k1, k2, k3, ?_, ?_, ?_, ?_, ?_, ?_⟩
  · intro hq s'' hd
    simpa using (next hq).2.2.1 s'' hd
  · intro hE hq hsz hv
    exact ((next hq).2.2.2.2 hE hsz hv).1
  · intro hq bytesize r hr
    simpa [hheap] using (next hq).2.2.2.1 _ r hr
  · intro hq q bytesize r hr
    simpa [hheap] using (next hq).2.2.2.1 _ r hr
  · intro hE hq hsz hv h13
    exact ⟨fun bytesize => ((next hq).2.2.2.2 hE hsz hv).2 (hroom h13) _,
      fun q bytesize => ((next hq).2.2.2.2 hE hsz hv).2 (hroom h13) _⟩
  · intro hq ops p hd hrun
    obtain ⟨sent, hdef⟩ := runOps_deferred ops hd hrun
    obtain ⟨g1, g2, g3, g4, g5⟩ := key p sent hdef hq
    refine ⟨sent, hdef.2.1, g1, g2, g3, fun bytesize r hr => g4 _ r hr,
      fun q bytesize r hr => g4 _ r hr, fun hE hsz hv => ?_⟩
    obtain ⟨e1, e2⟩ := g5 hE hsz hv
    exact ⟨e1, fun hr => ⟨fun bytesize => e2 hr _, fun q bytesize => e2 hr _⟩⟩

theorem C13_LaunchAndSync_only_enqueues_witness :
    sampleWorld.ctx.work.length < 14 ∧
    ∃ (s' s'' : World) (dl : fnargs) (r : World × Nat × Option error) (p : World)
      (r' : World × Nat × Option error),
      LaunchAndSync sampleEnv sampleWorld 5 1 1 1 32 1 1 0 0 [512, 520] = some s' ∧
      dl.fn = .fn_launchKernel ∧
      s'.heap = sampleWorld.heap ++ [dl, { fn := .fn_sync }] ∧
      s'.ctx.work = [{ fnargs := 2, blocking := false }, { fnargs := 3, blocking := false }] ∧
      submissions s'.trace = [] ∧
      DoWork sampleEnv s' = some s'' ∧
      s''.ctx.work = [] ∧
      (∃ bs, submissions s''.trace = bs ∧
        (bs.map Submission.queue).flatten =
          [{ fnargs := 2, blocking := false }, { fnargs := 3, blocking := false }]) ∧
      MemAlloc sampleEnv s' 1024 = some r ∧
      r.1.ctx.work = [] ∧
      (∃ bs, submissions r.1.trace = bs ∧
        (bs.map Submission.queue).flatten =
          [{ fnargs := 2, blocking := false }, { fnargs := 3, blocking := false },
           { fnargs := 4, blocking := true }]) ∧
      (∃ r2, AllocAndCopy sampleEnv s' 512 16 = some r2 ∧ r2.1.ctx.work = []) ∧
      runOps sampleEnv s' [.MemFree 4096] = some p ∧
      p.ctx.work = [{ fnargs := 2, blocking := false }, { fnargs := 3, blocking := false },
                    { fnargs := 4, blocking := false }] ∧
      MemAlloc sampleEnv p 1024 = some r' ∧
      r'.1.ctx.work = [] ∧
      ∃ bs, submissions r'.1.trace = bs ∧
        (bs.map Submission.queue).flatten =
          [{ fnargs := 2, blocking := false }, { fnargs := 3, blocking := false },
           { fnargs := 4, blocking := false }, { fnargs := 5, blocking := true }] := by
  have hv : sampleWorld.Valid := by
    intro c hc
    exact absurd hc (List.not_mem_nil c)
  have hsz : sampleWorld.ctx.Sized := ⟨rfl, rfl, rfl⟩
  obtain ⟨-, s', dl, h, hdl, k1, k2, k3, safe, live, safeA, safeC, liveA, later⟩ :=
    C13_LaunchAndSync_only_enqueues sampleEnv sampleWorld 5 1 1 1 32 1 1 0 0 [512, 520]
      (by decide)
  have k2' : s'.ctx.work =
      [{ fnargs := 2, blocking := false }, { fnargs := 3, blocking := false }] := k2
  have hheap : s'.heap.length = 4 := by rw [k1]; rfl
  obtain ⟨s'', hd⟩ := live sampleEnv_contract rfl hsz hv
  obtain ⟨r, hr⟩ := (liveA sampleEnv_contract rfl hsz hv (by decide)).1 1024
  obtain ⟨r2, hr2⟩ := (liveA sampleEnv_contract rfl hsz hv (by decide)).2 512 16
  obtain ⟨f1, bs, f2, f3⟩ := safe rfl s'' hd
  obtain ⟨g1, bs2, g2, g3⟩ := safeA rfl 1024 r hr
  obtain ⟨p, hp, hpw, hph⟩ : ∃ p : World, runOps sampleEnv s' [.MemFree 4096] = some p ∧
      p.ctx.work = s'.ctx.work ++ [{ fnargs := s'.heap.length, blocking := false }] ∧
      p.heap.length = s'.heap.length + 1 := by
    have e : runOps sampleEnv s' [.MemFree 4096] = some
        { s' with
          heap := s'.heap ++ [{ fn := .fn_memfreeD, devptr0 := 4096 }]
          ctx := { s'.ctx with
                   work := s'.ctx.work ++ [{ fnargs := s'.heap.length, blocking := false }]
                   workAvailable := true } } := by
      simp only [runOps, Op.run, MemFree]
      rw [enqueue_new_nonblocking sampleEnv s' _ (by rw [k2']; decide)]
      rfl
    exact ⟨_, e, rfl, by simp⟩
  rw [k2', hheap] at hpw
  rw [hheap] at hph
  obtain ⟨sent, -, l1, -, -, l4, -, l6⟩ := later rfl [.MemFree 4096] p (by decide) hp
  have hsent : sent = [{ fnargs := 4, blocking := false }] := by
    have e : [({ fnargs := 2, blocking := false } : call), { fnargs := 3, blocking := false }] ++
        [{ fnargs := 4, blocking := false }] =
        [{ fnargs := 2, blocking := false }, { fnargs := 3, blocking := false }] ++ sent :=
      hpw.symm.trans l1
    exact (List.append_cancel_left e).symm
  subst hsent
  obtain ⟨r', hr'⟩ := ((l6 sampleEnv_contract hsz hv).2 (by rw [hpw]; decide)).1 1024
  obtain ⟨m1, bs3, m2, m3⟩ := l4 1024 r' hr'
  rw [hph] at m3
  exact ⟨by decide, s', s'', dl, r, p, r', h, hdl, k1, k2, k3, hd, f1, ⟨bs, f2, f3⟩, hr, g1,
    ⟨bs2, g2, g3⟩, ⟨r2, hr2, (safeC rfl 512 16 r2 hr2).1⟩, hp, hpw, hr', m1, bs3, m2, m3⟩

end Cu
